import Mathlib

/-!
Verification of the steed content-delivery engine against its specification.

Each section shallowly embeds one component of the Rust source tree
(crates/lookup3, crates/ngdp, crates/binstream) as executable Lean
definitions, translated function-by-function from the source.  Machine
integers are modelled as Nat with explicit reductions modulo 2^32 (or the
relevant width) exactly where the source performs wrapping arithmetic.
External library calls (MD5, zlib, Salsa20 keystream) are passed in as
explicit function parameters, since those collaborators are outside the
repository; every use site mirrors the call shape of the source.
Rust panics in fallible decode paths are modelled as distinguished error
values of the result type.
-/

namespace Steed

/-- 2^32, the modulus for u32 arithmetic. -/
def M32 : Nat := 4294967296

/-- Wrapping u32 addition. -/
def add32 (a b : Nat) : Nat := (a + b) % M32

/-- Wrapping u32 subtraction (operands are reduced first, as u32 values are). -/
def sub32 (a b : Nat) : Nat := (a % M32 + (M32 - b % M32)) % M32

/-- u32 rotate left by k bits. -/
def rotl32 (x k : Nat) : Nat := ((x <<< k) % M32) ||| ((x % M32) >>> (32 - k))

/-- u32 xor (xor of values below 2^32 stays below 2^32). -/
def xor32 (a b : Nat) : Nat := a ^^^ b

/-! ## lookup3 (crates/lookup3/src/lib.rs)

Jenkins lookup3 hash, byte-by-byte little-endian variant, exactly as the
source implements it: mix over 12-byte groups while more than 12 bytes
remain, then the cascade over the remainder. -/

/-- lookup3 mix: one round over the three 32-bit lanes. -/
def mix3 (a b c : Nat) : Nat × Nat × Nat :=
  let a := sub32 a c
  let a := xor32 a (rotl32 c 4)
  let c := add32 c b
  let b := sub32 b a
  let b := xor32 b (rotl32 a 6)
  let a := add32 a c
  let c := sub32 c b
  let c := xor32 c (rotl32 b 8)
  let b := add32 b a
  let a := sub32 a c
  let a := xor32 a (rotl32 c 16)
  let c := add32 c b
  let b := sub32 b a
  let b := xor32 b (rotl32 a 19)
  let a := add32 a c
  let c := sub32 c b
  let c := xor32 c (rotl32 b 4)
  let b := add32 b a
  (a, b, c)

/-- lookup3 final mixing of (a,b,c) into c. -/
def final32 (a b c : Nat) : Nat × Nat × Nat :=
  let c := xor32 c b
  let c := sub32 c (rotl32 b 14)
  let a := xor32 a c
  let a := sub32 a (rotl32 c 11)
  let b := xor32 b a
  let b := sub32 b (rotl32 a 25)
  let c := xor32 c b
  let c := sub32 c (rotl32 b 16)
  let a := xor32 a c
  let a := sub32 a (rotl32 c 4)
  let b := xor32 b a
  let b := sub32 b (rotl32 a 14)
  let c := xor32 c b
  let c := sub32 c (rotl32 b 24)
  (a, b, c)

/-- One 12-byte group folded into lane `a`/`b`/`c` (little-endian u32 each). -/
def word32LE (b0 b1 b2 b3 : Nat) : Nat :=
  b0 + (b1 <<< 8) + (b2 <<< 16) + (b3 <<< 24)

/-- The main loop of hashlittle2: while more than 12 bytes remain, absorb a
12-byte group and mix.  The 13-element pattern is exactly the loop guard
`k.len() > 12` of the source. -/
def hl2Loop : List Nat → Nat → Nat → Nat → (List Nat × Nat × Nat × Nat)
  | k0 :: k1 :: k2 :: k3 :: k4 :: k5 :: k6 :: k7 :: k8 :: k9 :: k10 :: k11 ::
      rest0 :: rest, a, b, c =>
    let a := add32 a (word32LE k0 k1 k2 k3)
    let b := add32 b (word32LE k4 k5 k6 k7)
    let c := add32 c (word32LE k8 k9 k10 k11)
    let (a, b, c) := mix3 a b c
    hl2Loop (rest0 :: rest) a b c
  | k, a, b, c => (k, a, b, c)

/-- The remainder cascade of hashlittle2 (at most 12 bytes left). -/
def hl2Tail (k : List Nat) (a b c : Nat) : Nat × Nat :=
  let r := k.length
  let c := if r ≥ 12 then add32 c ((k.getD 11 0) <<< 24) else c
  let c := if r ≥ 11 then add32 c ((k.getD 10 0) <<< 16) else c
  let c := if r ≥ 10 then add32 c ((k.getD 9 0) <<< 8) else c
  let c := if r ≥ 9 then add32 c (k.getD 8 0) else c
  let b := if r ≥ 8 then add32 b ((k.getD 7 0) <<< 24) else b
  let b := if r ≥ 7 then add32 b ((k.getD 6 0) <<< 16) else b
  let b := if r ≥ 6 then add32 b ((k.getD 5 0) <<< 8) else b
  let b := if r ≥ 5 then add32 b (k.getD 4 0) else b
  let a := if r ≥ 4 then add32 a ((k.getD 3 0) <<< 24) else a
  let a := if r ≥ 3 then add32 a ((k.getD 2 0) <<< 16) else a
  let a := if r ≥ 2 then add32 a ((k.getD 1 0) <<< 8) else a
  if r ≥ 1 then
    let a := add32 a (k.getD 0 0)
    let (_, b, c) := final32 a b c
    (c, b)
  else (c, b)

/-- hashlittle2(k, pc, pb): two 32-bit hashes of a byte string; returns
(*pc, *pb) = (c, b) of the source. -/
def hashlittle2 (k : List Nat) (pc pb : Nat) : Nat × Nat :=
  let a := add32 (add32 0xdeadbeef (k.length % M32)) pc
  let b := a
  let c := add32 a pb
  let (k, a, b, c) := hl2Loop k a b c
  hl2Tail k a b c

/-- hashlittle(k, initval) = first component of hashlittle2(k, initval, 0). -/
def hashlittle (k : List Nat) (initval : Nat) : Nat :=
  (hashlittle2 k initval 0).1

/-- ASCII bytes of "Four score and seven years ago". -/
def fourScore : List Nat :=
  [70, 111, 117, 114, 32, 115, 99, 111, 114, 101, 32, 97, 110, 100, 32,
   115, 101, 118, 101, 110, 32, 121, 101, 97, 114, 115, 32, 97, 103, 111]

/-! ## CASC data-block framing (crates/ngdp/src/casc/mod.rs)

FileHeader::checksums, translated line by line.  The 4-slot xor accumulator
of the source ([u8; 4]) is modelled as a function from slot index to value.
Note that the source shadows `offset` with the adjusted offset
(offset & 0x3fffffff) | ((archive_index & 3) << 30) before computing
`encoded_offset`. -/

/-- The 16-entry constant table used by checksum_b (TABLE_16C57A8). -/
def TABLE_16C57A8 : List Nat :=
  [0x049396b8, 0x72a82a9b, 0xee626cca, 0x9917754f, 0x15de40b1, 0xf5a8a9b6,
   0x421eac7e, 0xa9d55c9a, 0x317fd40c, 0x04faf80d, 0x3d6be971, 0x52933cfd,
   0x27f64b7d, 0xc6f5c11b, 0xd5757e3a, 0x6c388745]

/-- The four little-endian bytes of a u32 value. -/
def leBytes4 (x : Nat) : List Nat :=
  [x % 256, x / 256 % 256, x / 65536 % 256, x / 16777216 % 256]

/-- The imperative accumulator loop of checksums: for i in 0..n,
hashed_header[(i + adj) & 3] ^= data[i]. -/
def checksumAcc (data : List Nat) (adj n : Nat) : Nat → Nat :=
  (List.range n).foldl
    (fun A i t => if t = (i + adj) % 4 then A t ^^^ data.getD i 0 else A t)
    (fun _ => 0)

/-- FileHeader::checksums(data, archive_index, offset), from the source. -/
def fileHeaderChecksums (data : List Nat) (archive_index offset : Nat) :
    Nat × Nat :=
  let checksum_a := hashlittle (data.take 22) 0x3D6BE971
  let offset := (offset &&& 0x3fffffff) ||| ((archive_index &&& 3) <<< 30)
  let encoded_offset := (offset + 30) % M32
  let encoded_offset := (TABLE_16C57A8.getD (encoded_offset &&& 0xf) 0) ^^^ encoded_offset
  let enc := leBytes4 encoded_offset
  let hashed := checksumAcc data offset 26
  let cb := fun j => hashed ((j + 26 + offset) % 4) ^^^ enc.getD ((j + 26 + offset) % 4) 0
  (checksum_a, cb 0 + (cb 1) <<< 8 + (cb 2) <<< 16 + (cb 3) <<< 24)

/-- The xor of data[i] over all i < n whose rotated slot (i + adj) mod 4
equals t: the declarative accumulator of the specification text. -/
def xorSlot (data : List Nat) (adj n t : Nat) : Nat :=
  ((List.range n).filter (fun i => (i + adj) % 4 = t)).foldl
    (fun acc i => acc ^^^ data.getD i 0) 0

/-- checksum_b exactly as the claim words it (declarative form), with the
claimed `encoded_offset = offset + 30` computed from the RAW offset, while
the accumulator rotation uses adj_offset.  This is the formula the claim
asserts the code computes. -/
def fileHeaderChecksumsClaimC8 (data : List Nat) (archive_index offset : Nat) :
    Nat × Nat :=
  let checksum_a := hashlittle (data.take 22) 0x3D6BE971
  let adj := (offset &&& 0x3fffffff) ||| ((archive_index &&& 3) <<< 30)
  let encoded_offset := (offset % M32 + 30) % M32
  let mixed := (TABLE_16C57A8.getD (encoded_offset &&& 0xf) 0) ^^^ encoded_offset
  let enc := leBytes4 mixed
  let cb := fun j =>
    xorSlot data adj 26 ((j + 26 + adj) % 4) ^^^ enc.getD ((j + 26 + adj) % 4) 0
  (checksum_a, cb 0 + (cb 1) <<< 8 + (cb 2) <<< 16 + (cb 3) <<< 24)

/-- The same declarative formula with the one amendment the code forces:
`encoded_offset` is computed from the ADJUSTED offset
(offset & 0x3FFFFFFF) | ((archive_index & 3) << 30), not the raw offset. -/
def fileHeaderChecksumsAmendedC8 (data : List Nat) (archive_index offset : Nat) :
    Nat × Nat :=
  let checksum_a := hashlittle (data.take 22) 0x3D6BE971
  let adj := (offset &&& 0x3fffffff) ||| ((archive_index &&& 3) <<< 30)
  let encoded_offset := (adj + 30) % M32
  let mixed := (TABLE_16C57A8.getD (encoded_offset &&& 0xf) 0) ^^^ encoded_offset
  let enc := leBytes4 mixed
  let cb := fun j =>
    xorSlot data adj 26 ((j + 26 + adj) % 4) ^^^ enc.getD ((j + 26 + adj) % 4) 0
  (checksum_a, cb 0 + (cb 1) <<< 8 + (cb 2) <<< 16 + (cb 3) <<< 24)

/-- One step of the imperative accumulator. -/
theorem checksumAcc_succ (data : List Nat) (adj m t : Nat) :
    checksumAcc data adj (m + 1) t =
      if t = (m + adj) % 4 then checksumAcc data adj m t ^^^ data.getD m 0
      else checksumAcc data adj m t := by
  unfold checksumAcc
  rw [List.range_succ, List.foldl_append]
  rfl

/-- One step of the declarative per-slot xor. -/
theorem xorSlot_succ (data : List Nat) (adj m t : Nat) :
    xorSlot data adj (m + 1) t =
      if (m + adj) % 4 = t then xorSlot data adj m t ^^^ data.getD m 0
      else xorSlot data adj m t := by
  unfold xorSlot
  rw [List.range_succ, List.filter_append, List.foldl_append]
  by_cases h : (m + adj) % 4 = t
  · simp [h]
  · simp [h]

/-- The imperative accumulator equals the declarative per-slot xor. -/
theorem checksumAcc_eq_xorSlot (data : List Nat) (adj : Nat) :
    ∀ n t, checksumAcc data adj n t = xorSlot data adj n t := by
  intro n
  induction n with
  | zero => intro t; rfl
  | succ m ih =>
    intro t
    rw [checksumAcc_succ, xorSlot_succ]
    by_cases h : t = (m + adj) % 4
    · rw [if_pos h, if_pos h.symm, ih]
    · rw [if_neg h, if_neg (fun hh => h hh.symm), ih]

/-- C8 counterexample: at archive_index = 1, offset = 0, with a zeroed
30-byte header, the code's checksums differ from the claim's formula (the
claim computes encoded_offset from the raw offset, the code from the
adjusted offset, and archive_index & 3 = 1 makes them differ). -/
theorem C8_counterexample :
    Steed.fileHeaderChecksums (List.replicate 30 0) 1 0 ≠
      Steed.fileHeaderChecksumsClaimC8 (List.replicate 30 0) 1 0 := by
  decide

/-- C8 (amended): for every header byte string, archive index and offset,
FileHeader::checksums returns checksum_a = hashlittle(bytes[0..22],
0x3D6BE971) and checksum_b as the claim describes, except that
encoded_offset is adj_offset + 30 (the adjusted offset, as the code
computes after shadowing), not the raw offset + 30. -/
theorem C8_checksums_amended (data : List Nat) (archive_index offset : Nat) :
    Steed.fileHeaderChecksums data archive_index offset =
      Steed.fileHeaderChecksumsAmendedC8 data archive_index offset := by
  unfold Steed.fileHeaderChecksums Steed.fileHeaderChecksumsAmendedC8
  simp only [Steed.checksumAcc_eq_xorSlot]

/-! ## Shared memory ledger (crates/ngdp/src/casc/shmem.rs)

Shmem::rebuild_unused_from_index, translated statement by statement.  An
idx entry carries (archive_index, offset, size); iter_all_entries yields
the entries of the sixteen bucket maps, here modelled as the plain entry
list.  Vec::sort_by_key is a stable sort, which is a unique function of
the key; it is realised below by a stable insertion sort. -/

/-- MAX_DATA_SIZE from crates/ngdp/src/casc/mod.rs. -/
def MAX_DATA_SIZE : Nat := 0x3fffffff

/-- An idx entry (crates/ngdp/src/casc/idx.rs, struct Entry). -/
structure IdxEntry where
  archive_index : Nat
  offset : Nat
  size : Nat
deriving DecidableEq, Repr

/-- A free-space slot of the shmem ledger (struct UnusedBytes). -/
structure UnusedBytes where
  data_file_missing : Nat
  data_number : Nat
  count : Nat
  offset : Nat
deriving DecidableEq, Repr

/-- Lexicographic order on the sort key (archive_index, offset). -/
def idxKeyLe (a b : IdxEntry) : Bool :=
  a.archive_index < b.archive_index ∨
    (a.archive_index = b.archive_index ∧ a.offset ≤ b.offset)

/-- Stable insertion of an entry into a key-sorted list (equal keys keep
their original relative order). -/
def idxInsertSorted (x : IdxEntry) : List IdxEntry → List IdxEntry
  | [] => [x]
  | y :: ys => if idxKeyLe y x then y :: idxInsertSorted x ys else x :: y :: ys

/-- Stable sort by (archive_index, offset): the behaviour of
all_entries.sort_by_key. -/
def sortIdxEntries : List IdxEntry → List IdxEntry
  | [] => []
  | x :: xs => idxInsertSorted x (sortIdxEntries xs)

/-- Shmem::rebuild_unused_from_index, from the source: sort the entries,
run the pop/push loop, then append placeholder slots for archive numbers
last_archive..0xff. -/
def rebuildUnusedFromIndex (entries : List IdxEntry) : List UnusedBytes :=
  let all_entries := sortIdxEntries entries
  let unused_bytes := all_entries.foldl
    (fun acc entry =>
      let last := acc.getLast?.getD ⟨1, entry.archive_index, 0, 0⟩
      let rest := acc.dropLast
      let last_end := last.offset + last.count
      if entry.archive_index = last.data_number ∧ entry.offset = last_end then
        rest ++ [⟨last.data_file_missing, last.data_number,
                  last.count + entry.size, last.offset⟩]
      else
        rest ++ [⟨0, entry.archive_index, entry.size, entry.offset⟩])
    []
  let last_archive := (unused_bytes.getLast?.map (·.data_number)).getD 0
  unused_bytes ++
    (List.range' last_archive (0xff - last_archive)).map (fun i => ⟨1, i, 0, 0⟩)

/-- C2 is a code bug: seeding idx with entries (0, 0, 1000) and
(0, 2000, 500), the code produces the single record
(missing=0, archive=0, count=500, offset=2000) — the extent of the second
USED entry, having dropped the first run entirely — followed by
data_file_missing placeholders for archives 0..0xfe.  It does not produce
the free-space complements [(arch 0, off 1000, count 1000),
(arch 0, off 2500, count MAX_DATA_SIZE-2500), ...] that the claim (and the
function's own name and its consumer reserve_bytes) require. -/
theorem C2_rebuild_code_bug :
    Steed.rebuildUnusedFromIndex [⟨0, 0, 1000⟩, ⟨0, 2000, 500⟩] =
      ⟨0, 0, 500, 2000⟩ :: (List.range 255).map (fun i => ⟨1, i, 0, 0⟩) ∧
    Steed.rebuildUnusedFromIndex [⟨0, 0, 1000⟩, ⟨0, 2000, 500⟩] ≠
      ⟨0, 0, 1000, 1000⟩ :: ⟨0, 0, Steed.MAX_DATA_SIZE - 2500, 2500⟩ ::
        (List.range' 1 254).map (fun i => ⟨1, i, 0, 0⟩) := by
  set_option maxRecDepth 4096 in
  constructor
  · decide
  · decide

/-! ## Install / Download manifests (crates/ngdp/src/tact/install.rs and
download.rs)

files_with_tags and entries_with_tags duplicate the same loop; the shared
bitmap computation is factored into tagSelectBitmap, instantiated once per
manifest type.  Tag bitmaps are List Bool; after parsing, every tag bitmap
has exactly entry-count bits (the parser drains the tail), so the bitvec
AND is zipWith and. -/

/-- A manifest tag: name, category, membership bitmap. -/
structure ManifestTag where
  name : String
  type_ : Nat
  bits : List Bool
deriving DecidableEq, Repr

/-- An install-manifest file record. -/
structure InstallFile where
  name : String
  key : List Nat
  size : Nat
deriving DecidableEq, Repr

/-- The install manifest. -/
structure InstallManifest where
  version : Nat
  tags : List ManifestTag
  files : List InstallFile
deriving DecidableEq, Repr

/-- A download-manifest entry record. -/
structure DownloadEntry where
  key : List Nat
  file_size : Nat
  download_priority : Nat
  checksum : Option Nat
  flags : List Nat
deriving DecidableEq, Repr

/-- The download manifest. -/
structure DownloadManifest where
  base_priority : Nat
  entries : List DownloadEntry
  tags : List ManifestTag
deriving DecidableEq, Repr

/-- self.tags.iter().map(|t| t.type_).max().unwrap_or(0). -/
def maxTagType (tags : List ManifestTag) : Nat :=
  ((tags.map (·.type_)).max?).getD 0

/-- The working-bitmap loop shared by files_with_tags and
entries_with_tags: start from all ones, then for category in
0..max (EXCLUSIVE, as in the source), AND in the bitmap of every tag of
that category whose name is selected. -/
def tagSelectBitmap (tags : List ManifestTag) (selected : List String)
    (n : Nat) : List Bool :=
  let start := List.replicate n true
  let categories := maxTagType tags
  (List.range categories).foldl
    (fun acc category =>
      (tags.filter (fun t => t.type_ = category)).foldl
        (fun acc tag =>
          if selected.contains tag.name then List.zipWith and acc tag.bits
          else acc)
        acc)
    start

/-- indices of the set bits, in order (the enumerate/filter_map of the
source). -/
def selectedIndices (bits : List Bool) : List Nat :=
  bits.enum.filterMap (fun p => if p.2 then some p.1 else none)

/-- InstallManifest::files_with_tags. -/
def installFilesWithTags (m : InstallManifest) (selected : List String) :
    List InstallFile :=
  (selectedIndices (tagSelectBitmap m.tags selected m.files.length)).filterMap
    (fun i => m.files.get? i)

/-- DownloadManifest::entries_with_tags. -/
def downloadEntriesWithTags (m : DownloadManifest) (selected : List String) :
    List DownloadEntry :=
  (selectedIndices (tagSelectBitmap m.tags selected m.entries.length)).filterMap
    (fun i => m.entries.get? i)

/-- The selection the claim describes: keep entry i exactly when EVERY
selected tag of EVERY category present carries bit i. -/
def claimSelectC5 (tags : List ManifestTag) (selected : List String)
    (n : Nat) : List Nat :=
  (List.range n).filter
    (fun i => ∀ t ∈ tags, t.name ∈ selected → t.bits.getD i false = true)

/-- The selection the code implements: only tags of categories STRICTLY
below the maximum tag type participate. -/
def codeSelectC5 (tags : List ManifestTag) (selected : List String)
    (n : Nat) : List Nat :=
  (List.range n).filter
    (fun i => ∀ t ∈ tags, t.type_ < maxTagType tags →
      t.name ∈ selected → t.bits.getD i false = true)

/-! Helper lemmas for the tag-set algebra. -/

theorem getD_zipWith_and :
    ∀ (a b : List Bool) (i : Nat),
      (List.zipWith and a b).getD i false = (a.getD i false && b.getD i false)
  | [], _, _ => by simp [List.getD]
  | _ :: _, [], _ => by simp [List.getD]
  | x :: a, y :: b, 0 => by simp [List.getD]
  | x :: a, y :: b, i + 1 => by
    simpa [List.getD] using getD_zipWith_and a b i

theorem getD_replicate_true :
    ∀ (n i : Nat), (List.replicate n true).getD i false = decide (i < n)
  | 0, _ => by simp [List.getD]
  | n + 1, 0 => by simp [List.getD]
  | n + 1, i + 1 => by
    simpa [List.replicate, List.getD] using getD_replicate_true n i

/-- The AND-in step used by the bitmap loops. -/
def tagStep (selected : List String) (acc : List Bool) (t : ManifestTag) :
    List Bool :=
  if selected.contains t.name then List.zipWith and acc t.bits else acc

theorem tagSelectBitmap_eq_foldl (tags : List ManifestTag)
    (selected : List String) (n : Nat) :
    tagSelectBitmap tags selected n =
      ((List.range (maxTagType tags)).flatMap
        (fun c => tags.filter (fun t => t.type_ = c))).foldl
        (tagStep selected) (List.replicate n true) := by
  unfold tagSelectBitmap
  rw [List.flatMap_def, List.foldl_flatten, List.foldl_map]
  rfl

theorem foldl_tagStep_getD (selected : List String) :
    ∀ (ts : List ManifestTag) (acc : List Bool) (i : Nat),
      (ts.foldl (tagStep selected) acc).getD i false =
        (acc.getD i false &&
          ts.all (fun t => !selected.contains t.name || t.bits.getD i false))
  | [], acc, i => by simp
  | t :: ts, acc, i => by
    rw [List.foldl_cons, foldl_tagStep_getD selected ts _ i, List.all_cons]
    unfold tagStep
    by_cases h : t.name ∈ selected
    · have hs : (if selected.contains t.name then List.zipWith and acc t.bits
          else acc) = List.zipWith and acc t.bits := by simp [h]
      rw [hs, getD_zipWith_and, Bool.and_assoc]
      simp [h]
    · simp [h]

theorem length_foldl_tagStep (selected : List String) :
    ∀ (ts : List ManifestTag) (acc : List Bool) (n : Nat),
      acc.length = n → (∀ t ∈ ts, t.bits.length = n) →
      (ts.foldl (tagStep selected) acc).length = n
  | [], _, _, ha, _ => ha
  | t :: ts, acc, n, ha, hts => by
    rw [List.foldl_cons]
    apply length_foldl_tagStep selected ts _ n
    · unfold tagStep
      by_cases h : t.name ∈ selected
      · simp [h, ha, hts t (by simp)]
      · simp [h, ha]
    · exact fun t ht => hts t (by simp [ht])

theorem filterMap_enumFrom_bits :
    ∀ (bs : List Bool) (k : Nat),
      (List.enumFrom k bs).filterMap
          (fun p : Nat × Bool => if p.2 then some p.1 else none) =
        ((List.range bs.length).filter (fun i => bs.getD i false)).map (· + k)
  | [], _ => rfl
  | b :: bs, k => by
    rw [List.enumFrom_cons, List.filterMap_cons, List.length_cons,
        List.range_succ_eq_map, List.filter_cons, List.filter_map,
        filterMap_enumFrom_bits bs (k + 1)]
    by_cases hb : b
    · simp only [hb, if_pos rfl]
      simp [List.map_map, Function.comp_def, List.getD, Nat.add_assoc,
        Nat.add_comm 1 k]
    · simp only [hb]
      simp [List.map_map, Function.comp_def, List.getD, Nat.add_assoc,
        Nat.add_comm 1 k]

theorem selectedIndices_eq_filter_range (bits : List Bool) :
    selectedIndices bits =
      (List.range bits.length).filter (fun i => bits.getD i false) := by
  unfold selectedIndices
  rw [List.enum, filterMap_enumFrom_bits bits 0]
  simp

theorem filterMap_get_range :
    ∀ (l : List InstallFile), (List.range l.length).filterMap (fun i => l.get? i) = l
  | [] => rfl
  | x :: xs => by
    rw [List.length_cons, List.range_succ_eq_map, List.filterMap_cons,
        List.filterMap_map]
    simpa [Function.comp_def] using filterMap_get_range xs

theorem filterMap_getDl_range :
    ∀ (l : List DownloadEntry), (List.range l.length).filterMap (fun i => l.get? i) = l
  | [] => rfl
  | x :: xs => by
    rw [List.length_cons, List.range_succ_eq_map, List.filterMap_cons,
        List.filterMap_map]
    simpa [Function.comp_def] using filterMap_getDl_range xs

/-- Membership in the flattened category-ordered tag list. -/
theorem mem_flatTags {tags : List ManifestTag} {cats : Nat} {t : ManifestTag} :
    t ∈ (List.range cats).flatMap (fun c => tags.filter (fun t => t.type_ = c)) ↔
      t ∈ tags ∧ t.type_ < cats := by
  simp only [List.mem_flatMap, List.mem_filter, List.mem_range,
    decide_eq_true_eq]
  constructor
  · rintro ⟨c, hc, ht, hty⟩
    exact ⟨ht, hty ▸ hc⟩
  · rintro ⟨ht, hty⟩
    exact ⟨t.type_, hty, ht, rfl⟩

/-- Pointwise value of the working bitmap. -/
theorem tagSelectBitmap_getD (tags : List ManifestTag) (selected : List String)
    (n i : Nat) (hi : i < n) :
    ((tagSelectBitmap tags selected n).getD i false = true ↔
      ∀ t ∈ tags, t.type_ < maxTagType tags → t.name ∈ selected →
        t.bits.getD i false = true) := by
  rw [tagSelectBitmap_eq_foldl, foldl_tagStep_getD, getD_replicate_true,
      decide_eq_true hi, Bool.true_and, List.all_eq_true]
  constructor
  · intro hall t ht hty hsel
    have hpred := hall t (mem_flatTags.mpr ⟨ht, hty⟩)
    have hc : selected.contains t.name = true := by simpa using hsel
    rw [hc] at hpred
    simpa using hpred
  · intro hall t ht
    obtain ⟨ht', hty⟩ := mem_flatTags.mp ht
    by_cases hsel : t.name ∈ selected
    · have hc : selected.contains t.name = true := by simpa using hsel
      rw [hc, hall t ht' hty hsel]
      rfl
    · simp [hsel]

/-- Length of the working bitmap. -/
theorem tagSelectBitmap_length (tags : List ManifestTag)
    (selected : List String) (n : Nat)
    (h : ∀ t ∈ tags, t.bits.length = n) :
    (tagSelectBitmap tags selected n).length = n := by
  rw [tagSelectBitmap_eq_foldl]
  apply length_foldl_tagStep
  · simp
  · intro t ht
    exact h t (mem_flatTags.mp ht).1

/-- The set-bit indices of the working bitmap are exactly the code's
selection predicate. -/
theorem selectedIndices_tagSelectBitmap (tags : List ManifestTag)
    (selected : List String) (n : Nat)
    (h : ∀ t ∈ tags, t.bits.length = n) :
    selectedIndices (tagSelectBitmap tags selected n) =
      codeSelectC5 tags selected n := by
  rw [selectedIndices_eq_filter_range, tagSelectBitmap_length tags selected n h]
  unfold codeSelectC5
  apply List.filter_congr
  intro i hi
  rw [List.mem_range] at hi
  have hiff := tagSelectBitmap_getD tags selected n i hi
  show (tagSelectBitmap tags selected n).getD i false =
    decide (∀ t ∈ tags, t.type_ < maxTagType tags → t.name ∈ selected →
      t.bits.getD i false = true)
  by_cases hall : ∀ t ∈ tags, t.type_ < maxTagType tags →
      t.name ∈ selected → t.bits.getD i false = true
  · rw [hiff.mpr hall, decide_eq_true hall]
  · have hfalse : (tagSelectBitmap tags selected n).getD i false ≠ true :=
      fun hv => hall (hiff.mp hv)
    rw [Bool.eq_false_iff.mpr hfalse, decide_eq_false hall]

/-- With an empty selection no tag is ever ANDed in. -/
theorem foldl_tagStep_nil_selected :
    ∀ (ts : List ManifestTag) (acc : List Bool),
      ts.foldl (tagStep []) acc = acc
  | [], _ => rfl
  | t :: ts, acc => by
    rw [List.foldl_cons]
    have : tagStep [] acc t = acc := by simp [tagStep]
    rw [this, foldl_tagStep_nil_selected ts acc]

/-- With an empty selection the working bitmap is all ones. -/
theorem tagSelectBitmap_nil (tags : List ManifestTag) (n : Nat) :
    tagSelectBitmap tags [] n = List.replicate n true := by
  rw [tagSelectBitmap_eq_foldl, foldl_tagStep_nil_selected]

/-- All-ones bitmap selects every index. -/
theorem selectedIndices_replicate_true (n : Nat) :
    selectedIndices (List.replicate n true) = List.range n := by
  rw [selectedIndices_eq_filter_range, List.length_replicate]
  rw [show (List.range n).filter
        (fun i => (List.replicate n true).getD i false) =
      (List.range n).filter (fun _ => true) from
    List.filter_congr (by
      intro i hi
      rw [List.mem_range] at hi
      simp [getD_replicate_true, hi])]
  simp

/-- C5 counterexample: a manifest with one file and one tag A of category 0
whose bitmap excludes the file.  The maximum tag type is 0, so the code's
loop over categories 0..0 is empty and files_with_tags {A} returns the
file, whereas the claim's intersection across every category present
returns nothing. -/
def exampleInstallManifest : InstallManifest :=
  ⟨1, [⟨"A", 0, [false]⟩], [⟨"f", [], 0⟩]⟩

/-- C5 counterexample theorem: the code keeps the file that the claimed
intersection semantics excludes. -/
theorem C5_counterexample :
    Steed.installFilesWithTags Steed.exampleInstallManifest ["A"] =
        [⟨"f", [], 0⟩] ∧
      Steed.claimSelectC5 Steed.exampleInstallManifest.tags ["A"]
          Steed.exampleInstallManifest.files.length = [] := by
  constructor
  · rfl
  · rfl

/-- C5 (amended): files_with_tags / entries_with_tags return exactly the
entries kept by AND-ing, for every tag category STRICTLY BELOW the maximum
tag type present (the source loop is `for category in 0..max`, exclusive,
so tags of the maximal category never filter), the bitmap of each selected
tag of that category; and an empty selection returns all entries. -/
theorem C5_tags_amended :
    (∀ (m : InstallManifest) (sel : List String),
        (∀ t ∈ m.tags, t.bits.length = m.files.length) →
        Steed.installFilesWithTags m sel =
          (Steed.codeSelectC5 m.tags sel m.files.length).filterMap
            (fun i => m.files.get? i)) ∧
    (∀ (m : DownloadManifest) (sel : List String),
        (∀ t ∈ m.tags, t.bits.length = m.entries.length) →
        Steed.downloadEntriesWithTags m sel =
          (Steed.codeSelectC5 m.tags sel m.entries.length).filterMap
            (fun i => m.entries.get? i)) ∧
    (∀ m : InstallManifest,
        Steed.installFilesWithTags m [] = m.files) ∧
    (∀ m : DownloadManifest,
        Steed.downloadEntriesWithTags m [] = m.entries) := by
  refine ⟨?_, ?_, ?_, ?_⟩
  · intro m sel h
    unfold Steed.installFilesWithTags
    rw [Steed.selectedIndices_tagSelectBitmap m.tags sel m.files.length h]
  · intro m sel h
    unfold Steed.downloadEntriesWithTags
    rw [Steed.selectedIndices_tagSelectBitmap m.tags sel m.entries.length h]
  · intro m
    unfold Steed.installFilesWithTags
    rw [Steed.tagSelectBitmap_nil, Steed.selectedIndices_replicate_true]
    exact Steed.filterMap_get_range m.files
  · intro m
    unfold Steed.downloadEntriesWithTags
    rw [Steed.tagSelectBitmap_nil, Steed.selectedIndices_replicate_true]
    exact Steed.filterMap_getDl_range m.entries

/-- C5 witness: the amended theorem applied to a concrete manifest and
selection, with its bitmap-length hypothesis discharged by decide. -/
theorem C5_tags_amended_witness :
    (∀ t ∈ Steed.exampleInstallManifest.tags,
        t.bits.length = Steed.exampleInstallManifest.files.length) ∧
    Steed.installFilesWithTags Steed.exampleInstallManifest ["A"] =
      (Steed.codeSelectC5 Steed.exampleInstallManifest.tags ["A"]
        Steed.exampleInstallManifest.files.length).filterMap
        (fun i => Steed.exampleInstallManifest.files.get? i) :=
  ⟨by decide, C5_tags_amended.1 Steed.exampleInstallManifest ["A"] (by decide)⟩

/-! ## Encoding table lookup (crates/ngdp/src/tact/encoding.rs)

lookup_by_ckey and lookup_espec share the same page-selection loop over the
page headers; keys are byte strings compared with Rust's lexicographic
slice order.  The source asserts hash_size == key length and indexes
cekey_page_headers[0] and cekey_pages[page_idx] directly (panicking on an
empty header list or missing page); the embedding is total via getD with
an empty default, and the theorems carry the corresponding well-formedness
hypotheses. -/

/-- Rust's Ord for byte slices: lexicographic, shorter-prefix first. -/
def compareBytes : List Nat → List Nat → Ordering
  | [], [] => .eq
  | [], _ :: _ => .lt
  | _ :: _, [] => .gt
  | a :: as, b :: bs =>
    if a < b then .lt else if b < a then .gt else compareBytes as bs

/-- a <= b on byte slices. -/
def bytesLe (a b : List Nat) : Bool := compareBytes a b ≠ .gt

/-- a < b on byte slices. -/
def bytesLt (a b : List Nat) : Bool := compareBytes a b = .lt

/-- A page header: first key and page md5. -/
structure EncPageHeader where
  first_key : List Nat
  page_md5 : List Nat
deriving DecidableEq, Repr

/-- A CKEY-to-EKEYs entry. -/
structure CEKeyEntry where
  file_size : Nat
  ckey : List Nat
  ekeys : List (List Nat)
deriving DecidableEq, Repr

/-- A page of CKEY entries. -/
structure CEKeyPage where
  entries : List CEKeyEntry
deriving DecidableEq, Repr

/-- An EKEY-to-espec-index entry. -/
structure EKeySpecEntry where
  ekey : List Nat
  espec_index : Nat
  file_size : Nat
deriving DecidableEq, Repr

/-- A page of EKEY-espec entries. -/
structure EKeySpecPage where
  entries : List EKeySpecEntry
deriving DecidableEq, Repr

/-- The parsed Encoding table. -/
structure Encoding where
  hash_size_ckey : Nat
  hash_size_ekey : Nat
  especs : List String
  cekey_page_headers : List EncPageHeader
  cekey_pages : List CEKeyPage
  ekey_spec_page_headers : List EncPageHeader
  ekey_spec_pages : List EKeySpecPage
deriving DecidableEq, Repr

/-- The page-selection loop of lookup_by_ckey / lookup_espec: iterate the
headers from index 1 with prev_first_key; break keeping page_idx when
prev <= query <= next, else advance page_idx to the current index. -/
def selectLoop (q : List Nat) : List Nat → List (List Nat) → Nat → Nat
  | _, [], pageIdx => pageIdx
  | prev, next :: rest, pageIdx =>
    if bytesLe prev q && bytesLe q next then pageIdx
    else selectLoop q next rest (pageIdx + 1)

/-- Page selection over the header key list (source panics on an empty
header list via headers[0]; totalised here to 0). -/
def selectPageIdx (headerKeys : List (List Nat)) (q : List Nat) : Nat :=
  match headerKeys with
  | [] => 0
  | h0 :: rest => selectLoop q h0 rest 0

/-- Encoding::lookup_by_ckey. -/
def lookupByCkey (enc : Encoding) (ckey : List Nat) : Option CEKeyEntry :=
  let page_idx := selectPageIdx (enc.cekey_page_headers.map (·.first_key)) ckey
  ((enc.cekey_pages.getD page_idx ⟨[]⟩).entries).find? (fun e => e.ckey = ckey)

/-- Encoding::lookup_espec (the entry and the espec string it indexes). -/
def lookupEspec (enc : Encoding) (ekey : List Nat) :
    Option (EKeySpecEntry × String) :=
  let page_idx := selectPageIdx (enc.ekey_spec_page_headers.map (·.first_key)) ekey
  (((enc.ekey_spec_pages.getD page_idx ⟨[]⟩).entries).find?
      (fun e => e.ekey = ekey)).map
    (fun e => (e, enc.especs.getD e.espec_index ""))

/-- The last header index whose first_key is strictly below the query
(0 when there is none): countP of strictly-smaller keys, minus one. -/
def lastBelowIdx (headerKeys : List (List Nat)) (q : List Nat) : Nat :=
  (headerKeys.countP (fun h => bytesLt h q)) - 1

/-! Order facts for compareBytes. -/

theorem compareBytes_swap :
    ∀ a b : List Nat, compareBytes a b = .lt ↔ compareBytes b a = .gt
  | [], [] => by simp [compareBytes]
  | [], _ :: _ => by simp [compareBytes]
  | _ :: _, [] => by simp [compareBytes]
  | a :: as, b :: bs => by
    unfold compareBytes
    rcases Nat.lt_trichotomy a b with h | h | h
    · simp [h, Nat.not_lt_of_lt h]
    · subst h
      simpa [Nat.lt_irrefl] using compareBytes_swap as bs
    · simp [h, Nat.not_lt_of_lt h]

theorem compareBytes_eq_iff : ∀ a b : List Nat, compareBytes a b = .eq ↔ a = b
  | [], [] => by simp [compareBytes]
  | [], _ :: _ => by simp [compareBytes]
  | _ :: _, [] => by simp [compareBytes]
  | a :: as, b :: bs => by
    unfold compareBytes
    rcases Nat.lt_trichotomy a b with h | h | h
    · simp [h, Nat.ne_of_lt h]
    · subst h
      simpa [Nat.lt_irrefl] using compareBytes_eq_iff as bs
    · simp [h, Nat.not_lt_of_lt h, (Nat.ne_of_lt h).symm]

theorem compareBytes_nil_right : ∀ b : List Nat, compareBytes b [] ≠ .lt := by
  intro b
  cases b <;> simp [compareBytes]

theorem compareBytes_le_lt_trans :
    ∀ a b c : List Nat, compareBytes a b ≠ .gt → compareBytes b c = .lt →
      compareBytes a c = .lt
  | [], b, [] => by intro _ h2; exact absurd h2 (compareBytes_nil_right b)
  | [], _, _ :: _ => by intro _ _; rfl
  | _ :: _, [], _ => by intro h1 _; exact absurd rfl h1
  | a :: as, b :: bs, [] => by intro _ h2; simp [compareBytes] at h2
  | a :: as, b :: bs, c :: cs => by
    intro h1 h2
    unfold compareBytes at h1 h2 ⊢
    rcases Nat.lt_trichotomy a b with hab | hab | hab
    · rcases Nat.lt_trichotomy b c with hbc | hbc | hbc
      · simp [Nat.lt_trans hab hbc]
      · subst hbc; simp [hab]
      · simp [hbc, Nat.not_lt_of_lt hbc] at h2
    · subst hab
      rcases Nat.lt_trichotomy a c with hac | hac | hac
      · simp [hac]
      · subst hac
        simp only [Nat.lt_irrefl, if_false] at h1 h2 ⊢
        exact compareBytes_le_lt_trans as bs cs h1 h2
      · simp [hac, Nat.not_lt_of_lt hac] at h2
    · simp [hab, Nat.not_lt_of_lt hab] at h1

/-- Unfolding of bytesLe into the comparison. -/
theorem bytesLe_eq_true_iff (a b : List Nat) :
    bytesLe a b = true ↔ compareBytes a b ≠ .gt := by
  simp [bytesLe]

/-- Unfolding of bytesLt into the comparison. -/
theorem bytesLt_eq_true_iff (a b : List Nat) :
    bytesLt a b = true ↔ compareBytes a b = .lt := by
  simp [bytesLt]

/-- le is the complement of the flipped lt. -/
theorem bytesLe_iff_not_lt (a b : List Nat) :
    bytesLe a b = true ↔ ¬ bytesLt b a = true := by
  rw [bytesLe_eq_true_iff, bytesLt_eq_true_iff, compareBytes_swap b a]

/-- Totality: a failed le flips. -/
theorem bytesLe_of_not_le {a b : List Nat} (h : ¬ bytesLe a b = true) :
    bytesLe b a = true := by
  rw [bytesLe_eq_true_iff, Decidable.not_not] at h
  have hlt : compareBytes b a = .lt := (compareBytes_swap b a).mpr h
  rw [bytesLe_eq_true_iff, hlt]
  simp

/-- The selection loop finds the first index (from the current position)
whose header key is at least the query. -/
theorem selectLoop_eq (q : List Nat) :
    ∀ (rest : List (List Nat)) (prev : List Nat) (pageIdx : Nat),
      bytesLe prev q = true →
      selectLoop q prev rest pageIdx =
        pageIdx + rest.findIdx (fun h => bytesLe q h)
  | [], _, pageIdx, _ => by simp [selectLoop]
  | next :: rest, prev, pageIdx, hprev => by
    unfold selectLoop
    rw [List.findIdx_cons]
    by_cases hn : bytesLe q next = true
    · simp [hprev, hn]
    · have hnext : bytesLe next q = true := bytesLe_of_not_le hn
      rw [if_neg (by simp [hn]), selectLoop_eq q rest next (pageIdx + 1) hnext,
        Bool.of_not_eq_true hn]
      simp [Nat.add_assoc, Nat.add_comm 1]

/-- On a strictly sorted list, the first index at least q equals the number
of keys strictly below q. -/
theorem sorted_findIdx_eq_countP (q : List Nat) :
    ∀ (l : List (List Nat)),
      List.Pairwise (fun a b => bytesLt a b = true) l →
      l.findIdx (fun h => bytesLe q h) = l.countP (fun h => bytesLt h q)
  | [], _ => rfl
  | a :: l, hp => by
    rw [List.findIdx_cons, List.countP_cons]
    obtain ⟨ha, hl⟩ := List.pairwise_cons.mp hp
    by_cases hqa : bytesLe q a = true
    · have h1 : bytesLt a q = false :=
        Bool.eq_false_iff.mpr ((bytesLe_iff_not_lt q a).mp hqa)
      have h0 : l.countP (fun h => bytesLt h q) = 0 := by
        rw [List.countP_eq_zero]
        intro b hb hbq
        rw [bytesLt_eq_true_iff] at hbq
        have hqb : compareBytes q b = .lt :=
          compareBytes_le_lt_trans q a b
            ((bytesLe_eq_true_iff q a).mp hqa)
            ((bytesLt_eq_true_iff a b).mp (ha b hb))
        rw [compareBytes_swap] at hqb
        rw [hbq] at hqb
        exact Ordering.noConfusion hqb
      simp [hqa, h1, h0]
    · have hqa' : bytesLt a q = true := by
        rw [bytesLe_eq_true_iff, Decidable.not_not] at hqa
        rw [bytesLt_eq_true_iff]
        exact (compareBytes_swap a q).mpr hqa
      simp [hqa, hqa', sorted_findIdx_eq_countP q l hl, Nat.add_comm]

/-- The page-selection loop, on sorted headers with first key at most the
query, picks the page of the last header strictly below the query (page 0
when the query equals the first key). -/
theorem selectPageIdx_eq_lastBelow (q : List Nat) (hk : List (List Nat))
    (hsort : List.Pairwise (fun a b => bytesLt a b = true) hk)
    (hne : hk ≠ []) (hle : bytesLe (hk.getD 0 []) q = true) :
    selectPageIdx hk q = lastBelowIdx hk q := by
  match hk, hne with
  | h0 :: rest, _ =>
    have hle0 : bytesLe h0 q = true := by simpa using hle
    obtain ⟨hh0, hrest⟩ := List.pairwise_cons.mp hsort
    unfold selectPageIdx lastBelowIdx
    show selectLoop q h0 rest 0 =
      (h0 :: rest).countP (fun h => bytesLt h q) - 1
    rw [selectLoop_eq q rest h0 0 hle0, Nat.zero_add,
      sorted_findIdx_eq_countP q rest hrest, List.countP_cons]
    by_cases hlt : bytesLt h0 q = true
    · simp [hlt]
    · have heq : h0 = q := by
        rw [bytesLe_eq_true_iff] at hle0
        rw [bytesLt_eq_true_iff] at hlt
        rcases hcc : compareBytes h0 q with _ | _ | _
        · exact absurd hcc hlt
        · exact (compareBytes_eq_iff h0 q).mp hcc
        · exact absurd hcc hle0
      subst heq
      have h0c : rest.countP (fun h => bytesLt h h0) = 0 := by
        rw [List.countP_eq_zero]
        intro b hb hbq
        rw [bytesLt_eq_true_iff] at hbq
        have := (bytesLt_eq_true_iff h0 b).mp (hh0 b hb)
        rw [compareBytes_swap] at this
        rw [hbq] at this
        exact Ordering.noConfusion this
      simp [hlt, h0c]

/-- A two-page encoding: page 0 holds key [0], page 1 holds key [1]; the
espec side has a single page with key [0]. -/
def exampleEncoding : Encoding :=
  ⟨1, 1, ["z"],
   [⟨[0], []⟩, ⟨[1], []⟩],
   [⟨[⟨10, [0], []⟩]⟩, ⟨[⟨20, [1], []⟩]⟩],
   [⟨[0], []⟩],
   [⟨[⟨[0], 0, 5⟩]⟩]⟩

/-- C4 counterexample: the headers are sorted and the query [1] equals the
first_key of page 1, whose page holds an entry with exactly that key — the
last header with first_key <= [1] is header 1 — yet lookup_by_ckey returns
none, because the loop's break condition (prev <= q <= next) fires at
i = 1 with page_idx still 0, so the query is searched in page 0. -/
theorem C4_counterexample :
    List.Pairwise (fun a b => Steed.bytesLt a b = true)
      (Steed.exampleEncoding.cekey_page_headers.map (·.first_key)) ∧
    (Steed.exampleEncoding.cekey_pages.getD 1 ⟨[]⟩).entries.find?
      (fun e => e.ckey = [1]) = some ⟨20, [1], []⟩ ∧
    Steed.lookupByCkey Steed.exampleEncoding [1] = none := by
  refine ⟨by decide, rfl, rfl⟩

/-- C4 (amended): on sorted page headers, for a query at least the first
header key, lookup_by_ckey (and likewise lookup_espec) selects the page of
the last header whose first_key is STRICTLY LESS than the query (page 0
when there is none; in particular a query equal to the first_key of a later
page is searched in the preceding page), and returns the entry of that page
whose key equals the query exactly. -/
theorem C4_encoding_lookup_amended (enc : Encoding) (q r : List Nat)
    (hsortC : List.Pairwise (fun a b => bytesLt a b = true)
      (enc.cekey_page_headers.map (·.first_key)))
    (hneC : enc.cekey_page_headers ≠ [])
    (hleC : bytesLe ((enc.cekey_page_headers.map (·.first_key)).getD 0 []) q
      = true)
    (hsortE : List.Pairwise (fun a b => bytesLt a b = true)
      (enc.ekey_spec_page_headers.map (·.first_key)))
    (hneE : enc.ekey_spec_page_headers ≠ [])
    (hleE : bytesLe ((enc.ekey_spec_page_headers.map (·.first_key)).getD 0 []) r
      = true) :
    lookupByCkey enc q =
      ((enc.cekey_pages.getD
          (lastBelowIdx (enc.cekey_page_headers.map (·.first_key)) q)
          ⟨[]⟩).entries).find? (fun e => e.ckey = q) ∧
    lookupEspec enc r =
      (((enc.ekey_spec_pages.getD
          (lastBelowIdx (enc.ekey_spec_page_headers.map (·.first_key)) r)
          ⟨[]⟩).entries).find? (fun e => e.ekey = r)).map
        (fun e => (e, enc.especs.getD e.espec_index "")) := by
  constructor
  · unfold lookupByCkey
    rw [selectPageIdx_eq_lastBelow q _ hsortC
      (by simpa using hneC) hleC]
  · unfold lookupEspec
    rw [selectPageIdx_eq_lastBelow r _ hsortE
      (by simpa using hneE) hleE]

/-- C4 witness: the amended theorem applied to the concrete two-page
encoding with queries [1] (ckey side) and [0] (espec side), all hypotheses
discharged by decide. -/
theorem C4_encoding_lookup_amended_witness :
    (Steed.exampleEncoding.cekey_page_headers ≠ [] ∧
      Steed.exampleEncoding.ekey_spec_page_headers ≠ []) ∧
    (Steed.lookupByCkey Steed.exampleEncoding [1] =
      ((Steed.exampleEncoding.cekey_pages.getD
          (Steed.lastBelowIdx
            (Steed.exampleEncoding.cekey_page_headers.map (·.first_key)) [1])
          ⟨[]⟩).entries).find? (fun e => e.ckey = [1]) ∧
    Steed.lookupEspec Steed.exampleEncoding [0] =
      (((Steed.exampleEncoding.ekey_spec_pages.getD
          (Steed.lastBelowIdx
            (Steed.exampleEncoding.ekey_spec_page_headers.map (·.first_key)) [0])
          ⟨[]⟩).entries).find? (fun e => e.ekey = [0])).map
        (fun e => (e, Steed.exampleEncoding.especs.getD e.espec_index ""))) :=
  ⟨⟨by decide, by decide⟩,
    C4_encoding_lookup_amended Steed.exampleEncoding [1] [0]
      (by decide) (by decide) (by decide) (by decide) (by decide) (by decide)⟩

/-! ## Position-tracked byte reader (crates/binstream/src/lib.rs)

ByteReader over a borrowed slice.  usize arithmetic wraps modulo 2^64 in
release builds; the length subtraction in check_enough_bytes and the slice
indexing in take / string_zero are modelled exactly, with slice-index
panics (start or end beyond the buffer) as distinguished errors.
string_zero advances the cursor by String::from_utf8_lossy(val).len() + 1,
where the lossy decode replaces every maximal invalid UTF-8 subpart by the
3-byte replacement character; utf8LossyLen implements that length
(Rust/WHATWG semantics).  byteorder's read_uint asserts 1 <= nbytes <= 8
and panics otherwise.  The combinators parse/peek/cond/repeat/many0/many1
run sub-parsers; they are embedded as a small program syntax interpreted
with step fuel, where fuel exhaustion is reported as `diverged` (the
source's many0/many1 genuinely loop forever on a successful non-consuming
inner parser, so some such marker is unavoidable in a total model). -/

/-- 2^64, the modulus for usize arithmetic. -/
def M64 : Nat := 18446744073709551616

/-- Wrapping usize subtraction. -/
def usizeSub (a b : Nat) : Nat :=
  if b ≤ a then a - b else M64 - ((b - a) % M64)

/-- Length in bytes of String::from_utf8_lossy of the byte list: valid
UTF-8 sequences keep their length, every maximal invalid subpart (including
a truncated final sequence) becomes one 3-byte replacement character. -/
def utf8LossyLen : List Nat → Nat
  | [] => 0
  | b :: rest =>
    if b < 0x80 then 1 + utf8LossyLen rest
    else if b < 0xC2 then 3 + utf8LossyLen rest
    else if b ≤ 0xDF then
      match rest with
      | [] => 3
      | c1 :: rest1 =>
        if 0x80 ≤ c1 ∧ c1 ≤ 0xBF then 2 + utf8LossyLen rest1
        else 3 + utf8LossyLen (c1 :: rest1)
    else if b ≤ 0xEF then
      match rest with
      | [] => 3
      | c1 :: rest1 =>
        if (if b = 0xE0 then 0xA0 else 0x80) ≤ c1 ∧
            c1 ≤ (if b = 0xED then 0x9F else 0xBF) then
          match rest1 with
          | [] => 3
          | c2 :: rest2 =>
            if 0x80 ≤ c2 ∧ c2 ≤ 0xBF then 3 + utf8LossyLen rest2
            else 3 + utf8LossyLen (c2 :: rest2)
        else 3 + utf8LossyLen (c1 :: rest1)
    else if b ≤ 0xF4 then
      match rest with
      | [] => 3
      | c1 :: rest1 =>
        if (if b = 0xF0 then 0x90 else 0x80) ≤ c1 ∧
            c1 ≤ (if b = 0xF4 then 0x8F else 0xBF) then
          match rest1 with
          | [] => 3
          | c2 :: rest2 =>
            if 0x80 ≤ c2 ∧ c2 ≤ 0xBF then
              match rest2 with
              | [] => 3
              | c3 :: rest3 =>
                if 0x80 ≤ c3 ∧ c3 ≤ 0xBF then 4 + utf8LossyLen rest3
                else 3 + utf8LossyLen (c3 :: rest3)
            else 3 + utf8LossyLen (c2 :: rest2)
        else 3 + utf8LossyLen (c1 :: rest1)
    else 3 + utf8LossyLen rest

/-- ASCII byte lists decode losslessly: the lossy length is the length. -/
theorem utf8LossyLen_ascii :
    ∀ l : List Nat, (∀ b ∈ l, b < 0x80) → utf8LossyLen l = l.length
  | [], _ => rfl
  | b :: rest, h => by
    have hb : b < 0x80 := h b (by simp)
    unfold utf8LossyLen
    rw [if_pos hb, utf8LossyLen_ascii rest (fun x hx => h x (by simp [hx]))]
    simp [Nat.add_comm]

/-- The reader: borrowed source plus cursor offset. -/
structure BReader where
  source : List Nat
  offset : Nat
deriving DecidableEq, Repr

/-- Kinds of panic an operation can hit. -/
inductive PanicKind where
  | sliceOutOfRange
  | byteorderAssert
deriving DecidableEq, Repr

/-- Failure channel of the interpreter: a panic, or fuel exhaustion
standing for the source's non-termination. -/
inductive RFail where
  | panicked (k : PanicKind)
  | diverged
deriving DecidableEq, Repr

namespace BReader

/-- check_enough_bytes: Some iff at least count bytes remain, via the
(wrapping) subtraction self.source.len() - self.offset. -/
def check_enough_bytes (r : BReader) (count : Nat) : Option Unit :=
  let left := usizeSub r.source.length r.offset
  if left < count then none else some ()

/-- take(count): check, then slice source[offset..offset+count] (the slice
panics when the end exceeds the buffer, which the wrapped subtraction can
let through). -/
def take (r : BReader) (count : Nat) :
    Except RFail (Option (List Nat) × BReader) :=
  match check_enough_bytes r count with
  | none => .ok (none, r)
  | some _ =>
    if r.offset + count ≤ r.source.length then
      .ok (some ((r.source.drop r.offset).take count),
           ⟨r.source, r.offset + count⟩)
    else .error (.panicked .sliceOutOfRange)

/-- Big-endian integer value of a byte list. -/
def readUintBE (bytes : List Nat) : Nat :=
  bytes.foldl (fun acc b => acc * 256 + b) 0

/-- Little-endian integer value of a byte list. -/
def readUintLE (bytes : List Nat) : Nat :=
  bytes.reverse.foldl (fun acc b => acc * 256 + b) 0

/-- uint<O>(n): take n bytes and read them; byteorder panics unless
1 <= n <= 8. -/
def uint (le : Bool) (r : BReader) (n : Nat) :
    Except RFail (Option Nat × BReader) :=
  if 1 ≤ n ∧ n ≤ 8 then
    match take r n with
    | .error e => .error e
    | .ok (none, r') => .ok (none, r')
    | .ok (some bytes, r') =>
      .ok (some (if le then readUintLE bytes else readUintBE bytes), r')
  else .error (.panicked .byteorderAssert)

/-- string_zero: check one byte, slice source[offset..] (panicking when
offset exceeds the buffer), find the first NUL (or take everything), and
advance by the LOSSY-DECODED length plus one. -/
def string_zero (r : BReader) :
    Except RFail (Option (List Nat) × BReader) :=
  match check_enough_bytes r 1 with
  | none => .ok (none, r)
  | some _ =>
    if r.offset ≤ r.source.length then
      let rest := r.source.drop r.offset
      let first_zero := ((rest.findIdx? (fun b => b = 0)).getD rest.length)
      let val := rest.take first_zero
      .ok (some val, ⟨r.source, r.offset + (utf8LossyLen val + 1)⟩)
    else .error (.panicked .sliceOutOfRange)

end BReader

/-- A reader operation (take_n shares take's model; parse<T> of a derived
struct is a sequence of these). -/
inductive ROp where
  | take (n : Nat)
  | take_n (n : Nat)
  | uintLE (n : Nat)
  | uintBE (n : Nat)
  | string_zero
deriving DecidableEq, Repr

/-- Run a primitive, reporting only success/failure and the next state. -/
def runROp (o : ROp) (r : BReader) : Except RFail (Bool × BReader) :=
  match o with
  | .take n | .take_n n =>
    match BReader.take r n with
    | .error e => .error e
    | .ok (v, r') => .ok (v.isSome, r')
  | .uintLE n =>
    match BReader.uint true r n with
    | .error e => .error e
    | .ok (v, r') => .ok (v.isSome, r')
  | .uintBE n =>
    match BReader.uint false r n with
    | .error e => .error e
    | .ok (v, r') => .ok (v.isSome, r')
  | .string_zero =>
    match BReader.string_zero r with
    | .error e => .error e
    | .ok (v, r') => .ok (v.isSome, r')

/-- Reader programs: primitives and the source's combinators. -/
inductive RProg where
  | op (o : ROp)
  | seq (p q : RProg)
  | peek (p : RProg)
  | cond (b : Bool) (p : RProg)
  | rep (n : Nat) (p : RProg)
  | many0 (p : RProg)
  | many1 (p : RProg)
deriving DecidableEq, Repr

/-- Fuelled interpreter.  mark/restore of peek and many0 is the offset
save/restore of the source; many1 behaves as many0 after one mandatory
success, returning failure (not rewinding) if the first parse fails. -/
def runProg : Nat → RProg → BReader → Except RFail (Bool × BReader)
  | 0, _, _ => .error .diverged
  | fuel + 1, prog, r =>
    match prog with
    | .op o => runROp o r
    | .seq p q =>
      match runProg fuel p r with
      | .error e => .error e
      | .ok (false, r') => .ok (false, r')
      | .ok (true, r') => runProg fuel q r'
    | .peek p =>
      match runProg fuel p r with
      | .error e => .error e
      | .ok (b, _) => .ok (b, r)
    | .cond b p => if b then runProg fuel p r else .ok (true, r)
    | .rep 0 _ => .ok (true, r)
    | .rep (n + 1) p =>
      match runProg fuel p r with
      | .error e => .error e
      | .ok (false, r') => .ok (false, r')
      | .ok (true, r') => runProg fuel (.rep n p) r'
    | .many0 p =>
      match runProg fuel p r with
      | .error e => .error e
      | .ok (false, _) => .ok (true, r)
      | .ok (true, r') => runProg fuel (.many0 p) r'
    | .many1 p =>
      match runProg fuel p r with
      | .error e => .error e
      | .ok (false, r') => .ok (false, r')
      | .ok (true, r') => runProg fuel (.many0 p) r'

/-- Well-formed programs: every uint width is within byteorder's asserted
1..=8 (the specification's own contract writes uint(n <= 8)). -/
def progWf : RProg → Bool
  | .op (.uintLE n) | .op (.uintBE n) => decide (1 ≤ n) && decide (n ≤ 8)
  | .op _ => true
  | .seq p q => progWf p && progWf q
  | .peek p => progWf p
  | .cond _ p => progWf p
  | .rep _ p => progWf p
  | .many0 p => progWf p
  | .many1 p => progWf p

/-- The cursor is within the buffer. -/
def readerOk (r : BReader) : Prop := r.offset ≤ r.source.length

/-- A NUL-terminated ASCII buffer: what the amendment requires for
string_zero to stay in bounds. -/
def nulSafe (src : List Nat) : Prop :=
  (∀ b ∈ src, b < 0x80) ∧ (src = [] ∨ src.getLast? = some 0)

/-- On an in-bounds cursor, the wrapping subtraction is exact. -/
theorem usizeSub_of_le {a b : Nat} (h : b ≤ a) : usizeSub a b = a - b :=
  if_pos h

/-- take never panics and keeps the cursor in bounds when it starts in
bounds. -/
theorem take_safe (r : BReader) (count : Nat) (hok : readerOk r) :
    (∀ pk, BReader.take r count ≠ .error (.panicked pk)) ∧
    (∀ v r', BReader.take r count = .ok (v, r') →
      readerOk r' ∧ r'.source = r.source) := by
  unfold BReader.take BReader.check_enough_bytes
  rw [usizeSub_of_le hok]
  by_cases hlt : r.source.length - r.offset < count
  · simp only [hlt, if_true]
    exact ⟨fun pk h => Except.noConfusion h,
      fun v r' h => by
        injection h with h
        injection h with h1 h2
        subst h2
        exact ⟨hok, rfl⟩⟩
  · have hle : r.offset + count ≤ r.source.length := by
      unfold readerOk at hok
      omega
    simp only [hlt, if_false, hle, if_true]
    exact ⟨fun pk h => Except.noConfusion h,
      fun v r' h => by
        injection h with h
        injection h with h1 h2
        subst h2
        exact ⟨hle, rfl⟩⟩

/-- The exact behaviour of string_zero when a NUL exists in the remainder:
returns the bytes before the first NUL, advancing by their lossy-decoded
length plus one. -/
theorem string_zero_spec (r : BReader) (j : Nat)
    (hok : r.offset ≤ r.source.length)
    (hj : (r.source.drop r.offset).findIdx? (fun b => decide (b = 0)) = some j) :
    BReader.string_zero r =
      .ok (some ((r.source.drop r.offset).take j),
           ⟨r.source,
            r.offset + (utf8LossyLen ((r.source.drop r.offset).take j) + 1)⟩) := by
  have hjlt : j < (r.source.drop r.offset).length :=
    (List.findIdx?_eq_some_iff_findIdx_eq.mp hj).1
  have hoff : r.offset < r.source.length := by
    rw [List.length_drop] at hjlt
    omega
  unfold BReader.string_zero BReader.check_enough_bytes
  rw [usizeSub_of_le hok]
  have hlt : ¬ (r.source.length - r.offset < 1) := by omega
  simp only [hlt, if_false, hok, if_true, hj, Option.getD_some]

/-- string_zero never panics on a NUL-terminated ASCII buffer, and keeps
the cursor in bounds. -/
theorem string_zero_safe (r : BReader) (hok : readerOk r)
    (hs : nulSafe r.source) :
    (∀ pk, BReader.string_zero r ≠ .error (.panicked pk)) ∧
    (∀ v r', BReader.string_zero r = .ok (v, r') →
      readerOk r' ∧ r'.source = r.source) := by
  by_cases hend : r.source.length - r.offset < 1
  · have : BReader.string_zero r = .ok (none, r) := by
      unfold BReader.string_zero BReader.check_enough_bytes
      rw [usizeSub_of_le hok]
      simp only [hend, if_true]
    rw [this]
    exact ⟨fun pk h => Except.noConfusion h,
      fun v r' h => by
        injection h with h
        injection h with h1 h2
        subst h2
        exact ⟨hok, rfl⟩⟩
  · have hoff : r.offset < r.source.length := by
      unfold readerOk at hok
      omega
    have hmem : (0 : Nat) ∈ r.source.drop r.offset := by
      rcases hs.2 with h0 | h0
      · rw [h0] at hoff
        simp at hoff
      · apply List.mem_of_mem_getLast?
        rw [List.getLast?_drop, if_neg (by omega), h0]
        rfl
    have hfind : (r.source.drop r.offset).findIdx? (fun b => decide (b = 0)) ≠
        none := by
      intro hnone
      rw [List.findIdx?_eq_none_iff] at hnone
      have := hnone 0 hmem
      simp at this
    obtain ⟨j, hj⟩ := Option.ne_none_iff_exists'.mp hfind
    have hjlt : j < (r.source.drop r.offset).length :=
      (List.findIdx?_eq_some_iff_findIdx_eq.mp hj).1
    have hspec := string_zero_spec r j hok hj
    have hascii : ∀ b ∈ (r.source.drop r.offset).take j, b < 0x80 :=
      fun b hb => hs.1 b (List.mem_of_mem_drop (List.mem_of_mem_take hb))
    have hlossy : utf8LossyLen ((r.source.drop r.offset).take j) = j := by
      rw [utf8LossyLen_ascii _ hascii, List.length_take]
      omega
    rw [hspec, hlossy]
    refine ⟨fun pk h => Except.noConfusion h, fun v r' h => ?_⟩
    injection h with h
    injection h with h1 h2
    subst h2
    constructor
    · show r.offset + (j + 1) ≤ r.source.length
      rw [List.length_drop] at hjlt
      omega
    · rfl

/-- Primitive dispatch preserves safety. -/
theorem runROp_safe (o : ROp) (r : BReader)
    (hwf : progWf (.op o) = true) (hok : readerOk r) (hs : nulSafe r.source) :
    (∀ pk, runROp o r ≠ .error (.panicked pk)) ∧
    (∀ b r', runROp o r = .ok (b, r') → readerOk r' ∧ r'.source = r.source) := by
  have lift :
      ∀ (act : Except RFail (Option (List Nat) × BReader)),
        (∀ pk, act ≠ .error (.panicked pk)) →
        (∀ v r', act = .ok (v, r') → readerOk r' ∧ r'.source = r.source) →
        (∀ pk, (match act with
          | .error e => .error e
          | .ok (v, r') => .ok (v.isSome, r')) ≠
            (.error (.panicked pk) : Except RFail (Bool × BReader))) ∧
        (∀ b r'', (match act with
          | .error e => .error e
          | .ok (v, r') => .ok (v.isSome, r')) =
            (.ok (b, r'') : Except RFail (Bool × BReader)) →
          readerOk r'' ∧ r''.source = r.source) := by
    intro act h1 h2
    cases act with
    | error e =>
      refine ⟨fun pk h => ?_, fun b r'' h => Except.noConfusion h⟩
      injection h with h
      subst h
      exact h1 pk rfl
    | ok vr =>
      obtain ⟨v, r'⟩ := vr
      refine ⟨fun pk h => Except.noConfusion h, fun b r'' h => ?_⟩
      injection h with h
      injection h with hb hr
      subst hr
      exact h2 v r' rfl
  have liftN :
      ∀ (act : Except RFail (Option Nat × BReader)),
        (∀ pk, act ≠ .error (.panicked pk)) →
        (∀ v r', act = .ok (v, r') → readerOk r' ∧ r'.source = r.source) →
        (∀ pk, (match act with
          | .error e => .error e
          | .ok (v, r') => .ok (v.isSome, r')) ≠
            (.error (.panicked pk) : Except RFail (Bool × BReader))) ∧
        (∀ b r'', (match act with
          | .error e => .error e
          | .ok (v, r') => .ok (v.isSome, r')) =
            (.ok (b, r'') : Except RFail (Bool × BReader)) →
          readerOk r'' ∧ r''.source = r.source) := by
    intro act h1 h2
    cases act with
    | error e =>
      refine ⟨fun pk h => ?_, fun b r'' h => Except.noConfusion h⟩
      injection h with h
      subst h
      exact h1 pk rfl
    | ok vr =>
      obtain ⟨v, r'⟩ := vr
      refine ⟨fun pk h => Except.noConfusion h, fun b r'' h => ?_⟩
      injection h with h
      injection h with hb hr
      subst hr
      exact h2 v r' rfl
  have uint_safe : ∀ (le : Bool) (n : Nat), 1 ≤ n ∧ n ≤ 8 →
      (∀ pk, BReader.uint le r n ≠ .error (.panicked pk)) ∧
      (∀ v r', BReader.uint le r n = .ok (v, r') →
        readerOk r' ∧ r'.source = r.source) := by
    intro le n hn
    obtain ⟨h1, h2⟩ := take_safe r n hok
    unfold BReader.uint
    rw [if_pos hn]
    cases ht : BReader.take r n with
    | error e =>
      refine ⟨fun pk h => ?_, fun v r' h => Except.noConfusion h⟩
      injection h with h
      subst h
      exact h1 pk ht
    | ok vr =>
      obtain ⟨v, r'⟩ := vr
      cases v with
      | none =>
        refine ⟨fun pk h => Except.noConfusion h, fun v' r'' h => ?_⟩
        injection h with h
        injection h with hv hr
        subst hr
        exact h2 none r' ht
      | some bytes =>
        refine ⟨fun pk h => Except.noConfusion h, fun v' r'' h => ?_⟩
        injection h with h
        injection h with hv hr
        subst hr
        exact h2 (some bytes) r' ht
  cases o with
  | take n =>
    obtain ⟨h1, h2⟩ := take_safe r n hok
    exact lift (BReader.take r n) h1 h2
  | take_n n =>
    obtain ⟨h1, h2⟩ := take_safe r n hok
    exact lift (BReader.take r n) h1 h2
  | uintLE n =>
    have hn : 1 ≤ n ∧ n ≤ 8 := by
      simp only [progWf, Bool.and_eq_true, decide_eq_true_eq] at hwf
      exact hwf
    obtain ⟨h1, h2⟩ := uint_safe true n hn
    exact liftN (BReader.uint true r n) h1 h2
  | uintBE n =>
    have hn : 1 ≤ n ∧ n ≤ 8 := by
      simp only [progWf, Bool.and_eq_true, decide_eq_true_eq] at hwf
      exact hwf
    obtain ⟨h1, h2⟩ := uint_safe false n hn
    exact liftN (BReader.uint false r n) h1 h2
  | string_zero =>
    obtain ⟨h1, h2⟩ := string_zero_safe r hok hs
    exact lift (BReader.string_zero r) h1 h2

/-- The interpreter never panics on well-formed programs over in-bounds,
NUL-terminated ASCII input, and preserves the reader invariant. -/
theorem runProg_safe :
    ∀ (fuel : Nat) (p : RProg) (r : BReader),
      progWf p = true → readerOk r → nulSafe r.source →
      (∀ pk, runProg fuel p r ≠ .error (.panicked pk)) ∧
      (∀ b r', runProg fuel p r = .ok (b, r') →
        readerOk r' ∧ r'.source = r.source) := by
  intro fuel
  induction fuel with
  | zero =>
    intro p r _ _ _
    exact ⟨fun pk h => by injection h with h; exact RFail.noConfusion h,
      fun b r' h => Except.noConfusion h⟩
  | succ fuel ih =>
    intro p r hwf hok hs
    cases p with
    | op o => exact runROp_safe o r hwf hok hs
    | seq p q =>
      simp only [progWf, Bool.and_eq_true] at hwf
      obtain ⟨hp1, hp2⟩ := ih p r hwf.1 hok hs
      show _ ∧ _
      constructor
      · intro pk h
        simp only [runProg] at h
        cases hrun : runProg fuel p r with
        | error e =>
          rw [hrun] at h
          injection h with h
          subst h
          exact hp1 pk hrun
        | ok br =>
          obtain ⟨b, r'⟩ := br
          obtain ⟨hok', hsrc'⟩ := hp2 b r' hrun
          rw [hrun] at h
          cases b with
          | false => exact Except.noConfusion h
          | true =>
            exact (ih q r' hwf.2 hok' (hsrc' ▸ hs)).1 pk h
      · intro b r'' h
        simp only [runProg] at h
        cases hrun : runProg fuel p r with
        | error e => rw [hrun] at h; exact Except.noConfusion h
        | ok br =>
          obtain ⟨b', r'⟩ := br
          obtain ⟨hok', hsrc'⟩ := hp2 b' r' hrun
          rw [hrun] at h
          cases b' with
          | false =>
            injection h with h
            injection h with hb hr
            subst hr
            exact ⟨hok', hsrc'⟩
          | true =>
            obtain ⟨hok'', hsrc''⟩ :=
              (ih q r' hwf.2 hok' (hsrc' ▸ hs)).2 b r'' h
            exact ⟨hok'', hsrc''.trans hsrc'⟩
    | peek p =>
      simp only [progWf] at hwf
      obtain ⟨hp1, hp2⟩ := ih p r hwf hok hs
      constructor
      · intro pk h
        simp only [runProg] at h
        cases hrun : runProg fuel p r with
        | error e =>
          rw [hrun] at h
          injection h with h
          subst h
          exact hp1 pk hrun
        | ok br => obtain ⟨b, r'⟩ := br; rw [hrun] at h; exact Except.noConfusion h
      · intro b r'' h
        simp only [runProg] at h
        cases hrun : runProg fuel p r with
        | error e => rw [hrun] at h; exact Except.noConfusion h
        | ok br =>
          obtain ⟨b', r'⟩ := br
          rw [hrun] at h
          injection h with h
          injection h with hb hr
          subst hr
          exact ⟨hok, rfl⟩
    | cond cb p =>
      simp only [progWf] at hwf
      cases cb with
      | true =>
        obtain ⟨hp1, hp2⟩ := ih p r hwf hok hs
        constructor
        · intro pk h
          simp only [runProg, if_true] at h
          exact hp1 pk h
        · intro b r'' h
          simp only [runProg, if_true] at h
          exact hp2 b r'' h
      | false =>
        constructor
        · intro pk h
          simp only [runProg] at h
          simp only [Bool.false_eq_true, if_false] at h
          exact Except.noConfusion h
        · intro b r'' h
          simp only [runProg] at h
          simp only [Bool.false_eq_true, if_false] at h
          injection h with h
          injection h with hb hr
          subst hr
          exact ⟨hok, rfl⟩
    | rep n p =>
      induction n generalizing r with
      | zero =>
        constructor
        · intro pk h
          simp only [runProg] at h
          exact Except.noConfusion h
        · intro b r'' h
          simp only [runProg] at h
          injection h with h
          injection h with hb hr
          subst hr
          exact ⟨hok, rfl⟩
      | succ m ihm =>
        simp only [progWf] at hwf
        obtain ⟨hp1, hp2⟩ := ih p r hwf hok hs
        constructor
        · intro pk h
          simp only [runProg] at h
          cases hrun : runProg fuel p r with
          | error e =>
            rw [hrun] at h
            injection h with h
            subst h
            exact hp1 pk hrun
          | ok br =>
            obtain ⟨b, r'⟩ := br
            obtain ⟨hok', hsrc'⟩ := hp2 b r' hrun
            rw [hrun] at h
            cases b with
            | false => exact Except.noConfusion h
            | true =>
              exact (ih (.rep m p) r' (by simpa [progWf] using hwf) hok'
                (hsrc' ▸ hs)).1 pk h
        · intro b r'' h
          simp only [runProg] at h
          cases hrun : runProg fuel p r with
          | error e => rw [hrun] at h; exact Except.noConfusion h
          | ok br =>
            obtain ⟨b', r'⟩ := br
            obtain ⟨hok', hsrc'⟩ := hp2 b' r' hrun
            rw [hrun] at h
            cases b' with
            | false =>
              injection h with h
              injection h with hb hr
              subst hr
              exact ⟨hok', hsrc'⟩
            | true =>
              obtain ⟨hok'', hsrc''⟩ :=
                (ih (.rep m p) r' (by simpa [progWf] using hwf) hok'
                  (hsrc' ▸ hs)).2 b r'' h
              exact ⟨hok'', hsrc''.trans hsrc'⟩
    | many0 p =>
      simp only [progWf] at hwf
      obtain ⟨hp1, hp2⟩ := ih p r hwf hok hs
      constructor
      · intro pk h
        simp only [runProg] at h
        cases hrun : runProg fuel p r with
        | error e =>
          rw [hrun] at h
          injection h with h
          subst h
          exact hp1 pk hrun
        | ok br =>
          obtain ⟨b, r'⟩ := br
          obtain ⟨hok', hsrc'⟩ := hp2 b r' hrun
          rw [hrun] at h
          cases b with
          | false => exact Except.noConfusion h
          | true =>
            exact (ih (.many0 p) r' (by simpa [progWf] using hwf) hok'
              (hsrc' ▸ hs)).1 pk h
      · intro b r'' h
        simp only [runProg] at h
        cases hrun : runProg fuel p r with
        | error e => rw [hrun] at h; exact Except.noConfusion h
        | ok br =>
          obtain ⟨b', r'⟩ := br
          obtain ⟨hok', hsrc'⟩ := hp2 b' r' hrun
          rw [hrun] at h
          cases b' with
          | false =>
            injection h with h
            injection h with hb hr
            subst hr
            exact ⟨hok, rfl⟩
          | true =>
            obtain ⟨hok'', hsrc''⟩ :=
              (ih (.many0 p) r' (by simpa [progWf] using hwf) hok'
                (hsrc' ▸ hs)).2 b r'' h
            exact ⟨hok'', hsrc''.trans hsrc'⟩
    | many1 p =>
      simp only [progWf] at hwf
      obtain ⟨hp1, hp2⟩ := ih p r hwf hok hs
      constructor
      · intro pk h
        simp only [runProg] at h
        cases hrun : runProg fuel p r with
        | error e =>
          rw [hrun] at h
          injection h with h
          subst h
          exact hp1 pk hrun
        | ok br =>
          obtain ⟨b, r'⟩ := br
          obtain ⟨hok', hsrc'⟩ := hp2 b r' hrun
          rw [hrun] at h
          cases b with
          | false => exact Except.noConfusion h
          | true =>
            exact (ih (.many0 p) r' (by simpa [progWf] using hwf) hok'
              (hsrc' ▸ hs)).1 pk h
      · intro b r'' h
        simp only [runProg] at h
        cases hrun : runProg fuel p r with
        | error e => rw [hrun] at h; exact Except.noConfusion h
        | ok br =>
          obtain ⟨b', r'⟩ := br
          obtain ⟨hok', hsrc'⟩ := hp2 b' r' hrun
          rw [hrun] at h
          cases b' with
          | false =>
            injection h with h
            injection h with hb hr
            subst hr
            exact ⟨hok', hsrc'⟩
          | true =>
            obtain ⟨hok'', hsrc''⟩ :=
              (ih (.many0 p) r' (by simpa [progWf] using hwf) hok'
                (hsrc' ▸ hs)).2 b r'' h
            exact ⟨hok'', hsrc''.trans hsrc'⟩

/-- C10 counterexample.  First conjunct: string_zero on a one-byte buffer
with no NUL advances the cursor past the end (by lossy-len "a" + 1 = 2),
and the following take(1) passes check_enough_bytes (the wrapped
subtraction 1 - 2 is huge) and then panics slicing source[2..3].  Second
conjunct: on invalid UTF-8 the cursor advance uses the lossy-decoded
length, not the byte count: string_zero over [0xFF, 0x00] returns the one
byte before the NUL but consumes 4 bytes (3-byte replacement char + 1) from
a 2-byte buffer — not "exactly the bytes before the first NUL plus the
NUL". -/
theorem C10_counterexample :
    Steed.runProg 3 (.seq (.op .string_zero) (.op (.take 1))) ⟨[0x61], 0⟩ =
      .error (.panicked .sliceOutOfRange) ∧
    Steed.BReader.string_zero ⟨[0xFF, 0], 0⟩ =
      .ok (some [0xFF], ⟨[0xFF, 0], 4⟩) := by
  constructor
  · rfl
  · rfl

/-- C10 (amended): over a NUL-terminated ASCII buffer and with the cursor
in bounds, no sequence of reader operations (take, take_n, uint with the
byteorder-required 1 <= n <= 8, string_zero, and the combinators
parse/peek/cond/repeat/many0/many1) ever panics: each fails soft; and
whenever the remainder contains a NUL whose preceding bytes are ASCII
(more generally, valid UTF-8), string_zero consumes exactly the bytes
before the first NUL plus the NUL itself and returns those bytes (their
lossy UTF-8 decode being themselves).  Without these provisos the original
claim fails as in the counterexample. -/
theorem C10_reader_amended :
    (∀ (fuel : Nat) (p : Steed.RProg) (r : Steed.BReader),
        Steed.progWf p = true → Steed.readerOk r → Steed.nulSafe r.source →
        ∀ pk, Steed.runProg fuel p r ≠ .error (.panicked pk)) ∧
    (∀ (r : Steed.BReader) (j : Nat),
        r.offset ≤ r.source.length →
        (r.source.drop r.offset).findIdx? (fun b => decide (b = 0)) = some j →
        (∀ b ∈ (r.source.drop r.offset).take j, b < 0x80) →
        Steed.BReader.string_zero r =
          .ok (some ((r.source.drop r.offset).take j),
               ⟨r.source, r.offset + (j + 1)⟩)) := by
  constructor
  · intro fuel p r hwf hok hs
    exact (Steed.runProg_safe fuel p r hwf hok hs).1
  · intro r j hok hj hascii
    have hjlt : j < (r.source.drop r.offset).length :=
      (List.findIdx?_eq_some_iff_findIdx_eq.mp hj).1
    rw [Steed.string_zero_spec r j hok hj,
      Steed.utf8LossyLen_ascii _ hascii, List.length_take,
      min_eq_left hjlt.le]

/-- C10 witness: the amended theorem applied to the concrete buffer
[0x41, 0x00]: a take over it never panics, and string_zero consumes the
byte before the NUL plus the NUL. -/
theorem C10_reader_amended_witness :
    (Steed.progWf (.op (.take 1)) = true ∧
      Steed.readerOk ⟨[0x41, 0], 0⟩ ∧ Steed.nulSafe [0x41, 0]) ∧
    (∀ pk, Steed.runProg 5 (.op (.take 1)) ⟨[0x41, 0], 0⟩ ≠
      .error (.panicked pk)) ∧
    Steed.BReader.string_zero ⟨[0x41, 0], 0⟩ =
      .ok (some [0x41], ⟨[0x41, 0], 2⟩) :=
  ⟨⟨by decide, by unfold Steed.readerOk; decide,
    by unfold Steed.nulSafe; decide⟩,
   C10_reader_amended.1 5 (.op (.take 1)) ⟨[0x41, 0], 0⟩
     (by decide) (by unfold Steed.readerOk; decide)
     (by unfold Steed.nulSafe; decide),
   C10_reader_amended.2 ⟨[0x41, 0], 0⟩ 1 (by decide) (by decide) (by decide)⟩

/-! ## ESpec printing and parsing (crates/ngdp/src/blte/espec.rs)

The ESpec tree, its Display instance, and the nom parser, embedded over
List Char.  nom semantics: a parser returns the value and the remaining
input, or fails without consuming; alt tries branches on the original
input; opt turns failure into None without consuming; once an alt branch
has succeeded there is no backtracking into it.  parse_espec recurses
through encrypted and blocks payloads; the embedding drives that recursion
with a fuel parameter (every recursive call sits behind at least one
consumed character, so input length + 1 fuel always suffices), and many0
likewise iterates at most input length + 1 times (each successful
iteration consumes at least one character). -/

/-- ZipBits: explicit window bits or MPQ. -/
inductive ZipBits where
  | bits (n : Nat)
  | mpq
deriving DecidableEq, Repr

/-- BlockSize of an ESpec block. -/
inductive BlockSize where
  | chunked (size count : Nat)
  | chunkedGreedy (size : Nat)
  | greedy
deriving DecidableEq, Repr

mutual
/-- The ESpec tree (Raw | Zip | Encrypted | Blocks). -/
inductive ESpec where
  | raw : ESpec
  | zip (level : Nat) (bits : ZipBits) : ESpec
  | encrypted (key : List Nat) (iv : List Nat) (inner : ESpec) : ESpec
  | blocks (bs : List EBlock) (final_ : EBlock) : ESpec

/-- A sized block with its inner spec. -/
inductive EBlock where
  | mk (size : BlockSize) (inner : ESpec) : EBlock
end

/-- Base-10 digits of n, least significant first (fuel-driven so that the
kernel can evaluate it; fuel >= n always suffices). -/
def digitsAux : Nat → Nat → List Nat
  | _, 0 => []
  | 0, _ => []
  | fuel + 1, n + 1 => ((n + 1) % 10) :: digitsAux fuel ((n + 1) / 10)

/-- Decimal digit characters of n, most significant first ("0" for 0). -/
def natChars (n : Nat) : List Char :=
  if n = 0 then ['0']
  else ((digitsAux n n).map Nat.digitChar).reverse

/-- One lowercase hex digit. -/
def hexCharLower (d : Nat) : Char :=
  Char.ofNat (if d < 10 then 48 + d else 87 + d)

/-- One uppercase hex digit. -/
def hexCharUpper (d : Nat) : Char :=
  Char.ofNat (if d < 10 then 48 + d else 55 + d)

/-- Two hex digits of one byte. -/
def hexBytePair (upper : Bool) (b : Nat) : List Char :=
  [(if upper then hexCharUpper else hexCharLower) (b / 16),
   (if upper then hexCharUpper else hexCharLower) (b % 16)]

/-- Hex string of a byte list (hex::encode / encode_upper). -/
def hexChars (upper : Bool) (bytes : List Nat) : List Char :=
  bytes.flatMap (hexBytePair upper)

/-- fmt_size of the Display impl: multiples of 1 MiB as "xM", of 1 KiB as
"xK", else decimal. -/
def fmtSize (v : Nat) : List Char :=
  if v &&& 0xfffff = 0 then natChars (v >>> 20) ++ ['M']
  else if v &&& 0x3ff = 0 then natChars (v >>> 10) ++ ['K']
  else natChars v

/-- The size prefix of a printed block. -/
def sizeFormat : BlockSize → List Char
  | .chunked s c => fmtSize s ++ (if c > 1 then '*' :: natChars c else [])
  | .chunkedGreedy s => fmtSize s ++ ['*']
  | .greedy => ['*']

mutual
/-- Display for ESpec. -/
def espFormat : ESpec → List Char
  | .raw => ['n']
  | .zip level bits =>
    if level = 9 ∧ bits = .bits 15 then ['z']
    else if level ≠ 9 ∧ bits = .bits 15 then 'z' :: ':' :: natChars level
    else
      match bits with
      | .bits b =>
        'z' :: ':' :: '{' :: (natChars level ++ ',' :: natChars b ++ ['}'])
      | .mpq => 'z' :: ':' :: '{' :: (natChars level ++ [',', 'm', 'p', 'q', '}'])
  | .encrypted key iv inner =>
    'e' :: ':' :: '{' :: (hexChars true key ++ ',' :: hexChars false iv ++
      ',' :: espFormat inner ++ ['}'])
  | .blocks bs fin =>
    match bs with
    | [] => 'b' :: ':' :: blockFormat fin
    | _ :: _ => 'b' :: ':' :: '{' :: (blocksFormat bs ++ blockFormat fin ++ ['}'])

/-- Display for Block. -/
def blockFormat : EBlock → List Char
  | .mk size inner => sizeFormat size ++ '=' :: espFormat inner

/-- The non-final blocks, each followed by a comma. -/
def blocksFormat : List EBlock → List Char
  | [] => []
  | b :: bs => blockFormat b ++ ',' :: blocksFormat bs
end

/-! The nom combinators, specialised. -/

/-- char(c). -/
def pChar (c : Char) (s : List Char) : Option (Char × List Char) :=
  match s with
  | x :: rest => if x = c then some (c, rest) else none
  | [] => none

/-- tag(t). -/
def pTag (t : List Char) (s : List Char) : Option (Unit × List Char) :=
  if t.isPrefixOf s then some ((), s.drop t.length) else none

/-- take(n) over chars. -/
def pTake (n : Nat) (s : List Char) : Option (List Char × List Char) :=
  if n ≤ s.length then some (s.take n, s.drop n) else none

/-- Value of a decimal digit char. -/
def digitVal (c : Char) : Nat := c.toNat - 48

/-- Big-endian decimal value of a digit-char list. -/
def charsToNat (ds : List Char) : Nat :=
  ds.foldl (fun acc c => acc * 10 + digitVal c) 0

/-- nom's u64: one or more digits, maximal munch, overflow-checked. -/
def pU64 (s : List Char) : Option (Nat × List Char) :=
  let ds := s.takeWhile Char.isDigit
  if ds.isEmpty then none
  else
    let v := charsToNat ds
    if v < 18446744073709551616 then some (v, s.drop ds.length) else none

/-- nom's u8: one or more digits, maximal munch, overflow-checked. -/
def pU8 (s : List Char) : Option (Nat × List Char) :=
  let ds := s.takeWhile Char.isDigit
  if ds.isEmpty then none
  else
    let v := charsToNat ds
    if v < 256 then some (v, s.drop ds.length) else none

/-- Value of one hex digit char. -/
def hexDigitVal (c : Char) : Option Nat :=
  if 48 ≤ c.toNat ∧ c.toNat ≤ 57 then some (c.toNat - 48)
  else if 97 ≤ c.toNat ∧ c.toNat ≤ 102 then some (c.toNat - 87)
  else if 65 ≤ c.toNat ∧ c.toNat ≤ 70 then some (c.toNat - 55)
  else none

/-- u8::from_str_radix(chunk, 16) on a two-char chunk (a leading plus sign
with a single digit is also accepted by from_str_radix). -/
def hexByteVal (c1 c2 : Char) : Option Nat :=
  if c1 = '+' then hexDigitVal c2
  else
    match hexDigitVal c1, hexDigitVal c2 with
    | some d1, some d2 => some (16 * d1 + d2)
    | _, _ => none

/-- parse_hex_bytes: decode consecutive two-char chunks. -/
def hexPairsVal : List Char → Option (List Nat)
  | [] => some []
  | c1 :: c2 :: rest =>
    match hexByteVal c1 c2, hexPairsVal rest with
    | some b, some bs => some (b :: bs)
    | _, _ => none
  | [_] => none

/-- The braced zip parameters {level,bits-or-mpq}; the alt tries the u8
bits before the mpq tag. -/
def pZipBraced (s : List Char) : Option ((Nat × ZipBits) × List Char) :=
  match pChar '{' s with
  | none => none
  | some (_, s1) =>
    match pU8 s1 with
    | none => none
    | some (level, s2) =>
      match pChar ',' s2 with
      | none => none
      | some (_, s3) =>
        match pU8 s3 with
        | some (b, s4) =>
          match pChar '}' s4 with
          | none => none
          | some (_, s5) => some ((level, .bits b), s5)
        | none =>
          match pTag [ 'm', 'p', 'q'] s3 with
          | none => none
          | some (_, s4) =>
            match pChar '}' s4 with
            | none => none
            | some (_, s5) => some ((level, .mpq), s5)

/-- parse_zip: 'z', then optionally ':' with either the braced form or a
bare u8 level; opt-failure (including a ':' whose parameters fail) rewinds
to just after the 'z'. -/
def pZip (s : List Char) : Option (ESpec × List Char) :=
  match pChar 'z' s with
  | none => none
  | some (_, s1) =>
    let inner : Option ((Nat × ZipBits) × List Char) :=
      match pChar ':' s1 with
      | none => none
      | some (_, s2) =>
        match pZipBraced s2 with
        | some (lb, s3) => some (lb, s3)
        | none =>
          match pU8 s2 with
          | some (level, s3) => some ((level, .bits 15), s3)
          | none => none
    match inner with
    | some ((level, bits), s3) => some (.zip level bits, s3)
    | none => some (.zip 9 (.bits 15), s1)

/-- block_size: u64 with an optional K/M suffix. -/
def pBlockSize (s : List Char) : Option (Nat × List Char) :=
  match pU64 s with
  | none => none
  | some (size, s1) =>
    match pChar 'K' s1 with
    | some (_, s2) => some (size * 1024, s2)
    | none =>
      match pChar 'M' s1 with
      | some (_, s2) => some (size * 1048576, s2)
      | none => some (size, s1)

/-- block_size_spec: size with optional *count (count defaults to 1). -/
def pBlockSizeSpec (s : List Char) : Option (BlockSize × List Char) :=
  match pBlockSize s with
  | none => none
  | some (size, s1) =>
    match pChar '*' s1 with
    | some (_, s2) =>
      match pU64 s2 with
      | some (count, s3) => some (.chunked size count, s3)
      | none => some (.chunked size 1, s1)
    | none => some (.chunked size 1, s1)

/-- final_size_spec: '*' (greedy), size '*' (chunked-greedy), or
block_size_spec; alt in that order. -/
def pFinalSizeSpec (s : List Char) : Option (BlockSize × List Char) :=
  match pChar '*' s with
  | some (_, s1) => some (.greedy, s1)
  | none =>
    match pBlockSize s with
    | some (size, s1) =>
      match pChar '*' s1 with
      | some (_, s2) => some (.chunkedGreedy size, s2)
      | none =>
        -- branch 2 of the alt failed without consuming; branch 3
        match pBlockSizeSpec s with
        | some (bs, s2) => some (bs, s2)
        | none => none
    | none =>
      match pBlockSizeSpec s with
      | some (bs, s2) => some (bs, s2)
      | none => none

/-- A sub-parser for ESpec payloads (the recursive knot, tied by fuel). -/
abbrev ESubP := List Char → Option (ESpec × List Char)

/-- final_subchunk: final_size_spec '=' espec. -/
def pFinalSubF (pE : ESubP) (s : List Char) : Option (EBlock × List Char) :=
  match pFinalSizeSpec s with
  | none => none
  | some (size, s1) =>
    match pChar '=' s1 with
    | none => none
    | some (_, s2) =>
      match pE s2 with
      | none => none
      | some (inner, s3) => some (.mk size inner, s3)

/-- block_subchunk: block_size_spec '=' espec. -/
def pBlockSubF (pE : ESubP) (s : List Char) : Option (EBlock × List Char) :=
  match pBlockSizeSpec s with
  | none => none
  | some (size, s1) =>
    match pChar '=' s1 with
    | none => none
    | some (_, s2) =>
      match pE s2 with
      | none => none
      | some (inner, s3) => some (.mk size inner, s3)

/-- many0(terminated(block_subchunk, ',')): collect while both succeed; a
failed iteration is rewound whole.  iters bounds the loop (each successful
iteration consumes at least one character, so remaining-input + 1 always
suffices). -/
def many0Sub (sub : List Char → Option (EBlock × List Char)) :
    Nat → List Char → (List EBlock × List Char)
  | 0, s => ([], s)
  | iters + 1, s =>
    match sub s with
    | none => ([], s)
    | some (b, s1) =>
      match pChar ',' s1 with
      | none => ([], s)
      | some (_, s2) =>
        let r := many0Sub sub iters s2
        (b :: r.1, r.2)

/-- parse_encrypted: "e:" '{' 16 hex chars ',' 8 hex chars ',' espec '}'. -/
def pEncryptedF (pE : ESubP) (s : List Char) : Option (ESpec × List Char) :=
  match pTag ['e', ':'] s with
  | none => none
  | some (_, s0) =>
    match pChar '{' s0 with
    | none => none
    | some (_, s1) =>
      match pTake 16 s1 with
      | none => none
      | some (kchars, s2) =>
        match hexPairsVal kchars with
        | none => none
        | some key =>
          match pChar ',' s2 with
          | none => none
          | some (_, s3) =>
            match pTake 8 s3 with
            | none => none
            | some (ivchars, s4) =>
              match hexPairsVal ivchars with
              | none => none
              | some iv =>
                match pChar ',' s4 with
                | none => none
                | some (_, s5) =>
                  match pE s5 with
                  | none => none
                  | some (inner, s6) =>
                    match pChar '}' s6 with
                    | none => none
                    | some (_, s7) => some (.encrypted key iv inner, s7)

/-- parse_blocks: "b:" then either a bare final subchunk, or a braced
many0-of-comma-terminated subchunks followed by a final subchunk. -/
def pBlocksF (pE : ESubP) (s : List Char) : Option (ESpec × List Char) :=
  match pTag ['b', ':'] s with
  | none => none
  | some (_, s1) =>
    match pFinalSubF pE s1 with
    | some (fin, s2) => some (.blocks [] fin, s2)
    | none =>
      match pChar '{' s1 with
      | none => none
      | some (_, s2) =>
        let r := many0Sub (pBlockSubF pE) (s2.length + 1) s2
        match pFinalSubF pE r.2 with
        | none => none
        | some (fin, s4) =>
          match pChar '}' s4 with
          | none => none
          | some (_, s5) => some (.blocks r.1 fin, s5)

/-- parse_espec: alt of raw, zip, encrypted, blocks, with fuel driving the
recursion into encrypted and blocks payloads. -/
def pEspec : Nat → List Char → Option (ESpec × List Char)
  | 0, _ => none
  | fuel + 1, s =>
    match pChar 'n' s with
    | some (_, r) => some (.raw, r)
    | none =>
      match pZip s with
      | some v => some v
      | none =>
        match pEncryptedF (pEspec fuel) s with
        | some v => some v
        | none => pBlocksF (pEspec fuel) s

/-- ESpec::from_str: the complete parser (whole input consumed). -/
def espFromStr (s : List Char) : Option ESpec :=
  match pEspec (s.length + 1) s with
  | some (v, []) => some v
  | _ => none

/-- Sizes that roundtrip in NON-final position: exactly the Chunked sizes
with count at least one (Greedy and ChunkedGreedy print a bare or trailing
asterisk that block_subchunk cannot re-parse), with the u64 bounds the
printed numbers must satisfy to be re-read. -/
def goodNonFinalSize : BlockSize → Bool
  | .chunked s c =>
    decide (s < 18446744073709551616) && decide (1 ≤ c) &&
      decide (c < 18446744073709551616)
  | .chunkedGreedy _ => false
  | .greedy => false

/-- Sizes that roundtrip in final position: Greedy, ChunkedGreedy, and
Chunked with count exactly one (a final Chunked with count above one
prints "size*count" which final_size_spec cannot re-parse). -/
def goodFinalSize : BlockSize → Bool
  | .chunked s c => decide (s < 18446744073709551616) && decide (c = 1)
  | .chunkedGreedy s => decide (s < 18446744073709551616)
  | .greedy => true

mutual
/-- The ESpec values whose printed form parses back to themselves: levels
and window bits within u8 range, encrypted keys and ivs of the exact wire
width with byte-sized entries, non-final blocks Chunked with count at
least one, and final blocks Greedy, ChunkedGreedy, or Chunked-count-one. -/
def goodE : ESpec → Bool
  | .raw => true
  | .zip level bits =>
    decide (level < 256) &&
      (match bits with
       | .bits b => decide (b < 256)
       | .mpq => true)
  | .encrypted key iv inner =>
    decide (key.length = 8) && decide (iv.length = 4) &&
      key.all (fun b => decide (b < 256)) &&
      iv.all (fun b => decide (b < 256)) && goodE inner
  | .blocks bs fin => goodBlockList bs && goodFinal fin

/-- A roundtripping non-final block. -/
def goodBlock : EBlock → Bool
  | .mk size inner => goodNonFinalSize size && goodE inner

/-- All non-final blocks roundtrip. -/
def goodBlockList : List EBlock → Bool
  | [] => true
  | b :: bs => goodBlock b && goodBlockList bs

/-- A roundtripping final block. -/
def goodFinal : EBlock → Bool
  | .mk size inner => goodFinalSize size && goodE inner
end

/-! Leaf lemmas for the ESpec roundtrip. -/

theorem digitChar_toNat : ∀ d : Nat, d < 10 → (Nat.digitChar d).toNat = 48 + d := by
  intro d hd
  interval_cases d <;> rfl

theorem digitChar_isDigit : ∀ d : Nat, d < 10 → (Nat.digitChar d).isDigit = true := by
  intro d hd
  interval_cases d <;> rfl

theorem digitsAux_lt_ten :
    ∀ (fuel n : Nat), ∀ d ∈ digitsAux fuel n, d < 10
  | _, 0, d, hd => by simp [digitsAux] at hd
  | 0, n + 1, d, hd => by simp [digitsAux] at hd
  | fuel + 1, n + 1, d, hd => by
    rw [digitsAux] at hd
    rcases List.mem_cons.mp hd with h | h
    · subst h
      exact Nat.mod_lt _ (by norm_num)
    · exact digitsAux_lt_ten fuel ((n + 1) / 10) d h

theorem digitsAux_ne_nil (fuel n : Nat) (hn : n ≠ 0) (hf : fuel ≠ 0) :
    digitsAux fuel n ≠ [] := by
  match fuel, n, hn, hf with
  | fuel + 1, n + 1, _, _ => simp [digitsAux]

/-- ofDigits of the fuelled digit list recovers the number. -/
theorem ofDigits_digitsAux :
    ∀ (fuel n : Nat), n ≤ fuel → Nat.ofDigits 10 (digitsAux fuel n) = n := by
  intro fuel
  induction fuel with
  | zero =>
    intro n hn
    interval_cases n
    rfl
  | succ f ih =>
    intro n hn
    match n with
    | 0 => rfl
    | m + 1 =>
      rw [digitsAux, Nat.ofDigits_cons,
        ih ((m + 1) / 10) (by omega)]
      omega

theorem natChars_ne_nil (n : Nat) : natChars n ≠ [] := by
  unfold natChars
  by_cases h : n = 0
  · simp [h]
  · simp only [h, if_false]
    intro hc
    rw [List.reverse_eq_nil_iff, List.map_eq_nil_iff] at hc
    exact digitsAux_ne_nil n n h h hc

theorem natChars_all_digit (n : Nat) :
    ∀ c ∈ natChars n, c.isDigit = true := by
  intro c hc
  unfold natChars at hc
  by_cases h : n = 0
  · simp [h] at hc
    subst hc
    rfl
  · simp only [h, if_false, List.mem_reverse, List.mem_map] at hc
    obtain ⟨d, hd, hdc⟩ := hc
    have : d < 10 := digitsAux_lt_ten n n d hd
    rw [← hdc]
    exact digitChar_isDigit d this

/-- Folding the big-endian digit chars of a little-endian digit list. -/
theorem foldl_digitChars (l : List Nat) (hl : ∀ d ∈ l, d < 10) :
    ∀ acc, ((l.map Nat.digitChar).reverse).foldl
        (fun acc c => acc * 10 + digitVal c) acc =
      acc * 10 ^ l.length + Nat.ofDigits 10 l := by
  induction l with
  | nil => intro acc; simp [Nat.ofDigits]
  | cons d l ih =>
    intro acc
    have hd : d < 10 := hl d (by simp)
    rw [List.map_cons, List.reverse_cons, List.foldl_append,
      ih (fun x hx => hl x (by simp [hx]))]
    simp only [List.foldl_cons, List.foldl_nil, Nat.ofDigits_cons,
      List.length_cons]
    unfold digitVal
    rw [digitChar_toNat d hd]
    rw [Nat.add_sub_cancel_left]
    ring

theorem charsToNat_natChars (n : Nat) : charsToNat (natChars n) = n := by
  unfold charsToNat natChars
  by_cases h : n = 0
  · simp [h, digitVal]
  · rw [if_neg h, foldl_digitChars _ (digitsAux_lt_ten n n)]
    simp [ofDigits_digitsAux n n (Nat.le_refl n)]

/-- takeWhile of a satisfying prefix followed by a non-satisfying head. -/
theorem takeWhile_append_all {p : Char → Bool} :
    ∀ (xs rest : List Char), (∀ x ∈ xs, p x = true) →
      (∀ c, rest.head? = some c → p c = false) →
      (xs ++ rest).takeWhile p = xs
  | [], [], _, _ => rfl
  | [], c :: rest, _, hrest => by
    simp [List.takeWhile_cons, hrest c rfl]
  | x :: xs, rest, hxs, hrest => by
    rw [List.cons_append, List.takeWhile_cons, hxs x (by simp),
      takeWhile_append_all xs rest (fun a ha => hxs a (by simp [ha])) hrest]
    simp

/-- Digit-free head predicate for follow sets. -/
def noDigitHead (rest : List Char) : Prop :=
  ∀ c, rest.head? = some c → c.isDigit = false

theorem pU64_natChars (n : Nat) (hn : n < 18446744073709551616)
    (rest : List Char) (hrest : noDigitHead rest) :
    pU64 (natChars n ++ rest) = some (n, rest) := by
  unfold pU64
  rw [takeWhile_append_all (natChars n) rest (natChars_all_digit n) hrest]
  have hne : (natChars n).isEmpty = false := by
    simpa [List.isEmpty_iff] using natChars_ne_nil n
  simp only [hne, Bool.false_eq_true, if_false, charsToNat_natChars, hn,
    if_true, List.drop_left]

theorem pU8_natChars (n : Nat) (hn : n < 256)
    (rest : List Char) (hrest : noDigitHead rest) :
    pU8 (natChars n ++ rest) = some (n, rest) := by
  unfold pU8
  rw [takeWhile_append_all (natChars n) rest (natChars_all_digit n) hrest]
  have hne : (natChars n).isEmpty = false := by
    simpa [List.isEmpty_iff] using natChars_ne_nil n
  simp only [hne, Bool.false_eq_true, if_false, charsToNat_natChars, hn,
    if_true, List.drop_left]

/-- pU64 fails when the input does not start with a digit. -/
theorem pU64_fail (s : List Char) (hs : noDigitHead s) : pU64 s = none := by
  unfold pU64
  have : s.takeWhile Char.isDigit = [] := by
    cases s with
    | nil => rfl
    | cons c rest =>
      rw [List.takeWhile_cons, hs c rfl]
      simp
  simp [this]

/-- pChar succeeds exactly on its character. -/
theorem pChar_cons_self (c : Char) (rest : List Char) :
    pChar c (c :: rest) = some (c, rest) := by
  simp [pChar]

theorem pChar_cons_ne {x c : Char} (h : x ≠ c) (rest : List Char) :
    pChar c (x :: rest) = none := by
  simp [pChar, h]

theorem pChar_nil (c : Char) : pChar c [] = none := rfl

/-- followOk: the continuations that can legally follow a printed
sub-spec (none, a comma, or a closing brace). -/
def followOk (rest : List Char) : Prop :=
  rest = [] ∨ rest.head? = some ',' ∨ rest.head? = some '}'

theorem followOk_noDigit {rest : List Char} (h : followOk rest) :
    noDigitHead rest := by
  intro c hc
  rcases h with h | h | h
  · subst h; simp at hc
  · rw [h] at hc; injection hc with hc; subst hc; rfl
  · rw [h] at hc; injection hc with hc; subst hc; rfl

theorem pChar_followOk {rest : List Char} (h : followOk rest) (x : Char)
    (hx1 : x ≠ ',') (hx2 : x ≠ '}') : pChar x rest = none := by
  rcases h with h | h | h
  · subst h; rfl
  · cases rest with
    | nil => simp at h
    | cons c t =>
      injection h with h
      subst h
      exact pChar_cons_ne (Ne.symm hx1) t
  · cases rest with
    | nil => simp at h
    | cons c t =>
      injection h with h
      subst h
      exact pChar_cons_ne (Ne.symm hx2) t

theorem pTake_append (xs rest : List Char) (n : Nat) (h : xs.length = n) :
    pTake n (xs ++ rest) = some (xs, rest) := by
  unfold pTake
  subst h
  rw [if_pos (by simp), List.take_left, List.drop_left]

/-! Hex lemmas. -/

theorem hexDigitVal_upper (d : Nat) (hd : d < 16) :
    hexDigitVal (hexCharUpper d) = some d := by
  interval_cases d <;> rfl

theorem hexDigitVal_lower (d : Nat) (hd : d < 16) :
    hexDigitVal (hexCharLower d) = some d := by
  interval_cases d <;> rfl

theorem hexChar_ne_plus (upper : Bool) (d : Nat) (hd : d < 16) :
    ((if upper then hexCharUpper else hexCharLower) d) ≠ '+' := by
  cases upper <;> interval_cases d <;> decide

theorem hexByteVal_pair (upper : Bool) (b : Nat) (hb : b < 256) :
    hexByteVal ((if upper then hexCharUpper else hexCharLower) (b / 16))
        ((if upper then hexCharUpper else hexCharLower) (b % 16)) = some b := by
  have h1 : b / 16 < 16 := by omega
  have h2 : b % 16 < 16 := Nat.mod_lt _ (by norm_num)
  unfold hexByteVal
  rw [if_neg (hexChar_ne_plus upper _ h1)]
  cases upper with
  | true =>
    simp only [if_true]
    rw [hexDigitVal_upper _ h1, hexDigitVal_upper _ h2]
    simp [Nat.div_add_mod]
  | false =>
    simp only [Bool.false_eq_true, if_false]
    rw [hexDigitVal_lower _ h1, hexDigitVal_lower _ h2]
    simp [Nat.div_add_mod]

theorem hexPairsVal_hexChars (upper : Bool) :
    ∀ bytes : List Nat, (∀ b ∈ bytes, b < 256) →
      hexPairsVal (hexChars upper bytes) = some bytes
  | [], _ => rfl
  | b :: bytes, h => by
    have hb : b < 256 := h b (by simp)
    show hexPairsVal (hexBytePair upper b ++ hexChars upper bytes) = _
    unfold hexBytePair
    rw [List.cons_append, List.cons_append, List.nil_append]
    show (match hexByteVal _ _, hexPairsVal (hexChars upper bytes) with
      | some b, some bs => some (b :: bs)
      | _, _ => none) = _
    rw [hexByteVal_pair upper b hb,
      hexPairsVal_hexChars upper bytes (fun x hx => h x (by simp [hx]))]

theorem hexChars_length (upper : Bool) (bytes : List Nat) :
    (hexChars upper bytes).length = 2 * bytes.length := by
  induction bytes with
  | nil => rfl
  | cons b bytes ih =>
    show (hexBytePair upper b ++ hexChars upper bytes).length = _
    rw [List.length_append, ih]
    simp [hexBytePair]
    omega

/-! Size / block-size parsing lemmas. -/

/-- fmtSize always starts with a digit. -/
theorem fmtSize_head_digit (v : Nat) :
    ∀ c, (fmtSize v).head? = some c → c.isDigit = true := by
  intro c hc
  unfold fmtSize at hc
  have hhead : ∀ (n : Nat) (tail : List Char) (c : Char),
      (natChars n ++ tail).head? = some c → c.isDigit = true := by
    intro n tail c hc
    cases hnc : natChars n with
    | nil => exact absurd hnc (natChars_ne_nil n)
    | cons d ds =>
      rw [hnc, List.cons_append, List.head?_cons] at hc
      injection hc with hc
      subst hc
      exact natChars_all_digit n d (by rw [hnc]; simp)
  split_ifs at hc
  · exact hhead _ _ _ hc
  · exact hhead _ _ _ hc
  · exact hhead v [] c (by simpa using hc)

/-- pBlockSize on a printed size followed by '*' or '='. -/
theorem pBlockSize_fmtSize (v : Nat) (hv : v < 18446744073709551616)
    (rest : List Char)
    (hrest : rest.head? = some '*' ∨ rest.head? = some '=') :
    pBlockSize (fmtSize v ++ rest) = some (v, rest) := by
  have hnd : noDigitHead rest := by
    intro c hc
    rcases hrest with h | h <;> rw [h] at hc <;> injection hc with hc <;>
      subst hc <;> rfl
  have hKrest : pChar 'K' rest = none := by
    rcases hrest with h | h <;>
      (cases rest with
       | nil => rfl
       | cons c t =>
         injection h with h
         subst h
         exact pChar_cons_ne (by decide) t)
  have hMrest : pChar 'M' rest = none := by
    rcases hrest with h | h <;>
      (cases rest with
       | nil => rfl
       | cons c t =>
         injection h with h
         subst h
         exact pChar_cons_ne (by decide) t)
  unfold fmtSize
  by_cases h20 : v &&& 0xfffff = 0
  · rw [if_pos h20]
    have hq : v >>> 20 < 18446744073709551616 := by
      rw [Nat.shiftRight_eq_div_pow]
      omega
    have hv20 : v % 1048576 = 0 := by
      have := Nat.and_pow_two_sub_one_eq_mod v 20
      norm_num at this
      omega
    have hmul : v >>> 20 * 1048576 = v := by
      rw [Nat.shiftRight_eq_div_pow]
      show v / 2 ^ 20 * 2 ^ 20 = v
      omega
    have hpu := pU64_natChars (v >>> 20) hq ('M' :: rest)
      (by intro c hc; injection hc with hc; subst hc; rfl)
    have hK := pChar_cons_ne (show ('M' : Char) ≠ 'K' by decide) rest
    have hM := pChar_cons_self 'M' rest
    unfold pBlockSize
    rw [List.append_assoc, List.singleton_append]
    simp only [hpu, hK, hM, hmul]
  · rw [if_neg h20]
    by_cases h10 : v &&& 0x3ff = 0
    · rw [if_pos h10]
      have hq : v >>> 10 < 18446744073709551616 := by
        rw [Nat.shiftRight_eq_div_pow]
        omega
      have hv10 : v % 1024 = 0 := by
        have := Nat.and_pow_two_sub_one_eq_mod v 10
        norm_num at this
        omega
      have hmul : v >>> 10 * 1024 = v := by
        rw [Nat.shiftRight_eq_div_pow]
        show v / 2 ^ 10 * 2 ^ 10 = v
        omega
      have hpu := pU64_natChars (v >>> 10) hq ('K' :: rest)
        (by intro c hc; injection hc with hc; subst hc; rfl)
      have hK := pChar_cons_self 'K' rest
      unfold pBlockSize
      rw [List.append_assoc, List.singleton_append]
      simp only [hpu, hK, hmul]
    · rw [if_neg h10]
      have hpu := pU64_natChars v hv rest hnd
      unfold pBlockSize
      simp only [hpu, hKrest, hMrest]

/-! Parser dispatch lemmas: which branch of each alt fires on a printed
form, and which branches fall through. -/

theorem head_append_of_ne_nil {xs : List Char} (rest : List Char) (h : xs ≠ []) :
    (xs ++ rest).head? = xs.head? := by
  cases xs with
  | nil => exact absurd rfl h
  | cons c t => rfl

theorem pChar_of_head_digit (x : Char) (hx : x.isDigit = false) (s : List Char)
    (hs : ∀ c, s.head? = some c → c.isDigit = true) : pChar x s = none := by
  cases s with
  | nil => rfl
  | cons c t =>
    have hc : c.isDigit = true := hs c rfl
    refine pChar_cons_ne (fun he => ?_) t
    rw [he, hx] at hc
    exact Bool.false_ne_true hc

theorem natChars_head_digit (n : Nat) (rest : List Char) :
    ∀ c, ((natChars n ++ rest).head? = some c) → c.isDigit = true := by
  intro c hc
  rw [head_append_of_ne_nil rest (natChars_ne_nil n)] at hc
  cases hnc : natChars n with
  | nil => exact absurd hnc (natChars_ne_nil n)
  | cons d ds =>
    rw [hnc] at hc
    injection hc with hc
    rw [← hc]
    exact natChars_all_digit n d (by rw [hnc]; simp)

theorem fmtSize_ne_nil (v : Nat) : fmtSize v ≠ [] := by
  unfold fmtSize
  split_ifs <;> simp [natChars_ne_nil]

theorem fmtSize_head_digit_app (v : Nat) (rest : List Char) :
    ∀ c, ((fmtSize v ++ rest).head? = some c) → c.isDigit = true := by
  intro c hc
  rw [head_append_of_ne_nil rest (fmtSize_ne_nil v)] at hc
  exact fmtSize_head_digit v c hc

theorem pChar_natChars (x : Char) (hx : x.isDigit = false) (n : Nat)
    (rest : List Char) : pChar x (natChars n ++ rest) = none :=
  pChar_of_head_digit x hx _ (natChars_head_digit n rest)

theorem pChar_fmtSize (x : Char) (hx : x.isDigit = false) (v : Nat)
    (rest : List Char) : pChar x (fmtSize v ++ rest) = none :=
  pChar_of_head_digit x hx _ (fmtSize_head_digit_app v rest)

theorem noDigitHead_cons {c : Char} (hc : c.isDigit = false) (t : List Char) :
    noDigitHead (c :: t) := by
  intro d hd
  injection hd with hd
  subst hd
  exact hc

theorem pBlockSize_fail (s : List Char) (hs : noDigitHead s) :
    pBlockSize s = none := by
  unfold pBlockSize
  rw [pU64_fail s hs]

theorem pBlockSizeSpec_fail (s : List Char) (hs : noDigitHead s) :
    pBlockSizeSpec s = none := by
  unfold pBlockSizeSpec
  rw [pBlockSize_fail s hs]

theorem pFinalSizeSpec_fail (s : List Char) (hs : noDigitHead s)
    (hstar : pChar '*' s = none) : pFinalSizeSpec s = none := by
  unfold pFinalSizeSpec
  rw [hstar, pBlockSize_fail s hs, pBlockSizeSpec_fail s hs]

theorem pFinalSubF_fail (pE : ESubP) (s : List Char) (hs : noDigitHead s)
    (hstar : pChar '*' s = none) : pFinalSubF pE s = none := by
  unfold pFinalSubF
  rw [pFinalSizeSpec_fail s hs hstar]

theorem pTag_pair (a b : Char) (rest : List Char) :
    pTag [a, b] (a :: b :: rest) = some ((), rest) := by
  simp [pTag, List.isPrefixOf]

theorem pTag_head_ne {a c : Char} (h : a ≠ c) (t s : List Char) :
    pTag (a :: t) (c :: s) = none := by
  simp [pTag, List.isPrefixOf, h]

theorem pZip_head_ne {x : Char} (h : x ≠ 'z') (t : List Char) :
    pZip (x :: t) = none := by
  unfold pZip
  rw [pChar_cons_ne h t]

theorem pEncryptedF_head_ne (pE : ESubP) {x : Char} (h : x ≠ 'e')
    (t : List Char) : pEncryptedF pE (x :: t) = none := by
  unfold pEncryptedF
  rw [pTag_head_ne (Ne.symm h) _ t]

/-! Goodness and length bookkeeping for block lists. -/

theorem goodBlockList_mem {bs : List EBlock} (hg : goodBlockList bs = true) :
    ∀ b ∈ bs, goodBlock b = true := by
  induction bs with
  | nil => intro b hb; simp at hb
  | cons x xs ih =>
    intro b hb
    simp only [goodBlockList, Bool.and_eq_true] at hg
    rcases List.mem_cons.mp hb with h | h
    · subst h; exact hg.1
    · exact ih hg.2 b h

theorem blocksFormat_length_ge (bs : List EBlock) :
    bs.length ≤ (blocksFormat bs).length := by
  induction bs with
  | nil => simp [blocksFormat]
  | cons b bs ih =>
    simp only [blocksFormat, List.length_append, List.length_cons]
    omega

theorem blockFormat_length (sz : BlockSize) (inn : ESpec) :
    (blockFormat (.mk sz inn)).length =
      (sizeFormat sz).length + 1 + (espFormat inn).length := by
  simp only [blockFormat, List.length_append, List.length_cons]
  omega

theorem mem_blocksFormat_length {b : EBlock} :
    ∀ {bs : List EBlock}, b ∈ bs →
      (blockFormat b).length < (blocksFormat bs).length := by
  intro bs hb
  induction bs with
  | nil => simp at hb
  | cons x xs ih =>
    rcases List.mem_cons.mp hb with h | h
    · subst h
      simp only [blocksFormat, List.length_append, List.length_cons]
      omega
    · have := ih h
      simp only [blocksFormat, List.length_append, List.length_cons]
      omega

/-! Printed sizes re-parse. -/

theorem pBlockSizeSpec_print (s c : Nat) (hs : s < 18446744073709551616)
    (hc1 : 1 ≤ c) (hc : c < 18446744073709551616) (tail : List Char) :
    pBlockSizeSpec (sizeFormat (.chunked s c) ++ '=' :: tail) =
      some (.chunked s c, '=' :: tail) := by
  by_cases h1 : c > 1
  · have hfmt : sizeFormat (.chunked s c) ++ '=' :: tail =
        fmtSize s ++ '*' :: (natChars c ++ '=' :: tail) := by
      simp [sizeFormat, h1]
    rw [hfmt]
    have hbs := pBlockSize_fmtSize s hs ('*' :: (natChars c ++ '=' :: tail))
      (Or.inl rfl)
    have hpu := pU64_natChars c hc ('=' :: tail)
      (noDigitHead_cons (by decide) tail)
    unfold pBlockSizeSpec
    simp only [hbs, pChar_cons_self, hpu]
  · have hceq : c = 1 := by omega
    subst hceq
    have hfmt : sizeFormat (.chunked s 1) ++ '=' :: tail =
        fmtSize s ++ '=' :: tail := by
      simp [sizeFormat]
    rw [hfmt]
    have hbs := pBlockSize_fmtSize s hs ('=' :: tail) (Or.inr rfl)
    have hne := pChar_cons_ne (show ('=' : Char) ≠ '*' from by decide) tail
    unfold pBlockSizeSpec
    simp only [hbs, hne]

theorem pFinalSizeSpec_print (size : BlockSize) (hsz : goodFinalSize size = true)
    (tail : List Char) :
    pFinalSizeSpec (sizeFormat size ++ '=' :: tail) = some (size, '=' :: tail) := by
  cases size with
  | greedy =>
    show pFinalSizeSpec ('*' :: '=' :: tail) = _
    unfold pFinalSizeSpec
    simp only [pChar_cons_self]
  | chunkedGreedy s =>
    have hs : s < 18446744073709551616 := by
      simpa [goodFinalSize] using hsz
    have hfmt : sizeFormat (.chunkedGreedy s) ++ '=' :: tail =
        fmtSize s ++ '*' :: '=' :: tail := by
      simp [sizeFormat]
    rw [hfmt]
    have h1 := pChar_fmtSize '*' (by decide) s ('*' :: '=' :: tail)
    have h2 := pBlockSize_fmtSize s hs ('*' :: '=' :: tail) (Or.inl rfl)
    unfold pFinalSizeSpec
    simp only [h1, h2, pChar_cons_self]
  | chunked s c =>
    obtain ⟨hs, hc⟩ : s < 18446744073709551616 ∧ c = 1 := by
      simpa [goodFinalSize] using hsz
    subst hc
    have hfmt : sizeFormat (.chunked s 1) ++ '=' :: tail =
        fmtSize s ++ '=' :: tail := by
      simp [sizeFormat]
    have hbss := pBlockSizeSpec_print s 1 hs (Nat.le_refl 1) (by norm_num) tail
    rw [hfmt] at hbss ⊢
    have h1 := pChar_fmtSize '*' (by decide) s ('=' :: tail)
    have h2 := pBlockSize_fmtSize s hs ('=' :: tail) (Or.inr rfl)
    have hne := pChar_cons_ne (show ('=' : Char) ≠ '*' from by decide) tail
    unfold pFinalSizeSpec
    simp only [h1, h2, hne, hbss]

/-! Printed blocks re-parse (parameterised over the inner-spec parser). -/

theorem pFinalSubF_print (pE : ESubP) (size : BlockSize) (inner : ESpec)
    (rest : List Char) (hsz : goodFinalSize size = true)
    (hE : pE (espFormat inner ++ rest) = some (inner, rest)) :
    pFinalSubF pE (blockFormat (.mk size inner) ++ rest) =
      some (.mk size inner, rest) := by
  have hfmt : blockFormat (.mk size inner) ++ rest =
      sizeFormat size ++ '=' :: (espFormat inner ++ rest) := by
    simp [blockFormat]
  rw [hfmt]
  have h1 := pFinalSizeSpec_print size hsz (espFormat inner ++ rest)
  unfold pFinalSubF
  simp only [h1, pChar_cons_self, hE]

theorem pBlockSubF_print (pE : ESubP) (size : BlockSize) (inner : ESpec)
    (t : List Char) (hsz : goodNonFinalSize size = true)
    (hE : pE (espFormat inner ++ t) = some (inner, t)) :
    pBlockSubF pE (blockFormat (.mk size inner) ++ t) =
      some (.mk size inner, t) := by
  have hfmt : blockFormat (.mk size inner) ++ t =
      sizeFormat size ++ '=' :: (espFormat inner ++ t) := by
    simp [blockFormat]
  rw [hfmt]
  cases size with
  | chunked s c =>
    obtain ⟨⟨hs, hc1⟩, hc⟩ :
        (s < 18446744073709551616 ∧ 1 ≤ c) ∧ c < 18446744073709551616 := by
      simpa [goodNonFinalSize, Bool.and_eq_true] using hsz
    have h1 := pBlockSizeSpec_print s c hs hc1 hc (espFormat inner ++ t)
    unfold pBlockSubF
    simp only [h1, pChar_cons_self, hE]
  | chunkedGreedy s => simp [goodNonFinalSize] at hsz
  | greedy => simp [goodNonFinalSize] at hsz

/-- The final block stops the many0 loop: either block_subchunk fails on
it, or it succeeds but the next character is the closing brace, not a
comma. -/
theorem pBlockSubF_stop (pE : ESubP) (size : BlockSize) (inner : ESpec)
    (rest : List Char) (hsz : goodFinalSize size = true)
    (hE : pE (espFormat inner ++ '}' :: rest) = some (inner, '}' :: rest)) :
    ∀ b' s1, pBlockSubF pE (blockFormat (.mk size inner) ++ '}' :: rest) =
        some (b', s1) → pChar ',' s1 = none := by
  intro b' s1 hsome
  have hfmt : blockFormat (.mk size inner) ++ '}' :: rest =
      sizeFormat size ++ '=' :: (espFormat inner ++ '}' :: rest) := by
    simp [blockFormat]
  rw [hfmt] at hsome
  cases size with
  | greedy =>
    have hshape : sizeFormat BlockSize.greedy ++
        '=' :: (espFormat inner ++ '}' :: rest) =
        '*' :: '=' :: (espFormat inner ++ '}' :: rest) := rfl
    rw [hshape] at hsome
    have hfail := pBlockSizeSpec_fail
      ('*' :: '=' :: (espFormat inner ++ '}' :: rest))
      (noDigitHead_cons (by decide) _)
    unfold pBlockSubF at hsome
    simp only [hfail] at hsome
    exact Option.noConfusion hsome
  | chunkedGreedy s =>
    have hs : s < 18446744073709551616 := by
      simpa [goodFinalSize] using hsz
    have hshape : sizeFormat (BlockSize.chunkedGreedy s) ++
        '=' :: (espFormat inner ++ '}' :: rest) =
        fmtSize s ++ '*' :: '=' :: (espFormat inner ++ '}' :: rest) := by
      simp [sizeFormat]
    rw [hshape] at hsome
    have h2 := pBlockSize_fmtSize s hs
      ('*' :: '=' :: (espFormat inner ++ '}' :: rest)) (Or.inl rfl)
    have h3 := pU64_fail ('=' :: (espFormat inner ++ '}' :: rest))
      (noDigitHead_cons (by decide) _)
    have h4 := pChar_cons_ne (show ('*' : Char) ≠ '=' from by decide)
      ('=' :: (espFormat inner ++ '}' :: rest))
    unfold pBlockSubF pBlockSizeSpec at hsome
    simp only [h2, pChar_cons_self, h3, h4] at hsome
    exact Option.noConfusion hsome
  | chunked s c =>
    obtain ⟨hs, hc⟩ : s < 18446744073709551616 ∧ c = 1 := by
      simpa [goodFinalSize] using hsz
    subst hc
    have hbss := pBlockSizeSpec_print s 1 hs (Nat.le_refl 1) (by norm_num)
      (espFormat inner ++ '}' :: rest)
    unfold pBlockSubF at hsome
    simp only [hbss, pChar_cons_self, hE] at hsome
    simp only [Option.some.injEq, Prod.mk.injEq] at hsome
    obtain ⟨-, rfl⟩ := hsome
    exact pChar_cons_ne (by decide) rest

/-- many0(terminated(block_subchunk, ',')) consumes exactly the printed
non-final blocks when each re-parses, each is followed by its comma, and
the continuation stops the loop. -/
theorem many0Sub_exact (sub : List Char → Option (EBlock × List Char))
    (u : List Char)
    (hstop : ∀ b' s1, sub u = some (b', s1) → pChar ',' s1 = none) :
    ∀ (bs : List EBlock) (iters : Nat), bs.length < iters →
      (∀ b ∈ bs, ∀ t, t.head? = some ',' → sub (blockFormat b ++ t) = some (b, t)) →
      many0Sub sub iters (blocksFormat bs ++ u) = (bs, u) := by
  intro bs
  induction bs with
  | nil =>
    intro iters hit _
    match iters, hit with
    | k + 1, _ =>
      show many0Sub sub (k + 1) ([] ++ u) = ([], u)
      rw [List.nil_append]
      unfold many0Sub
      cases hsub : sub u with
      | none => rfl
      | some v =>
        obtain ⟨b', s1⟩ := v
        simp only [hsub, hstop b' s1 hsub]
  | cons b bs ih =>
    intro iters hit hall
    match iters, hit with
    | k + 1, hit =>
      have hshape : blocksFormat (b :: bs) ++ u =
          blockFormat b ++ ',' :: (blocksFormat bs ++ u) := by
        simp [blocksFormat]
      rw [hshape]
      have hsub := hall b (by simp) (',' :: (blocksFormat bs ++ u)) rfl
      have hrec := ih k (by simp at hit; omega)
        (fun b' hb' t ht => hall b' (by simp [hb']) t ht)
      unfold many0Sub
      simp only [hsub, pChar_cons_self, hrec]

/-! Printed zip forms re-parse. -/

theorem pU8_fail (s : List Char) (hs : noDigitHead s) : pU8 s = none := by
  unfold pU8
  have : s.takeWhile Char.isDigit = [] := by
    cases s with
    | nil => rfl
    | cons c rest =>
      rw [List.takeWhile_cons, hs c rfl]
      simp
  simp [this]

theorem pTag_triple (a b c : Char) (rest : List Char) :
    pTag [a, b, c] (a :: b :: c :: rest) = some ((), rest) := by
  simp [pTag, List.isPrefixOf]

theorem pZip_print_plain (rest : List Char) (hr : followOk rest) :
    pZip ('z' :: rest) = some (.zip 9 (.bits 15), rest) := by
  have hcolon : pChar ':' rest = none :=
    pChar_followOk hr ':' (by decide) (by decide)
  unfold pZip
  simp only [pChar_cons_self, hcolon]

theorem pZip_print_level (level : Nat) (hl : level < 256) (rest : List Char)
    (hr : noDigitHead rest) :
    pZip ('z' :: ':' :: (natChars level ++ rest)) =
      some (.zip level (.bits 15), rest) := by
  have hbrace := pChar_natChars '{' (by decide) level rest
  have hpu := pU8_natChars level hl rest hr
  unfold pZip pZipBraced
  simp only [pChar_cons_self, hbrace, hpu]

theorem pZip_print_braced_bits (level b : Nat) (hl : level < 256)
    (hb : b < 256) (rest : List Char) :
    pZip ('z' :: ':' :: '{' ::
        (natChars level ++ ',' :: (natChars b ++ '}' :: rest))) =
      some (.zip level (.bits b), rest) := by
  have h1 := pU8_natChars level hl (',' :: (natChars b ++ '}' :: rest))
    (noDigitHead_cons (by decide) _)
  have h2 := pU8_natChars b hb ('}' :: rest)
    (noDigitHead_cons (by decide) _)
  unfold pZip pZipBraced
  simp only [pChar_cons_self, h1, h2]

theorem pZip_print_braced_mpq (level : Nat) (hl : level < 256)
    (rest : List Char) :
    pZip ('z' :: ':' :: '{' ::
        (natChars level ++ ',' :: 'm' :: 'p' :: 'q' :: '}' :: rest)) =
      some (.zip level .mpq, rest) := by
  have h1 := pU8_natChars level hl (',' :: 'm' :: 'p' :: 'q' :: '}' :: rest)
    (noDigitHead_cons (by decide) _)
  have h2 := pU8_fail ('m' :: 'p' :: 'q' :: '}' :: rest)
    (noDigitHead_cons (by decide) _)
  have h3 := pTag_triple 'm' 'p' 'q' ('}' :: rest)
  unfold pZip pZipBraced
  simp only [pChar_cons_self, h1, h2, h3]

/-- The printed encrypted frame re-parses (parameterised over the payload
parser). -/
theorem pEncryptedF_print (pE : ESubP) (key iv : List Nat) (inner : ESpec)
    (rest : List Char) (hk : key.length = 8) (hiv : iv.length = 4)
    (hkb : ∀ b ∈ key, b < 256) (hivb : ∀ b ∈ iv, b < 256)
    (hE : pE (espFormat inner ++ '}' :: rest) = some (inner, '}' :: rest)) :
    pEncryptedF pE ('e' :: ':' :: '{' ::
        (hexChars true key ++ ',' ::
          (hexChars false iv ++ ',' :: (espFormat inner ++ '}' :: rest)))) =
      some (.encrypted key iv inner, rest) := by
  have ht1 := pTag_pair 'e' ':' ('{' :: (hexChars true key ++ ',' ::
    (hexChars false iv ++ ',' :: (espFormat inner ++ '}' :: rest))))
  have htk := pTake_append (hexChars true key)
    (',' :: (hexChars false iv ++ ',' :: (espFormat inner ++ '}' :: rest)))
    16 (by rw [hexChars_length, hk])
  have hkv := hexPairsVal_hexChars true key hkb
  have htiv := pTake_append (hexChars false iv)
    (',' :: (espFormat inner ++ '}' :: rest)) 8 (by rw [hexChars_length, hiv])
  have hivv := hexPairsVal_hexChars false iv hivb
  unfold pEncryptedF
  simp only [ht1, pChar_cons_self, htk, hkv, htiv, hivv, hE]

/-! sizeOf facts for the induction measure. -/

theorem sizeOf_encrypted_inner (key iv : List Nat) (inner : ESpec) :
    sizeOf inner < sizeOf (ESpec.encrypted key iv inner) := by
  simp only [ESpec.encrypted.sizeOf_spec]
  omega

theorem sizeOf_blocks_final (bs : List EBlock) (fsz : BlockSize)
    (finner : ESpec) :
    sizeOf finner < sizeOf (ESpec.blocks bs (.mk fsz finner)) := by
  simp only [ESpec.blocks.sizeOf_spec, EBlock.mk.sizeOf_spec]
  omega

theorem sizeOf_blocks_mem (bs : List EBlock) (fin : EBlock) (bsz : BlockSize)
    (binner : ESpec) (hb : EBlock.mk bsz binner ∈ bs) :
    sizeOf binner < sizeOf (ESpec.blocks bs fin) := by
  have h1 := List.sizeOf_lt_of_mem hb
  simp only [ESpec.blocks.sizeOf_spec, EBlock.mk.sizeOf_spec] at h1 ⊢
  omega

/-- Main roundtrip induction: the printed form of a good ESpec re-parses to
itself before any legal continuation, whenever the fuel is at least the
printed length plus one (each recursion level is behind at least one
consumed character). -/
theorem espA_aux :
    ∀ (N : Nat) (s : ESpec) (fuel : Nat) (rest : List Char),
      sizeOf s < N → goodE s = true → followOk rest →
      (espFormat s).length + 1 ≤ fuel →
      pEspec fuel (espFormat s ++ rest) = some (s, rest) := by
  intro N
  induction N with
  | zero =>
    intro s fuel rest hsz _ _ _
    exact absurd hsz (Nat.not_lt_zero _)
  | succ N ih =>
    intro s fuel rest hsz hg hr hf
    match fuel, hf with
    | f + 1, hf =>
    cases s with
    | raw =>
      have hfe : espFormat ESpec.raw = ['n'] := by decide
      rw [hfe, List.singleton_append]
      unfold pEspec
      simp only [pChar_cons_self]
    | zip level bits =>
      simp only [goodE, Bool.and_eq_true, decide_eq_true_eq] at hg
      obtain ⟨hl, hbits⟩ := hg
      have hn := pChar_cons_ne (show ('z' : Char) ≠ 'n' from by decide)
      by_cases hb15 : bits = ZipBits.bits 15
      · subst hb15
        by_cases h9 : level = 9
        · subst h9
          have hfe : espFormat (ESpec.zip 9 (ZipBits.bits 15)) = ['z'] := by
            decide
          rw [hfe, List.singleton_append]
          unfold pEspec
          simp only [hn, pZip_print_plain rest hr]
        · have hfe : espFormat (ESpec.zip level (ZipBits.bits 15)) =
              'z' :: ':' :: natChars level := by
            simp [espFormat, h9]
          rw [hfe, List.cons_append, List.cons_append]
          unfold pEspec
          simp only [hn, pZip_print_level level hl rest (followOk_noDigit hr)]
      · cases bits with
        | bits b =>
          have hbne : b ≠ 15 := fun h => hb15 (by rw [h])
          simp only [decide_eq_true_eq] at hbits
          have hfe : espFormat (ESpec.zip level (ZipBits.bits b)) =
              'z' :: ':' :: '{' ::
                (natChars level ++ ',' :: natChars b ++ ['}']) := by
            simp [espFormat, hbne]
          rw [hfe]
          simp only [List.cons_append, List.append_assoc,
            List.singleton_append, List.nil_append]
          unfold pEspec
          simp only [hn, pZip_print_braced_bits level b hl hbits rest]
        | mpq =>
          have hfe : espFormat (ESpec.zip level ZipBits.mpq) =
              'z' :: ':' :: '{' ::
                (natChars level ++ [',', 'm', 'p', 'q', '}']) := by
            simp [espFormat]
          rw [hfe]
          simp only [List.cons_append, List.append_assoc,
            List.singleton_append, List.nil_append]
          unfold pEspec
          simp only [hn, pZip_print_braced_mpq level hl rest]
    | encrypted key iv inner =>
      simp only [goodE, Bool.and_eq_true, decide_eq_true_eq,
        List.all_eq_true] at hg
      obtain ⟨⟨⟨⟨hk, hiv⟩, hkb⟩, hivb⟩, hgi⟩ := hg
      have hfe : espFormat (ESpec.encrypted key iv inner) =
          'e' :: ':' :: '{' :: (hexChars true key ++ ',' ::
            hexChars false iv ++ ',' :: espFormat inner ++ ['}']) := by
        simp [espFormat]
      have hfi : (espFormat inner).length + 1 ≤ f := by
        rw [hfe] at hf
        simp only [List.length_cons, List.length_append,
          List.length_singleton] at hf
        omega
      have hszi : sizeOf inner < N :=
        Nat.lt_of_lt_of_le (sizeOf_encrypted_inner key iv inner)
          (Nat.lt_succ_iff.mp hsz)
      have hE := ih inner f ('}' :: rest) hszi hgi (Or.inr (Or.inr rfl)) hfi
      rw [hfe]
      simp only [List.cons_append, List.append_assoc, List.singleton_append,
        List.nil_append]
      unfold pEspec
      have hn := pChar_cons_ne (show ('e' : Char) ≠ 'n' from by decide)
      have hz := pZip_head_ne (show ('e' : Char) ≠ 'z' from by decide)
      simp only [hn, hz,
        pEncryptedF_print (pEspec f) key iv inner rest hk hiv hkb hivb hE]
    | blocks bs fin =>
      simp only [goodE, Bool.and_eq_true] at hg
      obtain ⟨hgbs, hgfin⟩ := hg
      obtain ⟨fsz, finner⟩ := fin
      simp only [goodFinal, Bool.and_eq_true] at hgfin
      obtain ⟨hgfsz, hgfinner⟩ := hgfin
      have hszfin : sizeOf finner < N :=
        Nat.lt_of_lt_of_le (sizeOf_blocks_final bs fsz finner)
          (Nat.lt_succ_iff.mp hsz)
      have hn := pChar_cons_ne (show ('b' : Char) ≠ 'n' from by decide)
      have hz := pZip_head_ne (show ('b' : Char) ≠ 'z' from by decide)
      have hbl := blockFormat_length fsz finner
      cases bs with
      | nil =>
        have hfe : espFormat (ESpec.blocks [] (EBlock.mk fsz finner)) =
            'b' :: ':' :: blockFormat (EBlock.mk fsz finner) := by
          simp [espFormat]
        have hfi : (espFormat finner).length + 1 ≤ f := by
          rw [hfe] at hf
          simp only [List.length_cons] at hf
          omega
        have hE := ih finner f rest hszfin hgfinner hr hfi
        have hfin := pFinalSubF_print (pEspec f) fsz finner rest hgfsz hE
        rw [hfe, List.cons_append, List.cons_append]
        unfold pEspec pBlocksF
        have he := pEncryptedF_head_ne (pEspec f)
          (show ('b' : Char) ≠ 'e' from by decide)
        simp only [hn, hz, he,
          pTag_pair 'b' ':' (blockFormat (EBlock.mk fsz finner) ++ rest), hfin]
      | cons b0 bs' =>
        have hfe : espFormat (ESpec.blocks (b0 :: bs') (EBlock.mk fsz finner)) =
            'b' :: ':' :: '{' :: (blocksFormat (b0 :: bs') ++
              blockFormat (EBlock.mk fsz finner) ++ ['}']) := by
          simp [espFormat]
        have hflen : 3 + (blocksFormat (b0 :: bs')).length +
            (blockFormat (EBlock.mk fsz finner)).length + 1 + 1 ≤ f + 1 := by
          rw [hfe] at hf
          simp only [List.length_cons, List.length_append,
            List.length_singleton] at hf
          omega
        have hfifin : (espFormat finner).length + 1 ≤ f := by omega
        have hEfin := ih finner f ('}' :: rest) hszfin hgfinner
          (Or.inr (Or.inr rfl)) hfifin
        have hstop := pBlockSubF_stop (pEspec f) fsz finner rest hgfsz hEfin
        have hmem : ∀ b ∈ b0 :: bs', ∀ t, t.head? = some ',' →
            pBlockSubF (pEspec f) (blockFormat b ++ t) = some (b, t) := by
          intro b hb t ht
          obtain ⟨bsz, binner⟩ := b
          have hgb := goodBlockList_mem hgbs _ hb
          simp only [goodBlock, Bool.and_eq_true] at hgb
          obtain ⟨hgbsz, hgbinner⟩ := hgb
          have hlb := mem_blocksFormat_length hb
          have hbl2 := blockFormat_length bsz binner
          have hfi : (espFormat binner).length + 1 ≤ f := by omega
          have hszb : sizeOf binner < N :=
            Nat.lt_of_lt_of_le
              (sizeOf_blocks_mem (b0 :: bs') (EBlock.mk fsz finner) bsz
                binner hb)
              (Nat.lt_succ_iff.mp hsz)
          have hE := ih binner f t hszb hgbinner (Or.inr (Or.inl ht)) hfi
          exact pBlockSubF_print (pEspec f) bsz binner t hgbsz hE
        have hm := many0Sub_exact (pBlockSubF (pEspec f))
          (blockFormat (EBlock.mk fsz finner) ++ '}' :: rest) hstop
          (b0 :: bs')
          ((blocksFormat (b0 :: bs') ++
            (blockFormat (EBlock.mk fsz finner) ++ '}' :: rest)).length + 1)
          (by
            have := blocksFormat_length_ge (b0 :: bs')
            simp only [List.length_append, List.length_cons]
            simp only [List.length_cons] at this
            omega)
          hmem
        have hfinp := pFinalSubF_print (pEspec f) fsz finner ('}' :: rest)
          hgfsz hEfin
        have hfsf := pFinalSubF_fail (pEspec f)
          ('{' :: (blocksFormat (b0 :: bs') ++
            (blockFormat (EBlock.mk fsz finner) ++ '}' :: rest)))
          (noDigitHead_cons (by decide) _) (pChar_cons_ne (by decide) _)
        rw [hfe]
        simp only [List.cons_append, List.append_assoc, List.singleton_append,
          List.nil_append]
        unfold pEspec pBlocksF
        have he := pEncryptedF_head_ne (pEspec f)
          (show ('b' : Char) ≠ 'e' from by decide)
        simp only [hn, hz, he,
          pTag_pair 'b' ':' ('{' :: (blocksFormat (b0 :: bs') ++
            (blockFormat (EBlock.mk fsz finner) ++ '}' :: rest))),
          hfsf, pChar_cons_self, hm, hfinp]

/-- The top-level roundtrip: from_str of to_string on good values. -/
theorem espFormat_roundtrip (s : ESpec) (hg : goodE s = true) :
    espFromStr (espFormat s) = some s := by
  have h := espA_aux (sizeOf s + 1) s ((espFormat s).length + 1) []
    (Nat.lt_succ_self _) hg (Or.inl rfl) (Nat.le_refl _)
  rw [List.append_nil] at h
  unfold espFromStr
  rw [h]

/-- C9 counterexample: the Blocks value with no non-final blocks and final
block Chunked{size=1, count=2} over Raw prints as "b:1*2=n"; re-parsing
that string fails (final_size_spec commits to the chunked-greedy branch
after "1*" and then demands '=' where the count digit '2' stands, and no
other alternative of the parser accepts the string), so from_str returns
none instead of the original value, refuting the roundtrip as claimed —
count 2 is not subject to the Chunked-count-1/Greedy canonicalization. -/
theorem C9_counterexample :
    espFormat (.blocks [] (.mk (.chunked 1 2) .raw)) =
      ['b', ':', '1', '*', '2', '=', 'n'] ∧
    espFromStr ['b', ':', '1', '*', '2', '=', 'n'] = none :=
  ⟨by decide, rfl⟩

/-- C9 (amended): print-then-parse is the identity on every ESpec value in
the roundtrippable subclass goodE: zip levels and window bits below 256,
encrypted keys of 8 and ivs of 4 byte-sized entries, every NON-final block
Chunked with count at least 1 (count 1 prints without the asterisk and
re-parses to count 1), and the final block Greedy, ChunkedGreedy, or
Chunked with count exactly 1, all printed sizes and counts within u64.
Outside this subclass the printed form can fail to re-parse (see the
counterexample, and Greedy/ChunkedGreedy in non-final position). -/
theorem C9_espec_roundtrip_amended :
    ∀ s : ESpec, goodE s = true → espFromStr (espFormat s) = some s :=
  fun s hg => espFormat_roundtrip s hg

/-- C9 witness: the amended roundtrip applied to a concrete value
exercising a non-final chunked block, zip, a greedy final block, and a
nested encrypted spec. -/
theorem C9_espec_roundtrip_amended_witness :
    goodE (.blocks [.mk (.chunked 16384 4) (.zip 6 (.bits 15))]
        (.mk .greedy (.encrypted [1, 2, 3, 4, 5, 6, 7, 8] [9, 10, 11, 12]
          .raw))) = true ∧
    espFromStr (espFormat (.blocks [.mk (.chunked 16384 4) (.zip 6 (.bits 15))]
        (.mk .greedy (.encrypted [1, 2, 3, 4, 5, 6, 7, 8] [9, 10, 11, 12]
          .raw)))) =
      some (.blocks [.mk (.chunked 16384 4) (.zip 6 (.bits 15))]
        (.mk .greedy (.encrypted [1, 2, 3, 4, 5, 6, 7, 8] [9, 10, 11, 12]
          .raw))) :=
  ⟨by decide, C9_espec_roundtrip_amended _ (by decide)⟩

/-! ## BLTE encode/decode (crates/ngdp/src/blte/{encode,decode}.rs)

The container codec, embedded over List Nat bytes and parameterised over
the external primitives (MD5, zlib compress/decompress, and the Salsa20
keystream, the cipher being keystream-XOR).  Rust panics (asserts, todo!,
expect, slice indexing) and anyhow/thiserror errors are both modelled as
Except errors with distinct constructors.  The chunk-info list keeps the
untruncated sizes; the u32/u24 casts of the source happen at
serialisation, exactly where the Rust field types impose them. -/

/-- The external primitives decode/encode call out to. -/
structure BExt where
  md5 : List Nat → List Nat
  zc : Nat → Nat → List Nat → List Nat
  zd : List Nat → Option (List Nat)
  ks : List Nat → List Nat → Nat → Nat

/-- One entry of the chunk table. -/
structure ChunkInfo where
  compressed_size : Nat
  decompressed_size : Nat
  checksum : List Nat
deriving DecidableEq, Repr

/-- TactKeys: key-name to key map (HashMap modelled as assoc list). -/
def TactKeys := List (List Nat × List Nat)

/-- TactKeys::get_key. -/
def getKey (keys : TactKeys) (name : List Nat) : Option (List Nat) :=
  List.lookup name keys

/-- Decode-side failures: the Err returns and the panics of decode_blte
and its helpers. -/
inductive BErr where
  | badMagic
  | headerTruncated
  | lenAssertPanic
  | readExactErr
  | checksumPanic
  | emptyChunkErr
  | zlibPanic
  | todoPanicF
  | unknownModePanic
  | encryptHeaderTruncated
  | keyLenPanic
  | ivLenPanic
  | bufIndexPanic
  | unhandledEncMode
  | fuelExhausted
deriving DecidableEq, Repr

/-- Encode-side failures (EncodeError), plus a marker for the infinite
loop a zero-size ChunkedGreedy block spins into. -/
inductive EncErr where
  | missingEncryptionKey
  | chunkUnderflow
  | leftoverData
  | nestedBlocksPanic
  | diverged
deriving DecidableEq, Repr

/-- Big-endian value of a byte list. -/
def beVal (l : List Nat) : Nat :=
  l.foldl (fun a b => a * 256 + b) 0

/-- Big-endian u32 bytes. -/
def u32BE (n : Nat) : List Nat :=
  [n / 16777216 % 256, n / 65536 % 256, n / 256 % 256, n % 256]

/-- Big-endian u24 bytes. -/
def u24BE (n : Nat) : List Nat :=
  [n / 65536 % 256, n / 256 % 256, n % 256]

/-- BinWrite of one ChunkInfo (big-endian). -/
def serializeChunk (ci : ChunkInfo) : List Nat :=
  u32BE ci.compressed_size ++ u32BE ci.decompressed_size ++ ci.checksum

/-- BinWrite of the BLTEHeader: magic, u32 header_size, and - only when
header_size is positive - the 0x0f flags byte and the u24 chunk count,
then the chunk table. -/
def serializeHeader (headerSize : Nat) (chunks : List ChunkInfo) : List Nat :=
  [66, 76, 84, 69] ++ u32BE headerSize ++
    (if headerSize > 0 then 15 :: u24BE chunks.length else []) ++
    chunks.flatMap serializeChunk

/-- The parsed header. -/
structure BLTEHeader where
  header_size : Nat
  flags : Option Nat
  chunk_count : Option Nat
  chunks : List ChunkInfo
deriving DecidableEq, Repr

/-- BinRead of the chunk table: count entries of 4+4+16 bytes. -/
def parseChunks : Nat → List Nat → Option (List ChunkInfo × List Nat)
  | 0, rest => some ([], rest)
  | n + 1, rest =>
    match rest with
    | a :: b :: c :: d :: e :: f :: g :: h :: t =>
      if 16 ≤ t.length then
        match parseChunks n (t.drop 16) with
        | some (cis, rest2) =>
          some (⟨beVal [a, b, c, d], beVal [e, f, g, h], t.take 16⟩ :: cis,
            rest2)
        | none => none
      else none
    | _ => none

/-- BinRead of the BLTEHeader, returning also the cursor position after
the header. -/
def parseBLTEHeader (content : List Nat) : Except BErr (BLTEHeader × Nat) :=
  match content with
  | 66 :: 76 :: 84 :: 69 :: rest =>
    match rest with
    | a :: b :: c :: d :: rest2 =>
      let hs := beVal [a, b, c, d]
      if hs > 0 then
        match rest2 with
        | fl :: x :: y :: z :: rest3 =>
          let cc := beVal [x, y, z]
          match parseChunks cc rest3 with
          | some (cis, rest4) =>
            .ok (⟨hs, some fl, some cc, cis⟩, content.length - rest4.length)
          | none => .error .headerTruncated
        | _ => .error .headerTruncated
      else .ok (⟨hs, none, none, []⟩, 8)
    | _ => .error .headerTruncated
  | _ => .error .badMagic

/-- handle_deflate_block: sized path demands exactly decompressed_size
bytes, unsized path streams to end; both panic (expect) on zlib failure. -/
def handleDeflate (ext : BExt) (data : List Nat) (ci : ChunkInfo)
    (out : List Nat) : Except BErr (List Nat) :=
  if ci.decompressed_size > 0 then
    match ext.zd data with
    | some o =>
      if o.length = ci.decompressed_size then .ok (out ++ o)
      else .error .zlibPanic
    | none => .error .zlibPanic
  else
    match ext.zd data with
    | some o => .ok (out ++ o)
    | none => .error .zlibPanic

/-- Salsa20 as keystream XOR, from a starting stream position. -/
def salsaCryptFrom (ks : List Nat → List Nat → Nat → Nat)
    (key iv : List Nat) : Nat → List Nat → List Nat
  | _, [] => []
  | i, b :: rest => (b ^^^ ks key iv i) :: salsaCryptFrom ks key iv (i + 1) rest

/-- salsa_crypt. -/
def salsaCrypt (ks : List Nat → List Nat → Nat → Nat) (key iv buf : List Nat) :
    List Nat :=
  salsaCryptFrom ks key iv 0 buf

/-- The 8-byte IV: the 4 header IV bytes XORed with the little-endian
block index, then four zero bytes. -/
def fullIv (iv : List Nat) (index : Nat) : List Nat :=
  List.zipWith (fun a b => a ^^^ b) iv (leBytes4 index) ++ [0, 0, 0, 0]

/-- handle_data_block (fused with handle_encrypted_block; the fuel only
decreases on the E-mode recursion, which strips the 15-byte encrypt
header, so data length + 1 always suffices). -/
def handleDataBlock (ext : BExt) (keys : TactKeys) :
    Nat → List Nat → Nat → ChunkInfo → List Nat → Except BErr (List Nat)
  | 0, _, _, _, _ => .error .fuelExhausted
  | fuel + 1, data, index, ci, out =>
    match data with
    | [] => .error .emptyChunkErr
    | m :: body =>
      if m = 78 then .ok (out ++ body)
      else if m = 90 then handleDeflate ext body ci out
      else if m = 70 then .error .todoPanicF
      else if m = 69 then
        match body with
        | kl :: t1 =>
          match t1.drop 8 with
          | il :: t2 =>
            match t2.drop 4 with
            | ty :: payload =>
              if kl ≠ 8 then .error .keyLenPanic
              else if il ≠ 4 then .error .ivLenPanic
              else
                match getKey keys (t1.take 8) with
                | some key =>
                  if ty = 83 then
                    let buf := salsaCrypt ext.ks key
                      (fullIv (t2.take 4) index) payload
                    match buf.head? with
                    | none => .error .bufIndexPanic
                    | some b =>
                      if b = 78 ∨ b = 90 ∨ b = 70 ∨ b = 69 then
                        handleDataBlock ext keys fuel buf index
                          { ci with compressed_size := buf.length } out
                      else
                        .ok (out ++ List.replicate ci.decompressed_size 0)
                  else .error .unhandledEncMode
                | none => .ok (out ++ List.replicate ci.decompressed_size 0)
            | [] => .error .encryptHeaderTruncated
          | [] => .error .encryptHeaderTruncated
        | [] => .error .encryptHeaderTruncated
      else .error .unknownModePanic

/-- The per-chunk loop of decode_blte: slice compressed_size bytes
(read_exact), verify MD5 (assert), dispatch. -/
def decodeChunks (ext : BExt) (keys : TactKeys) (content : List Nat) :
    List ChunkInfo → Nat → Nat → List Nat → Except BErr (List Nat)
  | [], _, _, out => .ok out
  | ci :: rest, index, pos, out =>
    if pos + ci.compressed_size ≤ content.length then
      let data := (content.drop pos).take ci.compressed_size
      if ext.md5 data = ci.checksum then
        match handleDataBlock ext keys (data.length + 1) data index ci out with
        | .ok out2 =>
          decodeChunks ext keys content rest (index + 1)
            (pos + ci.compressed_size) out2
        | .error e => .error e
      else .error .checksumPanic
    else .error .readExactErr

/-- decode_blte. -/
def decodeBlte (ext : BExt) (keys : TactKeys) (content : List Nat) :
    Except BErr (List Nat) :=
  match parseBLTEHeader content with
  | .error e => .error e
  | .ok (header, pos) =>
    if header.chunks.isEmpty then
      let rest := content.drop pos
      if content.length - 8 = rest.length then
        decodeChunks ext keys content [⟨rest.length, 0, ext.md5 rest⟩] 0 pos []
      else .error .lenAssertPanic
    else decodeChunks ext keys content header.chunks 0 pos []

/-- The MPQ window-bits choice by input length. -/
def windowBitsMPQ (len : Nat) : Nat :=
  if len ≤ 512 then 9
  else if len ≤ 1024 then 10
  else if len ≤ 2048 then 11
  else if len ≤ 4096 then 12
  else if len ≤ 8192 then 13
  else if len ≤ 16384 then 14
  else 15

/-- process_zip's window bits. -/
def zipWindowBits (bits : ZipBits) (len : Nat) : Nat :=
  match bits with
  | .bits b => b
  | .mpq => windowBitsMPQ len

/-- The inner block of an EBlock. -/
def blockInner : EBlock → ESpec
  | .mk _ inner => inner

/-- process_inner: the mode byte plus the processed payload; nested Blocks
panics. -/
def processInner (ext : BExt) (keys : TactKeys) :
    ESpec → List Nat → Nat → Except EncErr (List Nat)
  | .raw, input, _ => .ok (78 :: input)
  | .zip level bits, input, _ =>
    .ok (90 :: ext.zc level (zipWindowBits bits input.length) input)
  | .encrypted keyName iv inner, input, blockIndex =>
    match getKey keys keyName with
    | none => .error .missingEncryptionKey
    | some key =>
      match processInner ext keys inner input blockIndex with
      | .error e => .error e
      | .ok innerBuf =>
        .ok (69 :: (8 :: keyName ++ 4 :: iv ++ [83]) ++
          salsaCrypt ext.ks key (fullIv iv blockIndex) innerBuf)
  | .blocks _ _, _, _ => .error .nestedBlocksPanic

/-- process_block's process_chunk closure: encode one chunk at the current
chunk index, append the bytes and push the chunk record. -/
def processChunk (ext : BExt) (keys : TactKeys) (inner : ESpec)
    (input buf : List Nat) (chunks : List ChunkInfo) :
    Except EncErr (List Nat × List ChunkInfo) :=
  match processInner ext keys inner input chunks.length with
  | .error e => .error e
  | .ok innerOut =>
    .ok (buf ++ innerOut,
      chunks ++ [⟨innerOut.length, input.length, ext.md5 innerOut⟩])

/-- The Chunked{size,count} loop: runs max(count,1) times (the Rust loop
body executes before the count check), consuming size bytes each time. -/
def chunkedLoop (ext : BExt) (keys : TactKeys) (inner : ESpec) (size : Nat) :
    Nat → List Nat → List Nat → List ChunkInfo →
    Except EncErr (List Nat × List Nat × List ChunkInfo)
  | 0, rest, buf, chunks => .ok (rest, buf, chunks)
  | n + 1, rest, buf, chunks =>
    if size > rest.length then .error .chunkUnderflow
    else
      match processChunk ext keys inner (rest.take size) buf chunks with
      | .error e => .error e
      | .ok (buf2, chunks2) =>
        chunkedLoop ext keys inner size n (rest.drop size) buf2 chunks2

/-- The ChunkedGreedy loop: consume min(size, remaining) until empty.  A
zero size with input left makes no progress (the Rust loop never
terminates); the fuel turns that into the diverged marker. -/
def greedyLoop (ext : BExt) (keys : TactKeys) (inner : ESpec) (size : Nat) :
    Nat → List Nat → List Nat → List ChunkInfo →
    Except EncErr (List Nat × List Nat × List ChunkInfo)
  | 0, rest, buf, chunks =>
    if rest.isEmpty then .ok (rest, buf, chunks) else .error .diverged
  | fuel + 1, rest, buf, chunks =>
    if rest.isEmpty then .ok (rest, buf, chunks)
    else
      match processChunk ext keys inner (rest.take (min size rest.length))
        buf chunks with
      | .error e => .error e
      | .ok (buf2, chunks2) =>
        greedyLoop ext keys inner size fuel
          (rest.drop (min size rest.length)) buf2 chunks2

/-- process_block. -/
def processBlock (ext : BExt) (keys : TactKeys) (b : EBlock)
    (input buf : List Nat) (chunks : List ChunkInfo) :
    Except EncErr (List Nat × List Nat × List ChunkInfo) :=
  match b with
  | .mk (.chunked size count) inner =>
    chunkedLoop ext keys inner size (max count 1) input buf chunks
  | .mk (.chunkedGreedy size) inner =>
    greedyLoop ext keys inner size (input.length + 1) input buf chunks
  | .mk .greedy inner =>
    match processChunk ext keys inner input buf chunks with
    | .error e => .error e
    | .ok (buf2, chunks2) => .ok ([], buf2, chunks2)

/-- The try_fold over the non-final blocks. -/
def processBlocks (ext : BExt) (keys : TactKeys) :
    List EBlock → List Nat → List Nat → List ChunkInfo →
    Except EncErr (List Nat × List Nat × List ChunkInfo)
  | [], input, buf, chunks => .ok (input, buf, chunks)
  | b :: bs, input, buf, chunks =>
    match processBlock ext keys b input buf chunks with
    | .error e => .error e
    | .ok (rest, buf2, chunks2) => processBlocks ext keys bs rest buf2 chunks2

/-- process_top. -/
def processTop (ext : BExt) (keys : TactKeys) (espec : ESpec)
    (input : List Nat) : Except EncErr (List Nat × List ChunkInfo) :=
  match espec with
  | .blocks bs fin =>
    match processBlocks ext keys bs input [] [] with
    | .error e => .error e
    | .ok (rest, buf, chunks) =>
      match processBlock ext keys fin rest buf chunks with
      | .error e => .error e
      | .ok (rest2, buf2, chunks2) =>
        if rest2.isEmpty then .ok (buf2, chunks2) else .error .leftoverData
  | esp =>
    match processInner ext keys esp input 0 with
    | .error e => .error e
    | .ok innerOut => .ok (innerOut, [])

/-- encode_blte: process, then complete and prepend the header. -/
def encodeBlte (ext : BExt) (keys : TactKeys) (espec : ESpec)
    (input : List Nat) : Except EncErr (List Nat) :=
  match processTop ext keys espec input with
  | .error e => .error e
  | .ok (buf, chunks) =>
    let headerSize :=
      if chunks.isEmpty then 0
      else (4 + 1 + 3 + 4 + 24 * chunks.length) % 4294967296
    .ok (serializeHeader headerSize chunks ++ buf)

/-- The well-formedness the amended roundtrip needs of the spec tree: every
chunk-level inner spec is Raw, Zip, or Encrypted with an 8-byte key name
and a 4-byte IV (the Rust array types make the lengths intrinsic). -/
def especInnerWf : ESpec → Bool
  | .raw => true
  | .zip _ _ => true
  | .encrypted key iv inner =>
    decide (key.length = 8) && decide (iv.length = 4) && especInnerWf inner
  | .blocks _ _ => false

/-- Top-level well-formedness: a Blocks spec needs every block's inner
spec well formed; anything else is judged directly. -/
def especWfB : ESpec → Bool
  | .blocks bs fin =>
    bs.all (fun b => especInnerWf (blockInner b)) &&
      especInnerWf (blockInner fin)
  | esp => especInnerWf esp

/-- The wire bounds under which the chunk table survives the u32/u24
casts of the header structs. -/
def chunksWf (chunks : List ChunkInfo) : Bool :=
  decide (chunks.length < 16777216) &&
    chunks.all (fun ci =>
      decide (ci.compressed_size < 4294967296) &&
        decide (ci.decompressed_size < 4294967296))

/-- Trivial instantiations of the external primitives: zlib as the
identity codec, MD5 as a constant digest, a zero keystream. -/
def extTriv : BExt :=
  { md5 := fun _ => List.replicate 16 0
    zc := fun _ _ d => d
    zd := fun d => some d
    ks := fun _ _ _ => 0 }

/-! Serialisation lemmas. -/

theorem beVal_u32BE (n : Nat) (h : n < 4294967296) : beVal (u32BE n) = n := by
  show (((0 * 256 + n / 16777216 % 256) * 256 + n / 65536 % 256) * 256 +
    n / 256 % 256) * 256 + n % 256 = n
  omega

theorem beVal_u24BE (n : Nat) (h : n < 16777216) : beVal (u24BE n) = n := by
  show ((0 * 256 + n / 65536 % 256) * 256 + n / 256 % 256) * 256 + n % 256 = n
  omega

theorem serializeChunk_length (ci : ChunkInfo) (h : ci.checksum.length = 16) :
    (serializeChunk ci).length = 24 := by
  simp [serializeChunk, u32BE, h]

theorem flatMap_serializeChunk_length :
    ∀ cis : List ChunkInfo, (∀ ci ∈ cis, ci.checksum.length = 16) →
      (cis.flatMap serializeChunk).length = 24 * cis.length := by
  intro cis h
  induction cis with
  | nil => rfl
  | cons ci cis ih =>
    simp only [List.flatMap_cons, List.length_append, List.length_cons]
    rw [serializeChunk_length ci (h ci (by simp)),
      ih (fun c hc => h c (by simp [hc]))]
    ring

theorem parseChunks_serialize :
    ∀ (cis : List ChunkInfo) (extra : List Nat),
      (∀ ci ∈ cis, ci.checksum.length = 16 ∧
        ci.compressed_size < 4294967296 ∧ ci.decompressed_size < 4294967296) →
      parseChunks cis.length (cis.flatMap serializeChunk ++ extra) =
        some (cis, extra) := by
  intro cis
  induction cis with
  | nil => intro extra _; rfl
  | cons ci cis ih =>
    intro extra h
    obtain ⟨cs, ds, chk⟩ := ci
    obtain ⟨h16, hcs, hds⟩ := h ⟨cs, ds, chk⟩ (by simp)
    simp only [ChunkInfo.checksum] at h16
    simp only [ChunkInfo.compressed_size] at hcs
    simp only [ChunkInfo.decompressed_size] at hds
    have hshape :
        ((⟨cs, ds, chk⟩ : ChunkInfo) :: cis).flatMap serializeChunk ++ extra =
        cs / 16777216 % 256 :: cs / 65536 % 256 :: cs / 256 % 256 :: cs % 256 ::
        ds / 16777216 % 256 :: ds / 65536 % 256 :: ds / 256 % 256 :: ds % 256 ::
        (chk ++ (cis.flatMap serializeChunk ++ extra)) := by
      simp [serializeChunk, u32BE, List.flatMap_cons, List.append_assoc]
    rw [List.length_cons, hshape]
    have htlen : 16 ≤ (chk ++ (cis.flatMap serializeChunk ++ extra)).length := by
      simp [h16]
    have htake : (chk ++ (cis.flatMap serializeChunk ++ extra)).take 16 = chk := by
      rw [← h16, List.take_left]
    have hdrop : (chk ++ (cis.flatMap serializeChunk ++ extra)).drop 16 =
        cis.flatMap serializeChunk ++ extra := by
      rw [← h16, List.drop_left]
    unfold parseChunks
    simp only [if_pos htlen, hdrop, htake,
      ih extra (fun c hc => h c (by simp [hc]))]
    have hb1 : beVal [cs / 16777216 % 256, cs / 65536 % 256, cs / 256 % 256,
        cs % 256] = cs := beVal_u32BE cs hcs
    have hb2 : beVal [ds / 16777216 % 256, ds / 65536 % 256, ds / 256 % 256,
        ds % 256] = ds := beVal_u32BE ds hds
    rw [hb1, hb2]

theorem serializeHeader_length (hs : Nat) (hpos : hs > 0)
    (chunks : List ChunkInfo) (h16 : ∀ ci ∈ chunks, ci.checksum.length = 16) :
    (serializeHeader hs chunks).length = 12 + 24 * chunks.length := by
  simp only [serializeHeader, if_pos hpos, List.length_append, u32BE, u24BE,
    List.length_cons]
  rw [flatMap_serializeChunk_length chunks h16]
  simp
  try omega

theorem parse_serializeHeader_chunked (chunks : List ChunkInfo)
    (body : List Nat)
    (hcc : chunks.length < 16777216)
    (h : ∀ ci ∈ chunks, ci.checksum.length = 16 ∧
      ci.compressed_size < 4294967296 ∧ ci.decompressed_size < 4294967296) :
    parseBLTEHeader (serializeHeader (12 + 24 * chunks.length) chunks ++ body) =
      .ok (⟨12 + 24 * chunks.length, some 15, some chunks.length, chunks⟩,
        12 + 24 * chunks.length) := by
  have hhs : 12 + 24 * chunks.length < 4294967296 := by omega
  have hshape : serializeHeader (12 + 24 * chunks.length) chunks ++ body =
      66 :: 76 :: 84 :: 69 ::
        ((12 + 24 * chunks.length) / 16777216 % 256 ::
         (12 + 24 * chunks.length) / 65536 % 256 ::
         (12 + 24 * chunks.length) / 256 % 256 ::
         (12 + 24 * chunks.length) % 256 ::
        (15 :: chunks.length / 65536 % 256 :: chunks.length / 256 % 256 ::
          chunks.length % 256 ::
          (chunks.flatMap serializeChunk ++ body))) := by
    simp only [serializeHeader, if_pos (by omega : 12 + 24 * chunks.length > 0),
      u32BE, u24BE]
    simp [List.append_assoc]
  rw [hshape]
  unfold parseBLTEHeader
  have hbv : beVal [(12 + 24 * chunks.length) / 16777216 % 256,
      (12 + 24 * chunks.length) / 65536 % 256,
      (12 + 24 * chunks.length) / 256 % 256,
      (12 + 24 * chunks.length) % 256] = 12 + 24 * chunks.length :=
    beVal_u32BE _ hhs
  have hcv : beVal [chunks.length / 65536 % 256, chunks.length / 256 % 256,
      chunks.length % 256] = chunks.length := beVal_u24BE _ hcc
  simp only [hbv, hcv, if_pos (by omega : 12 + 24 * chunks.length > 0),
    parseChunks_serialize chunks body h]
  have hlen : (66 :: 76 :: 84 :: 69 ::
      ((12 + 24 * chunks.length) / 16777216 % 256 ::
       (12 + 24 * chunks.length) / 65536 % 256 ::
       (12 + 24 * chunks.length) / 256 % 256 ::
       (12 + 24 * chunks.length) % 256 ::
      (15 :: chunks.length / 65536 % 256 :: chunks.length / 256 % 256 ::
        chunks.length % 256 ::
        (chunks.flatMap serializeChunk ++ body)))).length - body.length =
      12 + 24 * chunks.length := by
    simp only [List.length_cons, List.length_append]
    rw [flatMap_serializeChunk_length chunks (fun ci hci => (h ci hci).1)]
    omega
  rw [hlen]

theorem parse_serializeHeader_empty (body : List Nat) :
    parseBLTEHeader (serializeHeader 0 [] ++ body) =
      .ok (⟨0, none, none, []⟩, 8) := rfl

/-! Salsa lemmas. -/

theorem salsaCryptFrom_length (ks : List Nat → List Nat → Nat → Nat)
    (key iv : List Nat) :
    ∀ (l : List Nat) (i : Nat), (salsaCryptFrom ks key iv i l).length = l.length
  | [], _ => rfl
  | b :: rest, i => by
    simp [salsaCryptFrom, salsaCryptFrom_length ks key iv rest (i + 1)]

theorem salsaCryptFrom_invol (ks : List Nat → List Nat → Nat → Nat)
    (key iv : List Nat) :
    ∀ (l : List Nat) (i : Nat),
      salsaCryptFrom ks key iv i (salsaCryptFrom ks key iv i l) = l
  | [], _ => rfl
  | b :: rest, i => by
    simp only [salsaCryptFrom, salsaCryptFrom_invol ks key iv rest (i + 1)]
    rw [Nat.xor_assoc, Nat.xor_self, Nat.xor_zero]

theorem salsaCrypt_length (ks : List Nat → List Nat → Nat → Nat)
    (key iv l : List Nat) : (salsaCrypt ks key iv l).length = l.length :=
  salsaCryptFrom_length ks key iv l 0

theorem salsaCrypt_invol (ks : List Nat → List Nat → Nat → Nat)
    (key iv l : List Nat) :
    salsaCrypt ks key iv (salsaCrypt ks key iv l) = l :=
  salsaCryptFrom_invol ks key iv l 0

/-- Every successful process_inner output starts with a mode byte the
decoder recognises. -/
theorem processInner_head (ext : BExt) (keys : TactKeys) (esp : ESpec)
    (input : List Nat) (idx : Nat) (enc : List Nat)
    (h : processInner ext keys esp input idx = .ok enc) :
    enc.head? = some 78 ∨ enc.head? = some 90 ∨ enc.head? = some 69 := by
  cases esp with
  | raw =>
    simp only [processInner, Except.ok.injEq] at h
    rw [← h]
    exact Or.inl rfl
  | zip level bits =>
    simp only [processInner, Except.ok.injEq] at h
    rw [← h]
    exact Or.inr (Or.inl rfl)
  | encrypted keyName iv inner =>
    rw [processInner] at h
    cases hk : getKey keys keyName with
    | none => rw [hk] at h; exact Except.noConfusion h
    | some key =>
      rw [hk] at h
      cases hi : processInner ext keys inner input idx with
      | error e => rw [hi] at h; exact Except.noConfusion h
      | ok innerBuf =>
        rw [hi] at h
        simp only [Except.ok.injEq] at h
        rw [← h]
        exact Or.inr (Or.inr rfl)
  | blocks bs fin =>
    rw [processInner] at h
    exact Except.noConfusion h

/-- The per-chunk decode inverts process_inner: on a chunk whose recorded
decompressed size is zero (the implicit single-chunk container) or the
exact input length (the chunked container), handle_data_block recovers the
chunk's input, for any fuel above the encoded length. -/
theorem handleDataBlock_processInner (ext : BExt) (keys : TactKeys)
    (hzd : ∀ lvl w d, ext.zd (ext.zc lvl w d) = some d) :
    ∀ (N : Nat) (esp : ESpec) (input : List Nat) (idx : Nat) (enc : List Nat)
      (fuel : Nat) (ci : ChunkInfo) (out : List Nat),
      sizeOf esp < N →
      especInnerWf esp = true →
      processInner ext keys esp input idx = .ok enc →
      (ci.decompressed_size = 0 ∨ ci.decompressed_size = input.length) →
      enc.length < fuel →
      handleDataBlock ext keys fuel enc idx ci out = .ok (out ++ input) := by
  intro N
  induction N with
  | zero =>
    intro esp _ _ _ _ _ _ hsz
    exact absurd hsz (Nat.not_lt_zero _)
  | succ N ih =>
    intro esp input idx enc fuel ci out hsz hwf hpi hds hfuel
    match fuel, hfuel with
    | f + 1, hfuel =>
    cases esp with
    | raw =>
      simp only [processInner, Except.ok.injEq] at hpi
      subst hpi
      simp [handleDataBlock]
    | zip level bits =>
      simp only [processInner, Except.ok.injEq] at hpi
      subst hpi
      simp only [handleDataBlock]
      norm_num
      unfold handleDeflate
      rcases Nat.eq_zero_or_pos ci.decompressed_size with h0 | hpos
      · rw [if_neg (by omega), hzd]
      · rw [if_pos hpos, hzd]
        have hlen : input.length = ci.decompressed_size := by
          rcases hds with h | h
          · omega
          · omega
        simp [hlen]
    | encrypted keyName iv inner =>
      simp only [especInnerWf, Bool.and_eq_true, decide_eq_true_eq] at hwf
      obtain ⟨⟨hk8, hiv4⟩, hwfi⟩ := hwf
      rw [processInner] at hpi
      cases hkey : getKey keys keyName with
      | none => rw [hkey] at hpi; exact Except.noConfusion hpi
      | some key =>
        rw [hkey] at hpi
        cases hinner : processInner ext keys inner input idx with
        | error e => rw [hinner] at hpi; exact Except.noConfusion hpi
        | ok innerBuf =>
          rw [hinner] at hpi
          simp only [Except.ok.injEq] at hpi
          subst hpi
          have hshape : (69 :: (8 :: keyName ++ 4 :: iv ++ [83]) ++
              salsaCrypt ext.ks key (fullIv iv idx) innerBuf) =
              69 :: 8 :: (keyName ++ 4 :: (iv ++ 83 ::
                salsaCrypt ext.ks key (fullIv iv idx) innerBuf)) := by
            simp [List.append_assoc]
          rw [hshape] at hfuel ⊢
          simp only [handleDataBlock]
          norm_num
          have hdrop8 : (keyName ++ 4 :: (iv ++ 83 ::
              salsaCrypt ext.ks key (fullIv iv idx) innerBuf)).drop 8 =
              4 :: (iv ++ 83 :: salsaCrypt ext.ks key (fullIv iv idx)
                innerBuf) := by
            rw [← hk8, List.drop_left]
          have htake8 : (keyName ++ 4 :: (iv ++ 83 ::
              salsaCrypt ext.ks key (fullIv iv idx) innerBuf)).take 8 =
              keyName := by
            rw [← hk8, List.take_left]
          have hdrop4 : (iv ++ 83 :: salsaCrypt ext.ks key (fullIv iv idx)
              innerBuf).drop 4 =
              83 :: salsaCrypt ext.ks key (fullIv iv idx) innerBuf := by
            rw [← hiv4, List.drop_left]
          have htake4 : (iv ++ 83 :: salsaCrypt ext.ks key (fullIv iv idx)
              innerBuf).take 4 = iv := by
            rw [← hiv4, List.take_left]
          simp only [hdrop8, htake8, hdrop4, htake4, hkey, salsaCrypt_invol]
          norm_num
          have hhead := processInner_head ext keys inner input idx innerBuf
            hinner
          have hszi : sizeOf inner < N :=
            Nat.lt_of_lt_of_le (sizeOf_encrypted_inner keyName iv inner)
              (Nat.lt_succ_iff.mp hsz)
          have hfi : innerBuf.length < f := by
            have hsl := salsaCrypt_length ext.ks key (fullIv iv idx) innerBuf
            simp only [List.length_cons, List.length_append, hsl,
              hk8, hiv4] at hfuel
            omega
          have hrec := ih inner input idx innerBuf f
            { ci with compressed_size := innerBuf.length } out hszi hwfi
            hinner (by simpa using hds) hfi
          rcases hhead with h | h | h <;> simp [h, hrec]
    | blocks bs fin =>
      rw [processInner] at hpi
      exact Except.noConfusion hpi

/-- The decode-side contract of a run of chunks starting at chunk index k:
each (info, encoded bytes, original bytes) triple records the sizes and
checksum the encoder wrote, and the handler inverts the chunk. -/
def ChunksOk (ext : BExt) (keys : TactKeys) : Nat →
    List (ChunkInfo × List Nat × List Nat) → Prop
  | _, [] => True
  | k, (ci, enc, orig) :: ps =>
    (ci.compressed_size = enc.length ∧ ci.checksum = ext.md5 enc ∧
      ∀ out, handleDataBlock ext keys (enc.length + 1) enc k ci out =
        .ok (out ++ orig)) ∧
    ChunksOk ext keys (k + 1) ps

theorem chunksOk_append (ext : BExt) (keys : TactKeys) :
    ∀ (ps qs : List (ChunkInfo × List Nat × List Nat)) (k : Nat),
      ChunksOk ext keys k ps → ChunksOk ext keys (k + ps.length) qs →
      ChunksOk ext keys k (ps ++ qs)
  | [], qs, k, _, hq => by simpa using hq
  | (p :: ps), qs, k, hp, hq => by
    obtain ⟨c, e, o⟩ := p
    obtain ⟨h1, h2⟩ := hp
    refine ⟨h1, chunksOk_append ext keys ps qs (k + 1) h2 ?_⟩
    have : k + 1 + ps.length = k + (ps.length + 1) := by omega
    rw [this]
    simpa using hq

/-- Decoding a chunk table over a body that is exactly the concatenation
of the encoded chunks yields the concatenation of the original inputs. -/
theorem decodeChunks_spec (ext : BExt) (keys : TactKeys) :
    ∀ (ps : List (ChunkInfo × List Nat × List Nat)) (k pos : Nat)
      (out content : List Nat),
      ChunksOk ext keys k ps →
      pos ≤ content.length →
      content.drop pos = (ps.map fun p => p.2.1).flatten →
      decodeChunks ext keys content (ps.map fun p => p.1) k pos out =
        .ok (out ++ (ps.map fun p => p.2.2).flatten) := by
  intro ps
  induction ps with
  | nil =>
    intro k pos out content _ _ _
    simp [decodeChunks]
  | cons p ps ih =>
    intro k pos out content hok hpos hdrop
    obtain ⟨ci, enc, orig⟩ := p
    obtain ⟨⟨hcs, hchk, hhandle⟩, hrest⟩ := hok
    simp only [List.map_cons, List.flatten_cons] at hdrop ⊢
    have hdlen : (content.drop pos).length = content.length - pos :=
      List.length_drop pos content
    have hle : pos + enc.length ≤ content.length := by
      rw [hdrop] at hdlen
      simp only [List.length_append] at hdlen
      omega
    have hdata : (content.drop pos).take enc.length = enc := by
      rw [hdrop, List.take_left]
    have hdrop2 : content.drop (pos + enc.length) =
        (ps.map fun p => p.2.1).flatten := by
      have h1 : (content.drop pos).drop enc.length =
          content.drop (pos + enc.length) := by
        rw [List.drop_drop]
      rw [← h1, hdrop, List.drop_left]
    unfold decodeChunks
    simp only [hcs, hdata, if_pos hle]
    rw [if_pos hchk.symm]
    simp only [hhandle out]
    rw [ih (k + 1) (pos + enc.length) (out ++ orig) content hrest (by omega)
      hdrop2]
    simp [List.append_assoc]

/-! Encode-side inversion: every successful processing step extends the
byte buffer and the chunk table by matched, decodable segments. -/

theorem processChunk_spec (ext : BExt) (keys : TactKeys) (inner : ESpec)
    (input buf : List Nat) (chunks : List ChunkInfo)
    (buf2 : List Nat) (chunks2 : List ChunkInfo)
    (h : processChunk ext keys inner input buf chunks = .ok (buf2, chunks2)) :
    ∃ enc, processInner ext keys inner input chunks.length = .ok enc ∧
      buf2 = buf ++ enc ∧
      chunks2 = chunks ++ [⟨enc.length, input.length, ext.md5 enc⟩] := by
  unfold processChunk at h
  cases hpi : processInner ext keys inner input chunks.length with
  | error e => rw [hpi] at h; exact Except.noConfusion h
  | ok enc =>
    rw [hpi] at h
    simp only [Except.ok.injEq, Prod.mk.injEq] at h
    exact ⟨enc, rfl, h.1.symm, h.2.symm⟩

/-- The chunk record built for one processed chunk satisfies the decode
contract. -/
theorem chunk_handle_ok (ext : BExt) (keys : TactKeys)
    (hzd : ∀ lvl w d, ext.zd (ext.zc lvl w d) = some d) (inner : ESpec)
    (hwf : especInnerWf inner = true) (input enc : List Nat) (k : Nat)
    (hpi : processInner ext keys inner input k = .ok enc) :
    ∀ out, handleDataBlock ext keys (enc.length + 1) enc k
      ⟨enc.length, input.length, ext.md5 enc⟩ out = .ok (out ++ input) :=
  fun out => handleDataBlock_processInner ext keys hzd (sizeOf inner + 1)
    inner input k enc (enc.length + 1)
    ⟨enc.length, input.length, ext.md5 enc⟩ out (Nat.lt_succ_self _) hwf hpi
    (Or.inr rfl) (Nat.lt_succ_self _)

theorem chunkedLoop_spec (ext : BExt) (keys : TactKeys)
    (hzd : ∀ lvl w d, ext.zd (ext.zc lvl w d) = some d) (inner : ESpec)
    (hwf : especInnerWf inner = true) (size : Nat) :
    ∀ (n : Nat) (rest buf : List Nat) (chunks : List ChunkInfo)
      (rest' buf' : List Nat) (chunks' : List ChunkInfo),
      chunkedLoop ext keys inner size n rest buf chunks =
        .ok (rest', buf', chunks') →
      ∃ ps, chunks' = chunks ++ ps.map (fun p => p.1) ∧
        buf' = buf ++ (ps.map fun p => p.2.1).flatten ∧
        rest = (ps.map fun p => p.2.2).flatten ++ rest' ∧
        ChunksOk ext keys chunks.length ps := by
  intro n
  induction n with
  | zero =>
    intro rest buf chunks rest' buf' chunks' h
    simp only [chunkedLoop, Except.ok.injEq, Prod.mk.injEq] at h
    obtain ⟨h1, h2, h3⟩ := h
    exact ⟨[], by simp [← h1, ← h2, ← h3, ChunksOk]⟩
  | succ n ih =>
    intro rest buf chunks rest' buf' chunks' h
    rw [chunkedLoop] at h
    by_cases hsz : size > rest.length
    · rw [if_pos hsz] at h
      exact Except.noConfusion h
    · rw [if_neg hsz] at h
      cases hpc : processChunk ext keys inner (rest.take size) buf chunks with
      | error e => rw [hpc] at h; exact Except.noConfusion h
      | ok v =>
        obtain ⟨buf2, chunks2⟩ := v
        rw [hpc] at h
        obtain ⟨enc, hpi, hbuf2, hchunks2⟩ :=
          processChunk_spec ext keys inner (rest.take size) buf chunks buf2
            chunks2 hpc
        obtain ⟨ps, hch, hbu, hre, hok⟩ :=
          ih (rest.drop size) buf2 chunks2 rest' buf' chunks' h
        refine ⟨(⟨enc.length, (rest.take size).length, ext.md5 enc⟩, enc,
          rest.take size) :: ps, ?_, ?_, ?_, ?_⟩
        · rw [hch, hchunks2]
          simp [List.append_assoc]
        · rw [hbu, hbuf2]
          simp [List.append_assoc]
        · rw [List.map_cons, List.flatten_cons, List.append_assoc, ← hre,
            List.take_append_drop]
        · refine ⟨⟨rfl, rfl,
            chunk_handle_ok ext keys hzd inner hwf (rest.take size) enc
              chunks.length hpi⟩, ?_⟩
          have hlen : chunks2.length = chunks.length + 1 := by
            rw [hchunks2]
            simp
          rwa [hlen] at hok

theorem greedyLoop_spec (ext : BExt) (keys : TactKeys)
    (hzd : ∀ lvl w d, ext.zd (ext.zc lvl w d) = some d) (inner : ESpec)
    (hwf : especInnerWf inner = true) (size : Nat) :
    ∀ (n : Nat) (rest buf : List Nat) (chunks : List ChunkInfo)
      (rest' buf' : List Nat) (chunks' : List ChunkInfo),
      greedyLoop ext keys inner size n rest buf chunks =
        .ok (rest', buf', chunks') →
      ∃ ps, chunks' = chunks ++ ps.map (fun p => p.1) ∧
        buf' = buf ++ (ps.map fun p => p.2.1).flatten ∧
        rest = (ps.map fun p => p.2.2).flatten ++ rest' ∧
        ChunksOk ext keys chunks.length ps := by
  intro n
  induction n with
  | zero =>
    intro rest buf chunks rest' buf' chunks' h
    rw [greedyLoop] at h
    by_cases he : rest.isEmpty
    · rw [if_pos he] at h
      simp only [Except.ok.injEq, Prod.mk.injEq] at h
      obtain ⟨h1, h2, h3⟩ := h
      exact ⟨[], by simp [← h1, ← h2, ← h3, ChunksOk]⟩
    · rw [if_neg he] at h
      exact Except.noConfusion h
  | succ n ih =>
    intro rest buf chunks rest' buf' chunks' h
    rw [greedyLoop] at h
    by_cases he : rest.isEmpty
    · rw [if_pos he] at h
      simp only [Except.ok.injEq, Prod.mk.injEq] at h
      obtain ⟨h1, h2, h3⟩ := h
      exact ⟨[], by simp [← h1, ← h2, ← h3, ChunksOk]⟩
    · rw [if_neg he] at h
      cases hpc : processChunk ext keys inner (rest.take (min size rest.length))
        buf chunks with
      | error e => rw [hpc] at h; exact Except.noConfusion h
      | ok v =>
        obtain ⟨buf2, chunks2⟩ := v
        rw [hpc] at h
        obtain ⟨enc, hpi, hbuf2, hchunks2⟩ :=
          processChunk_spec ext keys inner (rest.take (min size rest.length))
            buf chunks buf2 chunks2 hpc
        obtain ⟨ps, hch, hbu, hre, hok⟩ :=
          ih (rest.drop (min size rest.length)) buf2 chunks2 rest' buf'
            chunks' h
        refine ⟨(⟨enc.length, (rest.take (min size rest.length)).length,
          ext.md5 enc⟩, enc, rest.take (min size rest.length)) :: ps,
          ?_, ?_, ?_, ?_⟩
        · rw [hch, hchunks2]
          simp [List.append_assoc]
        · rw [hbu, hbuf2]
          simp [List.append_assoc]
        · rw [List.map_cons, List.flatten_cons, List.append_assoc, ← hre,
            List.take_append_drop]
        · refine ⟨⟨rfl, rfl,
            chunk_handle_ok ext keys hzd inner hwf
              (rest.take (min size rest.length)) enc chunks.length hpi⟩, ?_⟩
          have hlen : chunks2.length = chunks.length + 1 := by
            rw [hchunks2]
            simp
          rwa [hlen] at hok

theorem processBlock_spec (ext : BExt) (keys : TactKeys)
    (hzd : ∀ lvl w d, ext.zd (ext.zc lvl w d) = some d) (b : EBlock)
    (hwf : especInnerWf (blockInner b) = true)
    (input buf : List Nat) (chunks : List ChunkInfo)
    (rest' buf' : List Nat) (chunks' : List ChunkInfo)
    (h : processBlock ext keys b input buf chunks = .ok (rest', buf', chunks')) :
    ∃ ps, chunks' = chunks ++ ps.map (fun p => p.1) ∧
      buf' = buf ++ (ps.map fun p => p.2.1).flatten ∧
      input = (ps.map fun p => p.2.2).flatten ++ rest' ∧
      ChunksOk ext keys chunks.length ps := by
  obtain ⟨size, inner⟩ := b
  have hwfi : especInnerWf inner = true := hwf
  cases size with
  | chunked size count =>
    exact chunkedLoop_spec ext keys hzd inner hwfi size (max count 1) input
      buf chunks rest' buf' chunks' h
  | chunkedGreedy size =>
    exact greedyLoop_spec ext keys hzd inner hwfi size (input.length + 1)
      input buf chunks rest' buf' chunks' h
  | greedy =>
    rw [processBlock] at h
    cases hpc : processChunk ext keys inner input buf chunks with
    | error e => rw [hpc] at h; exact Except.noConfusion h
    | ok v =>
      obtain ⟨buf2, chunks2⟩ := v
      rw [hpc] at h
      simp only [Except.ok.injEq, Prod.mk.injEq] at h
      obtain ⟨h1, h2, h3⟩ := h
      obtain ⟨enc, hpi, hbuf2, hchunks2⟩ :=
        processChunk_spec ext keys inner input buf chunks buf2 chunks2 hpc
      refine ⟨[(⟨enc.length, input.length, ext.md5 enc⟩, enc, input)],
        ?_, ?_, ?_, ?_⟩
      · rw [← h3, hchunks2]
        simp
      · rw [← h2, hbuf2]
        simp
      · rw [← h1]
        simp
      · exact ⟨⟨rfl, rfl,
          chunk_handle_ok ext keys hzd inner hwfi input enc chunks.length
            hpi⟩, trivial⟩

theorem processBlocks_spec (ext : BExt) (keys : TactKeys)
    (hzd : ∀ lvl w d, ext.zd (ext.zc lvl w d) = some d) :
    ∀ (bs : List EBlock) (input buf : List Nat) (chunks : List ChunkInfo)
      (rest' buf' : List Nat) (chunks' : List ChunkInfo),
      (∀ b ∈ bs, especInnerWf (blockInner b) = true) →
      processBlocks ext keys bs input buf chunks =
        .ok (rest', buf', chunks') →
      ∃ ps, chunks' = chunks ++ ps.map (fun p => p.1) ∧
        buf' = buf ++ (ps.map fun p => p.2.1).flatten ∧
        input = (ps.map fun p => p.2.2).flatten ++ rest' ∧
        ChunksOk ext keys chunks.length ps := by
  intro bs
  induction bs with
  | nil =>
    intro input buf chunks rest' buf' chunks' _ h
    simp only [processBlocks, Except.ok.injEq, Prod.mk.injEq] at h
    obtain ⟨h1, h2, h3⟩ := h
    exact ⟨[], by simp [← h1, ← h2, ← h3, ChunksOk]⟩
  | cons b bs ih =>
    intro input buf chunks rest' buf' chunks' hwf h
    rw [processBlocks] at h
    cases hpb : processBlock ext keys b input buf chunks with
    | error e => rw [hpb] at h; exact Except.noConfusion h
    | ok v =>
      obtain ⟨rest1, buf1, chunks1⟩ := v
      rw [hpb] at h
      obtain ⟨ps1, hch1, hbu1, hin1, hok1⟩ :=
        processBlock_spec ext keys hzd b (hwf b (by simp)) input buf chunks
          rest1 buf1 chunks1 hpb
      obtain ⟨ps2, hch2, hbu2, hin2, hok2⟩ :=
        ih rest1 buf1 chunks1 rest' buf' chunks'
          (fun x hx => hwf x (by simp [hx])) h
      refine ⟨ps1 ++ ps2, ?_, ?_, ?_, ?_⟩
      · rw [hch2, hch1]
        simp [List.append_assoc]
      · rw [hbu2, hbu1]
        simp [List.append_assoc]
      · rw [hin1, hin2]
        simp [List.append_assoc]
      · refine chunksOk_append ext keys ps1 ps2 chunks.length hok1 ?_
        have hlen : chunks1.length = chunks.length + ps1.length := by
          rw [hch1]
          simp
        rwa [hlen] at hok2

theorem processTop_blocks_spec (ext : BExt) (keys : TactKeys)
    (hzd : ∀ lvl w d, ext.zd (ext.zc lvl w d) = some d)
    (bs : List EBlock) (fin : EBlock) (input buf : List Nat)
    (chunks : List ChunkInfo)
    (hwf : especWfB (.blocks bs fin) = true)
    (h : processTop ext keys (.blocks bs fin) input = .ok (buf, chunks)) :
    ∃ ps, chunks = ps.map (fun p => p.1) ∧
      buf = (ps.map fun p => p.2.1).flatten ∧
      input = (ps.map fun p => p.2.2).flatten ∧
      ChunksOk ext keys 0 ps := by
  simp only [especWfB, Bool.and_eq_true, List.all_eq_true] at hwf
  obtain ⟨hwfbs, hwffin⟩ := hwf
  rw [processTop] at h
  cases hpb : processBlocks ext keys bs input [] [] with
  | error e => rw [hpb] at h; exact Except.noConfusion h
  | ok v =>
    obtain ⟨rest1, buf1, chunks1⟩ := v
    simp only [hpb] at h
    cases hpf : processBlock ext keys fin rest1 buf1 chunks1 with
    | error e =>
      simp only [hpf] at h
      exact Except.noConfusion h
    | ok w =>
      obtain ⟨rest2, buf2, chunks2⟩ := w
      simp only [hpf] at h
      by_cases he : rest2.isEmpty
      · rw [if_pos he] at h
        simp only [Except.ok.injEq, Prod.mk.injEq] at h
        obtain ⟨hb, hc⟩ := h
        obtain ⟨ps1, hch1, hbu1, hin1, hok1⟩ :=
          processBlocks_spec ext keys hzd bs input [] [] rest1 buf1 chunks1
            hwfbs hpb
        obtain ⟨ps2, hch2, hbu2, hin2, hok2⟩ :=
          processBlock_spec ext keys hzd fin hwffin rest1 buf1 chunks1 rest2
            buf2 chunks2 hpf
        have hrest2 : rest2 = [] := by simpa [List.isEmpty_iff] using he
        refine ⟨ps1 ++ ps2, ?_, ?_, ?_, ?_⟩
        · rw [← hc, hch2, hch1]
          simp
        · rw [← hb, hbu2, hbu1]
          simp
        · rw [hin1, hin2, hrest2]
          simp [List.append_assoc]
        · refine chunksOk_append ext keys ps1 ps2 0 (by simpa using hok1) ?_
          have hlen : chunks1.length = 0 + ps1.length := by
            rw [hch1]
            simp
          rwa [hlen] at hok2
      · rw [if_neg he] at h
        exact Except.noConfusion h

theorem chunksOk_fields (ext : BExt) (keys : TactKeys) :
    ∀ (ps : List (ChunkInfo × List Nat × List Nat)) (k : Nat),
      ChunksOk ext keys k ps →
      ∀ p ∈ ps, p.1.checksum = ext.md5 p.2.1 ∧
        p.1.compressed_size = p.2.1.length
  | [], _, _, p, hp => by simp at hp
  | q :: ps, k, hok, p, hp => by
    obtain ⟨c, e, o⟩ := q
    obtain ⟨⟨h1, h2, _⟩, hrest⟩ := hok
    rcases List.mem_cons.mp hp with h | h
    · subst h
      exact ⟨h2, h1⟩
    · exact chunksOk_fields ext keys ps (k + 1) hrest p h

/-- Decoding the chunked container the encoder produced. -/
theorem decode_encode_chunked (ext : BExt) (keys : TactKeys)
    (hmd5 : ∀ d, (ext.md5 d).length = 16)
    (ps : List (ChunkInfo × List Nat × List Nat))
    (input out buf : List Nat) (chunks : List ChunkInfo)
    (hch : chunks = ps.map (fun p => p.1))
    (hbu : buf = (ps.map fun p => p.2.1).flatten)
    (hin : input = (ps.map fun p => p.2.2).flatten)
    (hok : ChunksOk ext keys 0 ps)
    (hne : chunks ≠ []) (hcw : chunksWf chunks = true)
    (hout : out =
      serializeHeader ((4 + 1 + 3 + 4 + 24 * chunks.length) % 4294967296)
        chunks ++ buf) :
    decodeBlte ext keys out = .ok input := by
  simp only [chunksWf, Bool.and_eq_true, decide_eq_true_eq,
    List.all_eq_true] at hcw
  obtain ⟨hlen24, hall⟩ := hcw
  have hper : ∀ ci ∈ chunks, ci.checksum.length = 16 ∧
      ci.compressed_size < 4294967296 ∧ ci.decompressed_size < 4294967296 := by
    intro ci hci
    obtain ⟨hb1, hb2⟩ := by
      have := hall ci hci
      simpa [Bool.and_eq_true, decide_eq_true_eq] using this
    refine ⟨?_, hb1, hb2⟩
    rw [hch] at hci
    obtain ⟨p, hp, hpe⟩ := List.mem_map.mp hci
    have := (chunksOk_fields ext keys ps 0 hok p hp).1
    rw [← hpe, this, hmd5]
  have hhs : (4 + 1 + 3 + 4 + 24 * chunks.length) % 4294967296 =
      12 + 24 * chunks.length := by
    rw [Nat.mod_eq_of_lt (by omega)]
  rw [hout, hhs]
  have hparse := parse_serializeHeader_chunked chunks buf hlen24 hper
  have hslen : (serializeHeader (12 + 24 * chunks.length) chunks).length =
      12 + 24 * chunks.length :=
    serializeHeader_length _ (by omega) chunks (fun ci hci => (hper ci hci).1)
  have hie : chunks.isEmpty = false := by
    simpa [List.isEmpty_iff] using hne
  have hdrop : (serializeHeader (12 + 24 * chunks.length) chunks ++ buf).drop
      (12 + 24 * chunks.length) = buf := by
    have hd := List.drop_left (serializeHeader (12 + 24 * chunks.length)
      chunks) buf
    rwa [hslen] at hd
  have hpos : 12 + 24 * chunks.length ≤
      (serializeHeader (12 + 24 * chunks.length) chunks ++ buf).length := by
    rw [List.length_append, hslen]
    omega
  have hdc := decodeChunks_spec ext keys ps 0 (12 + 24 * chunks.length) []
    (serializeHeader (12 + 24 * chunks.length) chunks ++ buf) hok hpos
    (by rw [hdrop, hbu])
  rw [← hch] at hdc
  unfold decodeBlte
  simp only [hparse, hie, Bool.false_eq_true, if_false, hdc, hin]
  simp

/-- Decoding the implicit single-chunk container the encoder produced for
a top-level Raw/Zip/Encrypted spec. -/
theorem decode_encode_single (ext : BExt) (keys : TactKeys)
    (hzd : ∀ lvl w d, ext.zd (ext.zc lvl w d) = some d)
    (esp : ESpec) (input out buf : List Nat)
    (hwfi : especInnerWf esp = true)
    (hpi : processInner ext keys esp input 0 = .ok buf)
    (hout : out = serializeHeader 0 [] ++ buf) :
    decodeBlte ext keys out = .ok input := by
  have hhandle : ∀ o, handleDataBlock ext keys (buf.length + 1) buf 0
      ⟨buf.length, 0, ext.md5 buf⟩ o = .ok (o ++ input) := fun o =>
    handleDataBlock_processInner ext keys hzd (sizeOf esp + 1) esp input 0
      buf (buf.length + 1) ⟨buf.length, 0, ext.md5 buf⟩ o
      (Nat.lt_succ_self _) hwfi hpi (Or.inl rfl) (Nat.lt_succ_self _)
  rw [hout]
  have hdrop : (serializeHeader 0 [] ++ buf).drop 8 = buf := rfl
  have hcond : (serializeHeader 0 [] ++ buf).length - 8 = buf.length := by
    simp [serializeHeader, u32BE]
  have hdc := decodeChunks_spec ext keys
    [(⟨buf.length, 0, ext.md5 buf⟩, buf, input)] 0 8 []
    (serializeHeader 0 [] ++ buf) ⟨⟨rfl, rfl, hhandle⟩, trivial⟩
    (by simp [serializeHeader, u32BE]) (by simpa using hdrop)
  simp only [List.map_cons, List.map_nil, List.flatten_cons, List.flatten_nil,
    List.append_nil, List.nil_append] at hdc
  unfold decodeBlte
  simp only [parse_serializeHeader_empty buf, List.isEmpty_nil, if_true,
    hdrop, hcond, eq_self_iff_true]
  exact hdc

theorem processTop_single_inv (ext : BExt) (keys : TactKeys) (esp : ESpec)
    (input buf : List Nat) (chunks : List ChunkInfo)
    (h : processTop ext keys esp input = .ok (buf, chunks))
    (hnb : ∀ bs fin, esp ≠ ESpec.blocks bs fin) :
    chunks = [] ∧ processInner ext keys esp input 0 = .ok buf := by
  have key : ∀ e : ESpec,
      processTop ext keys e input = .ok (buf, chunks) →
      processTop ext keys e input =
        (match processInner ext keys e input 0 with
         | .error e2 => .error e2
         | .ok innerOut => .ok (innerOut, [])) →
      chunks = [] ∧ processInner ext keys e input 0 = .ok buf := by
    intro e he heq
    rw [heq] at he
    cases hpi : processInner ext keys e input 0 with
    | error e2 => rw [hpi] at he; exact Except.noConfusion he
    | ok innerOut =>
      rw [hpi] at he
      simp only [Except.ok.injEq, Prod.mk.injEq] at he
      exact ⟨he.2.symm, by rw [he.1]⟩
  cases esp with
  | blocks bs fin => exact absurd rfl (hnb bs fin)
  | raw => exact key _ h rfl
  | zip level bits => exact key _ h rfl
  | encrypted keyName iv inner => exact key _ h rfl

/-- C1 counterexample: the ESpec Blocks{blocks: [], final: ChunkedGreedy{1}}
on the EMPTY input encodes successfully into a container with zero chunks
("BLTE" plus a zero header_size and nothing else), but decoding that
container fails: the decoder synthesises one implicit chunk over the empty
trailer and handle_data_block rejects its empty payload ("Expected at
least one byte for block"), so the round-trip of the claim does not hold.
The external primitives are instantiated with the identity codec (the
failure is structural and touches none of them). -/
theorem C1_counterexample :
    encodeBlte extTriv [] (.blocks [] (.mk (.chunkedGreedy 1) .raw)) [] =
      .ok [66, 76, 84, 69, 0, 0, 0, 0] ∧
    decodeBlte extTriv [] [66, 76, 84, 69, 0, 0, 0, 0] =
      .error .emptyChunkErr :=
  ⟨rfl, rfl⟩

/-- C1 (amended): the round-trip decode(keys, encode(keys, espec, input))
= input holds whenever (a) the zlib primitives invert each other and MD5
is 16 bytes wide, (b) the spec tree is well formed (chunk-level inner
specs only Raw/Zip/Encrypted, encrypted key names 8 and IVs 4 bytes), (c)
the encode actually produced at least one chunk when the spec is Blocks
(a ChunkedGreedy final block over an already-exhausted input yields a
chunkless container that the decoder rejects - see the counterexample),
and (d) the chunk table survives the u32/u24 header casts. -/
theorem C1_roundtrip_amended :
    ∀ (ext : BExt) (keys : TactKeys) (espec : ESpec)
      (input out buf : List Nat) (chunks : List ChunkInfo),
      (∀ d, (ext.md5 d).length = 16) →
      (∀ lvl w d, ext.zd (ext.zc lvl w d) = some d) →
      especWfB espec = true →
      processTop ext keys espec input = .ok (buf, chunks) →
      chunksWf chunks = true →
      (∀ bs fin, espec = .blocks bs fin → chunks ≠ []) →
      encodeBlte ext keys espec input = .ok out →
      decodeBlte ext keys out = .ok input := by
  intro ext keys espec input out buf chunks hmd5 hzd hwf htop hcw hne henc
  unfold encodeBlte at henc
  simp only [htop] at henc
  simp only [Except.ok.injEq] at henc
  cases espec with
  | blocks bs fin =>
    have hnechunks := hne bs fin rfl
    have hie : chunks.isEmpty = false := by
      simpa [List.isEmpty_iff] using hnechunks
    rw [hie] at henc
    simp only [Bool.false_eq_true, if_false] at henc
    obtain ⟨ps, hch, hbu, hin, hok⟩ :=
      processTop_blocks_spec ext keys hzd bs fin input buf chunks hwf htop
    exact decode_encode_chunked ext keys hmd5 ps input out buf chunks hch hbu
      hin hok hnechunks hcw henc.symm
  | raw =>
    obtain ⟨hc0, hpi⟩ := processTop_single_inv ext keys _ input buf chunks
      htop (fun bs fin hx => ESpec.noConfusion hx)
    subst hc0
    simp only [List.isEmpty_nil, if_true] at henc
    exact decode_encode_single ext keys hzd _ input out buf
      (by simpa [especWfB] using hwf) hpi henc.symm
  | zip level bits =>
    obtain ⟨hc0, hpi⟩ := processTop_single_inv ext keys _ input buf chunks
      htop (fun bs fin hx => ESpec.noConfusion hx)
    subst hc0
    simp only [List.isEmpty_nil, if_true] at henc
    exact decode_encode_single ext keys hzd _ input out buf
      (by simpa [especWfB] using hwf) hpi henc.symm
  | encrypted keyName iv inner =>
    obtain ⟨hc0, hpi⟩ := processTop_single_inv ext keys _ input buf chunks
      htop (fun bs fin hx => ESpec.noConfusion hx)
    subst hc0
    simp only [List.isEmpty_nil, if_true] at henc
    exact decode_encode_single ext keys hzd _ input out buf
      (by simpa [especWfB] using hwf) hpi henc.symm

/-- C1 witness: the amended round-trip applied to a concrete chunked
container - Blocks([Chunked{2,2} = Raw], Greedy = Raw) over the five-byte
input - with every hypothesis discharged on the concrete values. -/
theorem C1_roundtrip_amended_witness :
    encodeBlte extTriv [] (.blocks [.mk (.chunked 2 2) .raw]
        (.mk .greedy .raw)) [1, 2, 3, 4, 5] =
      .ok [66, 76, 84, 69, 0, 0, 0, 84, 15, 0, 0, 3,
        0, 0, 0, 3, 0, 0, 0, 2, 0, 0, 0, 0, 0, 0, 0, 0, 0, 0, 0, 0, 0, 0,
          0, 0, 0, 0, 0, 3,
        0, 0, 0, 2, 0, 0, 0, 0, 0, 0, 0, 0, 0, 0, 0, 0, 0, 0, 0, 0,
        0, 0, 0, 2, 0, 0, 0, 1, 0, 0, 0, 0, 0, 0, 0, 0, 0, 0, 0, 0, 0, 0,
          0, 0,
        78, 1, 2, 78, 3, 4, 78, 5] ∧
    decodeBlte extTriv [] [66, 76, 84, 69, 0, 0, 0, 84, 15, 0, 0, 3,
        0, 0, 0, 3, 0, 0, 0, 2, 0, 0, 0, 0, 0, 0, 0, 0, 0, 0, 0, 0, 0, 0,
          0, 0, 0, 0, 0, 3,
        0, 0, 0, 2, 0, 0, 0, 0, 0, 0, 0, 0, 0, 0, 0, 0, 0, 0, 0, 0,
        0, 0, 0, 2, 0, 0, 0, 1, 0, 0, 0, 0, 0, 0, 0, 0, 0, 0, 0, 0, 0, 0,
          0, 0,
        78, 1, 2, 78, 3, 4, 78, 5] = .ok [1, 2, 3, 4, 5] :=
  ⟨rfl,
    C1_roundtrip_amended extTriv []
      (.blocks [.mk (.chunked 2 2) .raw] (.mk .greedy .raw))
      [1, 2, 3, 4, 5] _ [78, 1, 2, 78, 3, 4, 78, 5]
      [⟨3, 2, List.replicate 16 0⟩, ⟨3, 2, List.replicate 16 0⟩,
        ⟨2, 1, List.replicate 16 0⟩]
      (fun d => rfl) (fun lvl w d => rfl) (by decide) rfl (by decide)
      (fun bs fin h => by decide) rfl⟩

/-- C6: the 'F' (recursive BLTE) chunk mode is not implemented: instead of
decoding the payload as a nested container and appending its output, the
code hits todo!("recursive blte block") and panics, for every chunk whose
payload begins with the mode byte 'F' - shown both for the dispatcher on
an arbitrary F payload and end to end on a concrete container. -/
theorem C6_mode_F_todo :
    (∀ (ext : BExt) (keys : TactKeys) (fuel : Nat) (body : List Nat)
      (index : Nat) (ci : ChunkInfo) (out : List Nat),
      handleDataBlock ext keys (fuel + 1) (70 :: body) index ci out =
        .error .todoPanicF) ∧
    decodeBlte extTriv [] [66, 76, 84, 69, 0, 0, 0, 0, 70] =
      .error .todoPanicF := by
  refine ⟨fun ext keys fuel body index ci out => ?_, rfl⟩
  simp [handleDataBlock]

/-- C7: for an encrypted ('E') chunk with a well-formed encrypt frame, if
the 8-byte key name is not in TactKeys (whatever the frame's cipher type
byte), or if the key is known, the type is 'S', and the Salsa20-decrypted
payload's first byte is none of N/Z/F/E, then the handler appends exactly
decompressed_size zero bytes and returns successfully. -/
theorem C7_encrypted_zero_fill :
    ∀ (ext : BExt) (keys : TactKeys) (fuel : Nat)
      (keyName iv payload : List Nat) (ty index : Nat) (ci : ChunkInfo)
      (out : List Nat),
      keyName.length = 8 → iv.length = 4 →
      (getKey keys keyName = none →
        handleDataBlock ext keys (fuel + 1)
          (69 :: 8 :: (keyName ++ 4 :: (iv ++ ty :: payload))) index ci out =
          .ok (out ++ List.replicate ci.decompressed_size 0)) ∧
      (∀ key b rest, getKey keys keyName = some key → ty = 83 →
        salsaCrypt ext.ks key (fullIv iv index) payload = b :: rest →
        b ≠ 78 → b ≠ 90 → b ≠ 70 → b ≠ 69 →
        handleDataBlock ext keys (fuel + 1)
          (69 :: 8 :: (keyName ++ 4 :: (iv ++ ty :: payload))) index ci out =
          .ok (out ++ List.replicate ci.decompressed_size 0)) := by
  intro ext keys fuel keyName iv payload ty index ci out hk8 hiv4
  have hdrop8 : (keyName ++ 4 :: (iv ++ ty :: payload)).drop 8 =
      4 :: (iv ++ ty :: payload) := by
    rw [← hk8, List.drop_left]
  have htake8 : (keyName ++ 4 :: (iv ++ ty :: payload)).take 8 = keyName := by
    rw [← hk8, List.take_left]
  have hdrop4 : (iv ++ ty :: payload).drop 4 = ty :: payload := by
    rw [← hiv4, List.drop_left]
  have htake4 : (iv ++ ty :: payload).take 4 = iv := by
    rw [← hiv4, List.take_left]
  constructor
  · intro hnone
    simp only [handleDataBlock]
    norm_num
    simp only [hdrop8, htake8, hdrop4, htake4, hnone]
    simp
  · intro key b rest hsome hty hsalsa hb1 hb2 hb3 hb4
    subst hty
    simp only [handleDataBlock]
    norm_num
    simp only [hdrop8, htake8, hdrop4, htake4, hsome, hsalsa,
      List.head?_cons]
    norm_num
    simp [hb1, hb2, hb3, hb4]

/-- C7 witness: the zero-fill applied concretely - an unknown key name in
an empty key table yields exactly decompressed_size (3) zero bytes. -/
theorem C7_encrypted_zero_fill_witness :
    ([1, 2, 3, 4, 5, 6, 7, 8] : List Nat).length = 8 ∧
    ([9, 9, 9, 9] : List Nat).length = 4 ∧
    getKey [] [1, 2, 3, 4, 5, 6, 7, 8] = none ∧
    handleDataBlock extTriv [] 1
      (69 :: 8 :: ([1, 2, 3, 4, 5, 6, 7, 8] ++ 4 :: ([9, 9, 9, 9] ++
        83 :: [7]))) 0 ⟨0, 3, []⟩ [] = .ok (List.replicate 3 0) :=
  ⟨rfl, rfl, rfl, by
    have h := (C7_encrypted_zero_fill extTriv [] 0 [1, 2, 3, 4, 5, 6, 7, 8]
      [9, 9, 9, 9] [7] 83 0 ⟨0, 3, []⟩ [] rfl rfl).1 rfl
    simpa using h⟩

end Steed

/-- C3 counterexample: with the second and third arguments read as the pc and
pb seeds in that order (as the claim states), the second fixed vector fails:
hashlittle2 of the empty string with pc = 0xDEADBEEF and pb = 0 yields
(0xBD5B7DDE, 0xBD5B7DDE), not the claimed (0xBD5B7DDE, 0xDEADBEEF). -/
theorem C3_counterexample :
    Steed.hashlittle2 [] 0xDEADBEEF 0 = (0xBD5B7DDE, 0xBD5B7DDE) ∧
    Steed.hashlittle2 [] 0xDEADBEEF 0 ≠ (0xBD5B7DDE, 0xDEADBEEF) := by
  decide

/-- C3 (amended): hashlittle2 reproduces the five fixed vectors of the
specification bit-exactly, with the second vector taking the seeds as
pc = 0, pb = 0xDEADBEEF (the seed roles of vector 2 are swapped relative to
the claim); the remaining four vectors hold exactly as stated. -/
theorem C3_hashlittle2_fixed_vectors :
    Steed.hashlittle2 [] 0 0 = (0xDEADBEEF, 0xDEADBEEF) ∧
    Steed.hashlittle2 [] 0 0xDEADBEEF = (0xBD5B7DDE, 0xDEADBEEF) ∧
    Steed.hashlittle2 Steed.fourScore 0 0 = (0x17770551, 0xCE7226E6) ∧
    Steed.hashlittle2 Steed.fourScore 0 1 = (0xE3607CAE, 0xBD371DE4) ∧
    Steed.hashlittle2 Steed.fourScore 1 0 = (0xCD628161, 0x6CBEA4B3) := by
  decide
